import Mathlib

/-!
Verification of the front-matter reconciler in `scripts/gen_index.py`.

The development shallowly embeds the Python program:

* YAML-style data (the values stored in the front matter) become the
  inductive type `Value`; Python dictionaries become association lists
  that preserve insertion order, with Python assignment semantics
  (update in place, append when the key is new).
* Python text operations (`str.splitlines`, `str.strip`, `"\n".join`)
  are implemented character for character, restricted to the line
  break and whitespace characters that actually occur in manifests.
* Fallible Python code (dictionary indexing of missing keys, attribute
  or type errors on mistyped fields) returns `Option`: `none` models an
  uncaught exception escaping the function.
* The external YAML library (`yaml.safe_load` and `yaml.dump`) is an
  external collaborator; it is a parameter (`YamlCodec`) of the run
  function, and theorems that need its behaviour take round-trip
  hypotheses.  The directory listing and the EXIF extractor are also
  external; a run receives the listed file names together with the
  extractor output for each file (`ImageInfo`).
-/

namespace GenIndex

/-! ## Python text primitives -/

/-- Line-break characters recognised by Python `str.splitlines`. -/
def isLineBreak (c : Char) : Bool :=
  c = '\n' || c = '\r' || c = '\x0b' || c = '\x0c' ||
  c = '\x1c' || c = '\x1d' || c = '\x1e' || c = '\x85' ||
  c = ' ' || c = ' '

/-- Whitespace characters stripped by Python `str.strip` (the subset
relevant here: ASCII whitespace plus the line-break characters and the
common Unicode spaces; the full Unicode space category is not needed by
any manifest text). -/
def isPySpace (c : Char) : Bool :=
  c = ' ' || c = '\t' || isLineBreak c || c = '\xa0'

/-- Worker for `str.splitlines`: accumulates the current line (reversed)
and splits at every line break, treating a carriage return followed by a
line feed as a single break. -/
def splitLinesAux : List Char → List Char → List (List Char)
  | [], acc => if acc.isEmpty then [] else [acc.reverse]
  | c :: cs, acc =>
    if isLineBreak c then
      match cs with
      | d :: cs2 =>
        if c = '\r' ∧ d = '\n' then acc.reverse :: splitLinesAux cs2 []
        else acc.reverse :: splitLinesAux (d :: cs2) []
      | [] => [acc.reverse]
    else splitLinesAux cs (c :: acc)

/-- Python `text.splitlines()`. -/
def pySplitlines (s : String) : List String :=
  (splitLinesAux s.data []).map (fun l => ⟨l⟩)

/-- Python `s.strip()` on both ends. -/
def pyStrip (s : String) : String :=
  ⟨((s.data.dropWhile isPySpace).reverse.dropWhile isPySpace).reverse⟩

/-- Python `"\n".join(lines)`. -/
def joinN : List String → String
  | [] => ""
  | [s] => s
  | s :: rest => s ++ "\n" ++ joinN rest

/-- Python `s.endswith("\n")`. -/
def endsWithNl (s : String) : Bool :=
  s.data.getLast? = some '\n'

/-- Substring test, Python `needle in hay` on strings. -/
def infixOf (needle : List Char) : List Char → Bool
  | [] => needle.isEmpty
  | c :: cs => needle.isPrefixOf (c :: cs) || infixOf needle cs

/-- Python `pathlib.Path(name).stem`: the final component without its
suffix; the suffix starts at the last dot provided that dot is neither
the first character nor the last. -/
def pathStem (name : String) : String :=
  let cs := name.data
  match cs.reverse.findIdx? (fun c => c = '.') with
  | none => name
  | some jrev =>
    let i := cs.length - 1 - jrev
    if 0 < i ∧ i < cs.length - 1 then ⟨cs.take i⟩ else name

/-! ## The value model -/

/-- YAML-style values as stored in the front matter.  Mappings keep
string keys in insertion order (floating point numbers do not occur in
any claim and are not modelled). -/
inductive Value where
  | null : Value
  | bool : Bool → Value
  | int : Int → Value
  | str : String → Value
  | list : List Value → Value
  | dict : List (String × Value) → Value
deriving Repr, Inhabited

mutual

def decEqValue (a b : Value) : Decidable (a = b) := by
  cases a <;> cases b <;>
    try { apply isFalse ; intro h ; injection h }
  case null.null => exact isTrue rfl
  case bool.bool x y =>
    exact match decEq x y with
    | isTrue h => isTrue (by rw [h])
    | isFalse hn => isFalse (by intro h ; injection h ; contradiction)
  case int.int x y =>
    exact match decEq x y with
    | isTrue h => isTrue (by rw [h])
    | isFalse hn => isFalse (by intro h ; injection h ; contradiction)
  case str.str x y =>
    exact match decEq x y with
    | isTrue h => isTrue (by rw [h])
    | isFalse hn => isFalse (by intro h ; injection h ; contradiction)
  case list.list xs ys =>
    exact match decEqValueList xs ys with
    | isTrue h => isTrue (by rw [h])
    | isFalse hn => isFalse (by intro h ; injection h ; contradiction)
  case dict.dict xs ys =>
    exact match decEqValuePairs xs ys with
    | isTrue h => isTrue (by rw [h])
    | isFalse hn => isFalse (by intro h ; injection h ; contradiction)

def decEqValueList (xs ys : List Value) : Decidable (xs = ys) :=
  match xs, ys with
  | [], [] => isTrue rfl
  | _ :: _, [] => isFalse (by intro h ; exact List.noConfusion h)
  | [], _ :: _ => isFalse (by intro h ; exact List.noConfusion h)
  | x :: xs, y :: ys =>
    match decEqValue x y, decEqValueList xs ys with
    | isTrue h1, isTrue h2 => isTrue (by rw [h1, h2])
    | isFalse h1, _ => isFalse (by intro h ; injection h ; contradiction)
    | _, isFalse h2 => isFalse (by intro h ; injection h ; contradiction)

def decEqValuePairs (xs ys : List (String × Value)) : Decidable (xs = ys) :=
  match xs, ys with
  | [], [] => isTrue rfl
  | _ :: _, [] => isFalse (by intro h ; exact List.noConfusion h)
  | [], _ :: _ => isFalse (by intro h ; exact List.noConfusion h)
  | (k, x) :: xs, (l, y) :: ys =>
    match decEq k l, decEqValue x y, decEqValuePairs xs ys with
    | isTrue h0, isTrue h1, isTrue h2 => isTrue (by rw [h0, h1, h2])
    | isFalse h0, _, _ =>
      isFalse (by intro h ; injection h with hp ht ; injection hp ; contradiction)
    | _, isFalse h1, _ =>
      isFalse (by intro h ; injection h with hp ht ; injection hp ; contradiction)
    | _, _, isFalse h2 => isFalse (by intro h ; injection h ; contradiction)

end

instance : DecidableEq Value := decEqValue

/-! ## Python dictionary and value semantics -/

/-- Lookup in an insertion-ordered mapping with string keys. -/
def dGet (kvs : List (String × Value)) (k : String) : Option Value :=
  (kvs.find? (fun p => p.1 = k)).map (fun p => p.2)

/-- Key-membership test. -/
def dHas (kvs : List (String × Value)) (k : String) : Bool :=
  kvs.any (fun p => p.1 = k)

/-- Python dictionary assignment `d[k] = v`: the value of an existing
key is updated in place (keeping its position), a new key is appended. -/
def dSet (kvs : List (String × Value)) (k : String) (v : Value) :
    List (String × Value) :=
  if dHas kvs k then kvs.map (fun p => if p.1 = k then (p.1, v) else p)
  else kvs ++ [(k, v)]

/-- Lookup in an insertion-ordered mapping whose keys are arbitrary
values (used for `existing_by_src`, which is keyed by the `src` field). -/
def vGet (kvs : List (Value × Value)) (k : Value) : Option Value :=
  (kvs.find? (fun p => p.1 = k)).map (fun p => p.2)

/-- Membership in a value-keyed mapping. -/
def vHas (kvs : List (Value × Value)) (k : Value) : Bool :=
  kvs.any (fun p => p.1 = k)

/-- Assignment into a value-keyed mapping, Python semantics. -/
def vSet (kvs : List (Value × Value)) (k v : Value) :
    List (Value × Value) :=
  if vHas kvs k then kvs.map (fun p => if p.1 = k then (p.1, v) else p)
  else kvs ++ [(k, v)]

/-- Python truthiness of a value. -/
def pyTruthy : Value → Bool
  | .null => false
  | .bool b => b
  | .int n => n ≠ 0
  | .str s => s ≠ ""
  | .list xs => !xs.isEmpty
  | .dict kvs => !kvs.isEmpty

/-- Python `v in (None, "", [])`, the emptiness test used by the merge
loop for the date, location and tags fields. -/
def inEmptyTuple (v : Value) : Bool :=
  v = Value.null || v = Value.str "" || v = Value.list []

/-- Python `v in (None, "")`, the test used by the weight loop. -/
def weightMissing (v : Value) : Bool :=
  v = Value.null || v = Value.str ""

/-- Python `d[k]` on a value: returns `none` (an uncaught `KeyError` or
`TypeError`) unless `v` is a mapping that has the key. -/
def pyGetItem : Value → String → Option Value
  | .dict kvs, k => dGet kvs k
  | _, _ => none

/-- Python `d[k] = x` on a value: only mappings support string-keyed
assignment, everything else raises. -/
def pySetItem : Value → String → Value → Option Value
  | .dict kvs, k, x => some (.dict (dSet kvs k x))
  | _, _, _ => none

/-- Python `d.setdefault(k, dflt)` (only the mutation, not the returned
value): raises on non-mappings, inserts only when the key is absent. -/
def pySetdefault : Value → String → Value → Option Value
  | .dict kvs, k, dflt =>
    some (.dict (if dHas kvs k then kvs else kvs ++ [(k, dflt)]))
  | _, _, _ => none

/-- Python `d.get(k, dflt)`: raises (`AttributeError`) on non-mappings. -/
def pyGetD : Value → String → Value → Option Value
  | .dict kvs, k, dflt => some ((dGet kvs k).getD dflt)
  | _, _, _ => none

/-- Python `d.get(k)` with the implicit `None` default. -/
def pyGet (v : Value) (k : String) : Option Value :=
  pyGetD v k .null

/-- Python `k in v` for a string `k`: key test on mappings, substring
test on strings, element test on lists, `TypeError` otherwise. -/
def pyIn (k : String) : Value → Option Bool
  | .dict kvs => some (dHas kvs k)
  | .str s => some (infixOf k.data s.data)
  | .list xs => some (xs.any (fun x => x = Value.str k))
  | _ => none

/-- Python nested assignment `r[k1][k2] = x` (read the inner mapping,
assign into it; in the source the inner object is mutated in place). -/
def pySetItem2 (r : Value) (k1 k2 : String) (x : Value) : Option Value := do
  let inner ← pyGetItem r k1
  let inner2 ← pySetItem inner k2 x
  pySetItem r k1 inner2

/-- Digit test for Python `int(str)`. -/
def isAsciiDigit (c : Char) : Bool := '0' ≤ c && c ≤ '9'

/-- Numeric value of an ASCII digit. -/
def dval (c : Char) : Nat := c.toNat - 48

/-- Remaining digits of a Python integer literal: digits with single
underscores allowed between digits. -/
def parseIntDigits : List Char → Nat → Option Nat
  | [], acc => some acc
  | '_' :: c :: cs, acc =>
    if isAsciiDigit c then parseIntDigits cs (acc * 10 + dval c) else none
  | ['_'], _ => none
  | c :: cs, acc =>
    if isAsciiDigit c then parseIntDigits cs (acc * 10 + dval c) else none

/-- Nonempty digit sequence (must start with a digit). -/
def parseNatDigits : List Char → Option Nat
  | [] => none
  | c :: cs => if isAsciiDigit c then parseIntDigits cs (dval c) else none

/-- Python `int(s)` for a string: strips whitespace, then an optional
sign and digits. -/
def parsePyIntStr (s : String) : Option Int :=
  match (pyStrip s).data with
  | '+' :: rest => (parseNatDigits rest).map Int.ofNat
  | '-' :: rest => (parseNatDigits rest).map (fun n => -(n : Int))
  | rest => (parseNatDigits rest).map Int.ofNat

/-- Python `int(v)` under `try/except (TypeError, ValueError)`: ints
pass through, booleans are 0 or 1, parseable strings parse, everything
else is the caught-exception case `none`. -/
def pyIntOf : Value → Option Int
  | .int n => some n
  | .bool b => some (if b then 1 else 0)
  | .str s => parsePyIntStr s
  | _ => none

/-! ## Sorting file names (Python `sorted` on strings) -/

/-- Lexicographic comparison of character lists by code point. -/
def listCharLt : List Char → List Char → Bool
  | [], [] => false
  | [], _ :: _ => true
  | _ :: _, [] => false
  | a :: as, b :: bs =>
    if a < b then true else if b < a then false else listCharLt as bs

/-- Python string comparison `a < b`. -/
def strLt (a b : String) : Bool := listCharLt a.data b.data

/-- Insert into an ascending list, keeping equal elements stable. -/
def insertStr (x : String) : List String → List String
  | [] => [x]
  | y :: ys => if strLt x y then x :: y :: ys else y :: insertStr x ys

/-- Python `sorted` on a list of strings (insertion sort). -/
def pySorted (l : List String) : List String := l.foldr insertStr []

/-! ## External collaborators -/

/-- The YAML library (`yaml.safe_load` / `yaml.dump`): an external
collaborator.  `load s = none` models `safe_load` raising;
`load s = some .null` models it returning `None`. -/
structure YamlCodec where
  load : String → Option Value
  dump : Value → String

/-- Run configuration: the parsed `--common-tags` list and the
`--default-location` string. -/
structure Config where
  common_tags : List String
  default_location : String

/-- One directory entry together with the metadata extractor output for
it: `extract_metadata` is external (EXIF decoding, file times) and its
result `(date_str, loc_str)` is an input of the run. -/
structure ImageInfo where
  name : String
  metaDate : String
  metaLoc : String
deriving Repr

/-! ## The program -/

/-- Lines 157-164 of `build_resource_for_image`: the params mapping of
a candidate entry (date always, location and tags when nonempty). -/
def buildParams (cfg : Config) (img : ImageInfo) : List (String × Value) :=
  let location_val := if img.metaLoc ≠ "" then img.metaLoc else cfg.default_location
  let params0 : List (String × Value) := [("date", .str img.metaDate)]
  let params1 := if location_val ≠ "" then params0 ++ [("location", .str location_val)]
                 else params0
  if cfg.common_tags ≠ [] then params1 ++ [("tags", .list (cfg.common_tags.map .str))]
  else params1

/-- Lines 155-170, `build_resource_for_image`: the candidate entry for
one image file. -/
def build_resource_for_image (cfg : Config) (img : ImageInfo) : Value :=
  .dict [("src", .str img.name), ("title", .str (pathStem img.name)),
         ("params", .dict (buildParams cfg img))]

/-- Insertion into the string-keyed `desired_by_src` dictionary. -/
def sInsert (kvs : List (String × Value)) (k : String) (v : Value) :
    List (String × Value) := dSet kvs k v

/-- Lines 263-265 of `main`: the desired entries, keyed by file name, in
directory-listing order. -/
def desired_by_src (cfg : Config) (imgs : List ImageInfo) :
    List (String × Value) :=
  imgs.foldl (fun acc img => sInsert acc img.name (build_resource_for_image cfg img)) []

/-- Lines 183-184, `resources_to_dict`: index entries by their `src`
field, skipping non-mappings and falsy `src` values; a duplicate `src`
overwrites the earlier entry (keeping its position). -/
def resources_to_dict (rs : List Value) : List (Value × Value) :=
  rs.foldl (fun acc r =>
    match r with
    | .dict kvs =>
      let src := (dGet kvs "src").getD .null
      if pyTruthy src then vSet acc src r else acc
    | _ => acc) []

/-- One iteration of the loop over `("date", "location", "tags")` in
lines 279-283 of `main`: fill the field from the desired entry when the
existing value is absent or empty and the desired value is nonempty. -/
def mergeFillKey (dentry : Value) (r : Value) (key : String) : Option Value := do
  let params ← pyGetItem r "params"
  let isIn ← pyIn key params
  let cond ←
    if !isIn then pure true
    else do
      let g ← pyGet params key
      pure (inEmptyTuple g)
  if cond then do
    let dparams ← pyGetItem dentry "params"
    let val ← pyGet dparams key
    if !(inEmptyTuple val) then pySetItem2 r "params" key val
    else pure r
  else pure r

/-- Lines 274-284 of `main`: merging one entry whose `src` exists both
in the manifest and on disk. -/
def mergeKept (src : String) (r0 dentry : Value) : Option Value := do
  let r1 ← pySetItem r0 "title" (.str (pathStem src))
  let r2 ← pySetdefault r1 "params" (.dict [])
  ["date", "location", "tags"].foldlM (fun r key => mergeFillKey dentry r key) r2

/-- Lines 272-286 of `main`: the merge loop over the sorted desired
keys. -/
def mergeList (ex : List (Value × Value)) (des : List (String × Value)) :
    List String → Option (List Value)
  | [] => some []
  | src :: rest => do
    let e ←
      match vGet ex (.str src) with
      | some r => mergeKept src r ((dGet des src).getD .null)
      | none => pure ((dGet des src).getD .null)
    let tail ← mergeList ex des rest
    pure (e :: tail)

/-- Lines 198-204, the `existing_weights` loop: for every previously
stored entry try `int(r.get("params", {}).get("weight"))`, skipping
entries where `int` raises `TypeError` or `ValueError`; a `.get` on a
non-mapping `params` value raises an uncaught `AttributeError`. -/
def collectWeightsAux : List (Value × Value) → List Int → Option (List Int)
  | [], acc => some acc
  | p :: ps, acc => do
    let pr ← pyGetD p.2 "params" (.dict [])
    match pr with
    | .dict kvs =>
      match pyIntOf ((dGet kvs "weight").getD .null) with
      | some w => collectWeightsAux ps (acc ++ [w])
      | none => collectWeightsAux ps acc
    | _ => none

def collectWeights (prev : List (Value × Value)) : Option (List Int) :=
  collectWeightsAux prev []

/-- Line 206, `max(existing_weights.values(), default=0)`. -/
def pyMaxD : List Int → Int
  | [] => 0
  | x :: xs => xs.foldl max x

/-- Line 215, the loop condition of the second pass:
`"weight" not in r["params"] or r["params"]["weight"] in (None, "")`. -/
def needsWeight (r : Value) : Option Bool := do
  let params ← pyGetItem r "params"
  let isIn ← pyIn "weight" params
  if !isIn then pure true
  else do
    let w ← pyGetItem params "weight"
    pure (weightMissing w)

/-- Lines 213-217, the second pass of `update_weights_preserve_existing`:
assign `next_w` to every entry whose weight is missing, `None` or empty,
incrementing per assignment. -/
def assignWeights : List Value → Int → Option (List Value)
  | [], _ => some []
  | r :: rs, nw => do
    let cond ← needsWeight r
    if cond then do
      let r2 ← pySetItem2 r "params" "weight" (.int nw)
      let rest ← assignWeights rs (nw + 1)
      pure (r2 :: rest)
    else do
      let rest ← assignWeights rs nw
      pure (r :: rest)

/-- Lines 191-217, `update_weights_preserve_existing`. -/
def update_weights_preserve_existing (rs : List Value)
    (prev : List (Value × Value)) : Option (List Value) := do
  let ws ← collectWeights prev
  let maxW := pyMaxD ws
  let rs1 ← rs.mapM (fun r => pySetdefault r "params" (.dict []))
  assignWeights rs1 (maxW + 1)

/-- The per-entry condition of the `ensure_cover` scan (line 176):
`isinstance(r.get("params"), dict) and r["params"].get("cover") is True`. -/
def coverFlag (r : Value) : Option Bool :=
  match r with
  | .dict kvs =>
    match (dGet kvs "params").getD .null with
    | .dict pkvs => some ((dGet pkvs "cover").getD .null = Value.bool true)
    | _ => some false
  | _ => none

/-- The `for`-loop with `break` in lines 174-178. -/
def anyCover : List Value → Option Bool
  | [] => some false
  | r :: rs => do
    let b ← coverFlag r
    if b then pure true else anyCover rs

/-- Lines 172-181, `ensure_cover`: when no entry carries a true cover
flag and the list is nonempty, set `cover = true` on the first entry. -/
def ensure_cover (rs : List Value) : Option (List Value) := do
  let ac ← anyCover rs
  if !ac then
    match rs with
    | [] => pure rs
    | r0 :: rest => do
      let r1 ← pySetdefault r0 "params" (.dict [])
      let r2 ← pySetItem2 r1 "params" "cover" (.bool true)
      pure (r2 :: rest)
  else pure rs

/-- A line whose stripped content is the front-matter delimiter. -/
def delimLine (l : String) : Bool := pyStrip l = "---"

/-- Lines 52-72, `split_front_matter` (the leading-text component of the
source triple is always the empty string and is dropped here): returns
the parsed header and the trailing text, `none` when `yaml.safe_load`
raises. -/
def split_front_matter (load : String → Option Value) (text : String) :
    Option (Value × String) :=
  match pySplitlines text with
  | [] => some (.dict [], text)
  | l0 :: rest =>
    if delimLine l0 then
      match rest.findIdx? delimLine with
      | none => some (.dict [], text)
      | some j =>
        let fm_text := joinN (rest.take j)
        let rest2 := joinN (rest.drop (j + 1))
        if pyStrip fm_text ≠ "" then
          match load fm_text with
          | none => none
          | some d => some ((if d = Value.null then .dict [] else d), rest2)
        else some (.dict [], rest2)
    else some (.dict [], text)

/-- Lines 77-82, `join_front_matter`: delimiters around the stripped
dump of the header. -/
def join_front_matter (dump : Value → String) (front : Value) : String :=
  "---" ++ "\n" ++ pyStrip (dump front) ++ "\n" ++ "---" ++ "\n"

/-- Lines 300-302 of `main`: append the preserved body when its stripped
form is truthy, inserting a line break unless the header output already
ends in one. -/
def attach_body (output_text trailing_body : String) : String :=
  if pyStrip trailing_body ≠ "" then
    if endsWithNl output_text then output_text ++ trailing_body
    else output_text ++ "\n" ++ trailing_body
  else output_text

/-- Intermediate and final state of one reconciliation run (the
`index.md`-exists path of `main`, lines 237-302). -/
structure RunResult where
  frontParsed : Value
  body : String
  existingBySrc : List (Value × Value)
  sortedSrcs : List String
  merged0 : List Value
  mergedW : List Value
  merged : List Value
  frontFinal : Value
  output : String
deriving Repr, DecidableEq

/-- Lines 240-241 of `main`: `if not isinstance(front, dict): front = {}`. -/
def coerceFront (v : Value) : Value :=
  match v with
  | .dict kvs => .dict kvs
  | _ => .dict []

/-- Line 260 of `main`: `resources_to_dict(existing_resources) if
isinstance(existing_resources, list) else {}`. -/
def existingFrom (er : Value) : List (Value × Value) :=
  match er with
  | .list rs => resources_to_dict rs
  | _ => []

/-- Lines 237-302 of `main` on an existing manifest text: parse, merge,
assign weights, ensure a cover, rebuild the header and reattach the
body.  `none` models an uncaught exception. -/
def runCore (codec : YamlCodec) (cfg : Config) (imgs : List ImageInfo)
    (text : String) : Option RunResult := do
  let fm ← split_front_matter codec.load text
  let front := coerceFront fm.1
  let existing_resources ← pyGetD front "resources" (.list [])
  let existing_by_src := existingFrom existing_resources
  let des := desired_by_src cfg imgs
  let names := pySorted (des.map (fun p => p.1))
  let merged0 ← mergeList existing_by_src des names
  let mergedW ← update_weights_preserve_existing merged0 existing_by_src
  let merged ← ensure_cover mergedW
  let frontFinal ← pySetItem front "resources" (.list merged)
  let output := attach_body (join_front_matter codec.dump frontFinal) fm.2
  pure { frontParsed := front, body := fm.2, existingBySrc := existing_by_src,
         sortedSrcs := names, merged0 := merged0, mergedW := mergedW,
         merged := merged, frontFinal := frontFinal, output := output }

/-- The text written back by one run. -/
def runText (codec : YamlCodec) (cfg : Config) (imgs : List ImageInfo)
    (text : String) : Option String :=
  (runCore codec cfg imgs text).map (fun r => r.output)

/-! ## Observation helpers used in specifications -/

/-- A string containing no line-break character: it forms a single line. -/
def lineClean (s : String) : Bool := s.data.all (fun c => !isLineBreak c)

/-- Observation helper: the raw weight value stored in an entry. -/
def weightOf (r : Value) : Option Value := do
  let params ← pyGetItem r "params"
  pyGetItem params "weight"

/-- Number of entries before index `i` that lack a usable weight. -/
def needyCount (rs : List Value) (i : Nat) : Nat :=
  (rs.take i).countP (fun r => needsWeight r = some true)

/-- The parameter mapping of an entry, empty when the key is absent. -/
def paramsOrEmpty (kvs0 : List (String × Value)) : List (String × Value) :=
  match dGet kvs0 "params" with
  | some (.dict p) => p
  | _ => []

/-- The fill loop leaves the field `key` of a `params` mapping `pkvs`
untouched: either the stored value is present and nonempty, or both the
stored and the freshly computed (`dpkvs`) values are absent or empty. -/
def fillNoop (dpkvs pkvs : List (String × Value)) (key : String) : Prop :=
  (∃ v, dGet pkvs key = some v ∧ inEmptyTuple v = false) ∨
  (inEmptyTuple ((dGet pkvs key).getD .null) = true ∧
   inEmptyTuple ((dGet dpkvs key).getD .null) = true)

/-- An entry as left by the merge loop of one completed run: a mapping
with a `params` mapping, a title equal to the file stem (in every
binding of the key), the `src` field of its sorted position, and the
three fill keys in a state the fill loop no longer touches. -/
def preStable (name : String) (dpkvs : List (String × Value)) (e : Value) :
    Prop :=
  ∃ kvs pkvs, e = .dict kvs ∧
    dGet kvs "params" = some (.dict pkvs) ∧
    dHas kvs "title" = true ∧
    (∀ p ∈ kvs, p.1 = "title" → p.2 = .str (pathStem name)) ∧
    dGet kvs "src" = some (.str name) ∧
    fillNoop dpkvs pkvs "date" ∧ fillNoop dpkvs pkvs "location" ∧
    fillNoop dpkvs pkvs "tags"

/-- A fully reconciled entry: additionally carries a usable weight, so
the weight pass leaves it alone as well. -/
def entryStable (name : String) (dpkvs : List (String × Value))
    (e : Value) : Prop :=
  preStable name dpkvs e ∧ needsWeight e = some false

/-! ## Concrete scenarios used by the witnesses -/

/-- One image on disk whose manifest entry carries a user weight and no
date. -/
def c1Entry : Value :=
  .dict [("src", .str "a.jpg"), ("params", .dict [("weight", .int 5)])]

def c1Codec : YamlCodec :=
  ⟨fun s => if s = "X" then some (.dict [("resources", .list [c1Entry])])
            else none,
   fun _ => "Y"⟩

def c1Imgs : List ImageInfo := [⟨"a.jpg", "2024-01-01", ""⟩]

def c1Res : RunResult :=
  { frontParsed := .dict [("resources", .list [c1Entry])],
    body := "",
    existingBySrc := [(.str "a.jpg", c1Entry)],
    sortedSrcs := ["a.jpg"],
    merged0 := [.dict [("src", .str "a.jpg"),
      ("params", .dict [("weight", .int 5), ("date", .str "2024-01-01")]),
      ("title", .str "a")]],
    mergedW := [.dict [("src", .str "a.jpg"),
      ("params", .dict [("weight", .int 5), ("date", .str "2024-01-01")]),
      ("title", .str "a")]],
    merged := [.dict [("src", .str "a.jpg"),
      ("params", .dict [("weight", .int 5), ("date", .str "2024-01-01"),
        ("cover", .bool true)]),
      ("title", .str "a")]],
    frontFinal := .dict [("resources", .list [.dict [("src", .str "a.jpg"),
      ("params", .dict [("weight", .int 5), ("date", .str "2024-01-01"),
        ("cover", .bool true)]),
      ("title", .str "a")]])],
    output := "---\nY\n---\n" }

/-- A manifest entry for a file no longer on disk: `b.jpg` keeps a
stored weight 5 while the directory only holds `a.jpg`. -/
def c10Entry : Value :=
  .dict [("src", .str "b.jpg"), ("params", .dict [("weight", .int 5)])]

def c10Codec : YamlCodec :=
  ⟨fun s => if s = "X" then some (.dict [("resources", .list [c10Entry])])
            else none,
   fun _ => "Y"⟩

def c10Imgs : List ImageInfo := [⟨"a.jpg", "2024-01-01", ""⟩]

def c10Res : RunResult :=
  { frontParsed := .dict [("resources", .list [c10Entry])],
    body := "",
    existingBySrc := [(.str "b.jpg", c10Entry)],
    sortedSrcs := ["a.jpg"],
    merged0 := [.dict [("src", .str "a.jpg"), ("title", .str "a"),
      ("params", .dict [("date", .str "2024-01-01")])]],
    mergedW := [.dict [("src", .str "a.jpg"), ("title", .str "a"),
      ("params", .dict [("date", .str "2024-01-01"),
        ("weight", .int 6)])]],
    merged := [.dict [("src", .str "a.jpg"), ("title", .str "a"),
      ("params", .dict [("date", .str "2024-01-01"), ("weight", .int 6),
        ("cover", .bool true)])]],
    frontFinal := .dict [("resources",
      .list [.dict [("src", .str "a.jpg"), ("title", .str "a"),
        ("params", .dict [("date", .str "2024-01-01"),
          ("weight", .int 6), ("cover", .bool true)])]])],
    output := "---\nY\n---\n" }

/-- A codec for the run-twice counterexample: an empty directory, so the
dump is always the empty resource list. -/
def cxCodec : YamlCodec :=
  ⟨fun s => if s = "resources: []" then
      some (.dict [("resources", .list [])]) else none,
   fun _ => "resources: []"⟩

/-- The c1 codec extended so that it also round-trips the final header
written by the run (needed to feed the output back in). -/
def c2Codec : YamlCodec :=
  ⟨fun s =>
     if s = "X" then some (.dict [("resources", .list [c1Entry])])
     else if s = "Y" then some c1Res.frontFinal
     else none,
   fun _ => "Y"⟩

/-! ## Text-layer lemmas -/

theorem splitLinesAux_nil_nil : splitLinesAux [] [] = [] := rfl

theorem splitLinesAux_nil_cons (a : Char) (as : List Char) :
    splitLinesAux [] (a :: as) = [(a :: as).reverse] := rfl

theorem splitLinesAux_break (c : Char) (rest acc : List Char)
    (hb : isLineBreak c)
    (hno : ¬ (c = '\r' ∧ rest.head? = some '\n')) :
    splitLinesAux (c :: rest) acc = acc.reverse :: splitLinesAux rest [] := by
  cases rest with
  | nil => simp [splitLinesAux, hb]
  | cons d cs2 =>
    have : ¬ (c = '\r' ∧ d = '\n') := by simpa using hno
    simp [splitLinesAux, hb, this]

theorem splitLinesAux_nl (rest acc : List Char) :
    splitLinesAux ('\n' :: rest) acc = acc.reverse :: splitLinesAux rest [] := by
  apply splitLinesAux_break _ _ _ (by decide)
  rintro ⟨h, -⟩
  exact absurd h (by decide)

theorem splitLinesAux_nobreak (c : Char) (rest acc : List Char)
    (h : ¬ isLineBreak c) :
    splitLinesAux (c :: rest) acc = splitLinesAux rest (c :: acc) := by
  rw [splitLinesAux.eq_def]
  simp [h]

/-- Consuming a break-free chunk just extends the accumulator. -/
theorem splitLinesAux_clean_chunk (l : List Char)
    (hl : ∀ c ∈ l, ¬ isLineBreak c) :
    ∀ rest acc, splitLinesAux (l ++ rest) acc = splitLinesAux rest (l.reverse ++ acc) := by
  induction l with
  | nil => intro rest acc ; rfl
  | cons c l ih =>
    intro rest acc
    have hc : ¬ isLineBreak c := hl c (by simp)
    rw [List.cons_append, splitLinesAux_nobreak c _ _ hc,
        ih (fun x hx => hl x (by simp [hx])) rest (c :: acc)]
    simp

/-- Splitting after a chunk that ends in a line feed proceeds
independently on the two sides. -/
theorem splitLinesAux_append_after_nl (b : List Char) :
    ∀ a acc, a.getLast? = some '\n' →
      splitLinesAux (a ++ b) acc = splitLinesAux a acc ++ splitLinesAux b []
  | [], _, h => by simp at h
  | [c], acc, h => by
    have hc : c = '\n' := by simpa using h
    subst hc
    rw [List.singleton_append, splitLinesAux_nl, splitLinesAux_nl]
    simp [splitLinesAux]
  | c :: d :: a2, acc, h => by
    have hlast : (d :: a2).getLast? = some '\n' := by
      rw [List.getLast?_cons_cons] at h ; exact h
    by_cases hb : isLineBreak c
    · by_cases hcd : c = '\r' ∧ d = '\n'
      · obtain ⟨hc, hd⟩ := hcd
        subst hc ; subst hd
        have step : ∀ cs acc2, splitLinesAux ('\r' :: '\n' :: cs) acc2 =
            acc2.reverse :: splitLinesAux cs [] := by
          intro cs acc2 ; simp [splitLinesAux, isLineBreak]
        cases a2 with
        | nil =>
          rw [List.cons_append, List.cons_append, List.nil_append, step b acc, step [] acc]
          rfl
        | cons e a3 =>
          have hl2 : (e :: a3).getLast? = some '\n' := by
            rw [List.getLast?_cons_cons] at hlast ; exact hlast
          rw [List.cons_append, List.cons_append, step _ acc, step _ acc,
              splitLinesAux_append_after_nl b (e :: a3) [] hl2]
          simp
      · have hno : ¬ (c = '\r' ∧ ((d :: a2) ++ b).head? = some '\n') := by
          rintro ⟨hc, hhd⟩
          exact hcd ⟨hc, by simpa using hhd⟩
        have hno2 : ¬ (c = '\r' ∧ (d :: a2).head? = some '\n') := by
          rintro ⟨hc, hhd⟩
          exact hcd ⟨hc, by simpa using hhd⟩
        rw [List.cons_append, splitLinesAux_break c _ acc hb hno,
            splitLinesAux_break c _ acc hb hno2,
            splitLinesAux_append_after_nl b (d :: a2) [] hlast]
        simp
    · rw [List.cons_append, splitLinesAux_nobreak c _ acc hb,
          splitLinesAux_nobreak c _ acc hb,
          splitLinesAux_append_after_nl b (d :: a2) (c :: acc) hlast]

/-- A final line feed after a non-break character adds no line. -/
theorem splitLinesAux_trailing_nl :
    ∀ a acc, a ≠ [] → (∀ c, a.getLast? = some c → ¬ isLineBreak c) →
      splitLinesAux (a ++ ['\n']) acc = splitLinesAux a acc
  | [], _, hne, _ => absurd rfl hne
  | [c], acc, _, hlast => by
    have hc : ¬ isLineBreak c := hlast c (by simp)
    rw [List.singleton_append, splitLinesAux_nobreak c _ acc hc, splitLinesAux_nl]
    simp [splitLinesAux, hc]
  | c :: d :: a2, acc, _, hlast => by
    have hlast2 : ∀ x, (d :: a2).getLast? = some x → ¬ isLineBreak x := by
      intro x hx
      exact hlast x (by rw [List.getLast?_cons_cons] ; exact hx)
    have hne2 : (d :: a2) ≠ [] := by simp
    by_cases hb : isLineBreak c
    · by_cases hcd : c = '\r' ∧ d = '\n'
      · obtain ⟨hc, hd⟩ := hcd
        subst hc ; subst hd
        have step : ∀ cs acc2, splitLinesAux ('\r' :: '\n' :: cs) acc2 =
            acc2.reverse :: splitLinesAux cs [] := by
          intro cs acc2 ; simp [splitLinesAux, isLineBreak]
        cases a2 with
        | nil => exact absurd (by decide : isLineBreak '\n' = true) (hlast2 '\n' rfl)
        | cons e a3 =>
          rw [List.cons_append, List.cons_append, step _ acc, step _ acc,
              splitLinesAux_trailing_nl (e :: a3) [] (by simp)
                (fun x hx => hlast2 x (by rw [List.getLast?_cons_cons] ; exact hx))]
      · have hno : ¬ (c = '\r' ∧ ((d :: a2) ++ ['\n']).head? = some '\n') := by
          rintro ⟨hc, hhd⟩
          exact hcd ⟨hc, by simpa using hhd⟩
        have hno2 : ¬ (c = '\r' ∧ (d :: a2).head? = some '\n') := by
          rintro ⟨hc, hhd⟩
          exact hcd ⟨hc, by simpa using hhd⟩
        rw [List.cons_append, splitLinesAux_break c _ acc hb hno,
            splitLinesAux_break c _ acc hb hno2,
            splitLinesAux_trailing_nl (d :: a2) [] hne2 hlast2]
    · rw [List.cons_append, splitLinesAux_nobreak c _ acc hb,
          splitLinesAux_nobreak c _ acc hb,
          splitLinesAux_trailing_nl (d :: a2) (c :: acc) hne2 hlast2]

theorem pySplitlines_append_nl (a b : String) (h : a.data.getLast? = some '\n') :
    pySplitlines (a ++ b) = pySplitlines a ++ pySplitlines b := by
  unfold pySplitlines
  rw [String.data_append, splitLinesAux_append_after_nl b.data a.data [] h,
      List.map_append]

theorem pySplitlines_trailing (a : String) (hne : a.data ≠ [])
    (hl : ∀ c, a.data.getLast? = some c → ¬ isLineBreak c) :
    pySplitlines (a ++ "\n") = pySplitlines a := by
  unfold pySplitlines
  rw [String.data_append]
  show (splitLinesAux (a.data ++ ['\n']) []).map _ = _
  rw [splitLinesAux_trailing_nl a.data [] hne hl]

theorem splitLinesAux_single (l : List Char) (hc : ∀ c ∈ l, ¬ isLineBreak c)
    (hne : l ≠ []) : splitLinesAux l [] = [l] := by
  have h1 := splitLinesAux_clean_chunk l hc [] []
  rw [List.append_nil] at h1
  rw [h1]
  cases hrev : l.reverse with
  | nil => exact absurd (by simpa using hrev) hne
  | cons a as =>
    rw [List.append_nil, splitLinesAux_nil_cons a as, ← hrev, List.reverse_reverse]

theorem eq_empty_of_data_nil (s : String) (h : s.data = []) : s = "" := by
  cases s with
  | mk d =>
    simp only at h
    rw [show d = [] from h]

theorem pySplitlines_single (s : String) (hc : lineClean s) (hne : s ≠ "") :
    pySplitlines s = [s] := by
  unfold pySplitlines
  have hd : s.data ≠ [] := by
    intro h
    exact hne (eq_empty_of_data_nil s h)
  rw [splitLinesAux_single s.data (by simpa [lineClean, List.all_eq_true] using hc) hd]
  rfl

theorem lineClean_last_not_break (s : String) (hc : lineClean s) :
    ∀ c, s.data.getLast? = some c → ¬ isLineBreak c := by
  intro c hcon
  unfold lineClean at hc
  rw [List.all_eq_true] at hc
  simpa using hc c (List.mem_of_mem_getLast? hcon)

theorem pySplitlines_line_nl (s : String) (hc : lineClean s) :
    pySplitlines (s ++ "\n") = [s] := by
  by_cases hne : s = ""
  · subst hne ; rfl
  · have hd : s.data ≠ [] := by
      intro h ; exact hne (eq_empty_of_data_nil s h)
    rw [pySplitlines_trailing s hd (lineClean_last_not_break s hc),
        pySplitlines_single s hc hne]

theorem pySplitlines_joinN (L : List String) (hc : ∀ s ∈ L, lineClean s)
    (hlast : L.getLast? ≠ some "") : pySplitlines (joinN L) = L := by
  induction L with
  | nil => rfl
  | cons s L ih =>
    cases L with
    | nil =>
      have hne : s ≠ "" := by
        intro h ; exact hlast (by simp [h])
      exact pySplitlines_single s (hc s (by simp)) hne
    | cons s2 L2 =>
      have hjoin : joinN (s :: s2 :: L2) = (s ++ "\n") ++ joinN (s2 :: L2) := by
        show s ++ "\n" ++ joinN (s2 :: L2) = (s ++ "\n") ++ joinN (s2 :: L2)
        rw [String.append_assoc]
      rw [hjoin,
          pySplitlines_append_nl (s ++ "\n") (joinN (s2 :: L2))
            (by rw [String.data_append]
                exact List.getLast?_append_of_ne_nil _ (by decide)),
          pySplitlines_line_nl s (hc s (by simp)),
          ih (fun x hx => hc x (by simp [hx])) (by simpa using hlast)]
      rfl

theorem eq_of_data_eq {s t : String} (h : s.data = t.data) : s = t := by
  cases s with
  | mk d1 =>
    cases t with
    | mk d2 =>
      simp only at h
      rw [show d1 = d2 from h]

theorem pyStrip_data (s : String) :
    (pyStrip s).data = List.rdropWhile isPySpace (s.data.dropWhile isPySpace) := rfl

theorem pyStrip_last_not_space (s : String) (c : Char)
    (h : (pyStrip s).data.getLast? = some c) : ¬ isPySpace c := by
  have hne : (pyStrip s).data ≠ [] := by
    intro h0 ; rw [h0] at h ; simp at h
  rw [pyStrip_data] at h hne
  rw [List.getLast?_eq_getLast _ hne] at h
  have h3 := Option.some.inj h
  rw [← h3]
  exact List.rdropWhile_last_not isPySpace _ hne

theorem break_isSpace (c : Char) (h : isLineBreak c) : isPySpace c := by
  simp [isPySpace, h]

theorem pyStrip_idem (s : String) : pyStrip (pyStrip s) = pyStrip s := by
  apply eq_of_data_eq
  rw [pyStrip_data (pyStrip s), pyStrip_data s]
  have hdrop : (List.rdropWhile isPySpace (s.data.dropWhile isPySpace)).dropWhile
      isPySpace = List.rdropWhile isPySpace (s.data.dropWhile isPySpace) := by
    rw [List.dropWhile_eq_self_iff]
    intro hl
    set y := s.data.dropWhile isPySpace with hy
    set z := List.rdropWhile isPySpace y with hz
    have hpre : z <+: y := List.rdropWhile_prefix isPySpace y
    have hzlen : 0 < z.length := hl
    have hylen : 0 < y.length := lt_of_lt_of_le hzlen hpre.length_le
    have hyne : y ≠ [] := List.length_pos.mp hylen
    have hget : z.get ⟨0, hzlen⟩ = y.head hyne := by
      have h1 := List.IsPrefix.getElem hpre hzlen
      have h2 := List.head_eq_getElem_zero hyne
      simp only [List.get_eq_getElem]
      rw [h2]
      simpa using h1
    rw [hget]
    have hw : s.data.dropWhile isPySpace ≠ [] := by rw [← hy] ; exact hyne
    have hhead := List.head_dropWhile_not isPySpace s.data hw
    simp only [← hy] at hhead
    simp [hhead]
  rw [hdrop, List.rdropWhile_idempotent]

theorem endsWithNl_append_nl (s : String) : endsWithNl (s ++ "\n") = true := by
  unfold endsWithNl
  rw [String.data_append, List.getLast?_append_of_ne_nil _ (by decide)]
  rfl

/-! ## Ordering lemmas for `pySorted` -/

theorem listCharLt_irrefl (a : List Char) : listCharLt a a = false := by
  induction a with
  | nil => rfl
  | cons c cs ih => simp [listCharLt, ih]

theorem listCharLt_trans :
    ∀ a b c, listCharLt a b → listCharLt b c → listCharLt a c
  | _, [], [] => by intro _ h2 ; simp [listCharLt] at h2
  | [], [], _ :: _ => by intro h1 _ ; simp [listCharLt] at h1
  | [], _ :: _, _ :: _ => by intro _ _ ; simp [listCharLt]
  | _ :: _, [], _ => by intro h1 _ ; simp [listCharLt] at h1
  | _ :: _, _ :: _, [] => by intro _ h2 ; simp [listCharLt] at h2
  | [], _ :: _, [] => by intro _ h2 ; simp [listCharLt] at h2
  | a :: as, b :: bs, c :: cs => by
    intro h1 h2
    simp only [listCharLt] at h1 h2 ⊢
    rcases lt_trichotomy a b with hab | hab | hab
    · rcases lt_trichotomy b c with hbc | hbc | hbc
      · simp [lt_trans hab hbc]
      · subst hbc ; simp [hab]
      · simp [lt_asymm hbc, hbc] at h2
    · subst hab
      simp only [lt_irrefl, if_false] at h1
      rcases lt_trichotomy a c with hac | hac | hac
      · simp [hac]
      · subst hac
        simp only [lt_irrefl, if_false] at h2
        simp [listCharLt_trans as bs cs h1 h2]
      · simp [lt_asymm hac, hac] at h2
    · simp [lt_asymm hab, hab] at h1

theorem listCharLt_conn : ∀ a b, a ≠ b →
    listCharLt a b = true ∨ listCharLt b a = true
  | [], [] => fun h => absurd rfl h
  | [], _ :: _ => fun _ => Or.inl (by simp [listCharLt])
  | _ :: _, [] => fun _ => Or.inr (by simp [listCharLt])
  | a :: as, b :: bs => fun h => by
    rcases lt_trichotomy a b with hab | hab | hab
    · exact Or.inl (by simp [listCharLt, hab])
    · subst hab
      have hne : as ≠ bs := fun hh => h (by rw [hh])
      rcases listCharLt_conn as bs hne with h1 | h1
      · exact Or.inl (by simp [listCharLt, h1])
      · exact Or.inr (by simp [listCharLt, h1])
    · exact Or.inr (by simp [listCharLt, hab])

theorem strLt_irrefl (a : String) : strLt a a = false := listCharLt_irrefl a.data

theorem strLt_trans {a b c : String} (h1 : strLt a b) (h2 : strLt b c) :
    strLt a c := listCharLt_trans a.data b.data c.data h1 h2

theorem strLt_conn {a b : String} (h : a ≠ b) :
    strLt a b = true ∨ strLt b a = true := by
  apply listCharLt_conn
  intro hd
  exact h (eq_of_data_eq hd)

theorem strLt_asymm {a b : String} (h : strLt a b) : ¬ strLt b a = true := by
  intro h2
  have := strLt_trans h h2
  rw [strLt_irrefl] at this
  exact Bool.false_ne_true this

/-- The non-strict order underlying `strLt`. -/
def strLe (a b : String) : Prop := ¬ strLt b a = true

theorem strLe_trans {a b c : String} (h1 : strLe a b) (h2 : strLe b c) :
    strLe a c := by
  intro hca
  by_cases hbc : b = c
  · subst hbc ; exact h1 hca
  rcases strLt_conn hbc with h3 | h3
  · exact h1 (strLt_trans h3 hca)
  · exact h2 h3

theorem perm_insertStr (x : String) (l : List String) :
    List.Perm (insertStr x l) (x :: l) := by
  induction l with
  | nil => exact List.Perm.refl _
  | cons y ys ih =>
    unfold insertStr
    by_cases h : strLt x y = true
    · rw [if_pos h]
    · rw [if_neg h]
      exact (ih.cons y).trans (List.Perm.swap x y ys)

theorem perm_pySorted (l : List String) : List.Perm (pySorted l) l := by
  induction l with
  | nil => exact List.Perm.refl _
  | cons a l ih =>
    show List.Perm (insertStr a (pySorted l)) (a :: l)
    exact (perm_insertStr a (pySorted l)).trans (ih.cons a)

theorem pairwise_insertStr (x : String) (l : List String)
    (h : l.Pairwise strLe) : (insertStr x l).Pairwise strLe := by
  induction l with
  | nil => simp [insertStr, strLe]
  | cons y ys ih =>
    rw [List.pairwise_cons] at h
    obtain ⟨hy, hys⟩ := h
    unfold insertStr
    by_cases hxy : strLt x y = true
    · rw [if_pos hxy, List.pairwise_cons]
      constructor
      · intro z hz
        rcases List.mem_cons.mp hz with hz | hz
        · subst hz ; exact strLt_asymm hxy
        · exact strLe_trans (strLt_asymm hxy) (hy z hz)
      · rw [List.pairwise_cons]
        exact ⟨hy, hys⟩
    · rw [if_neg hxy, List.pairwise_cons]
      constructor
      · intro z hz
        have := (perm_insertStr x ys).mem_iff.mp hz
        rcases List.mem_cons.mp this with hz2 | hz2
        · subst hz2 ; exact hxy
        · exact hy z hz2
      · exact ih hys

theorem pairwise_pySorted (l : List String) : (pySorted l).Pairwise strLe := by
  induction l with
  | nil => exact List.Pairwise.nil
  | cons a l ih => exact pairwise_insertStr a (pySorted l) ih

theorem pairwise_and {α : Type} {R S : α → α → Prop} :
    ∀ l : List α, l.Pairwise R → l.Pairwise S →
      l.Pairwise (fun a b => R a b ∧ S a b)
  | [], _, _ => List.Pairwise.nil
  | a :: l, h1, h2 => by
    rw [List.pairwise_cons] at h1 h2 ⊢
    exact ⟨fun b hb => ⟨h1.1 b hb, h2.1 b hb⟩, pairwise_and l h1.2 h2.2⟩

theorem pairwise_lt_pySorted (l : List String) (hnd : l.Nodup) :
    (pySorted l).Pairwise (fun a b => strLt a b = true) := by
  have h1 := pairwise_pySorted l
  have h2 : (pySorted l).Nodup := ((perm_pySorted l).nodup_iff).mpr hnd
  have h3 := pairwise_and _ h1 h2
  apply h3.imp
  rintro a b ⟨hle, hne⟩
  rcases strLt_conn hne with h | h
  · exact h
  · exact absurd h hle

/-! ## Mapping lemmas -/

theorem dGet_nil (k : String) : dGet [] k = none := rfl

theorem dGet_cons (p : String × Value) (ps : List (String × Value)) (k : String) :
    dGet (p :: ps) k = if p.1 = k then some p.2 else dGet ps k := by
  by_cases h : p.1 = k
  · simp [dGet, List.find?, h]
  · simp [dGet, List.find?, h]

theorem dHas_cons (p : String × Value) (ps : List (String × Value)) (k : String) :
    dHas (p :: ps) k = (p.1 = k || dHas ps k) := by
  simp [dHas]

theorem dHas_iff_dGet (kvs : List (String × Value)) (k : String) :
    dHas kvs k = true ↔ dGet kvs k ≠ none := by
  induction kvs with
  | nil => simp [dHas, dGet]
  | cons p ps ih =>
    rw [dHas_cons, dGet_cons]
    by_cases h : p.1 = k <;> simp [h, ih]

theorem dGet_dSet_self (kvs : List (String × Value)) (k : String) (v : Value) :
    dGet (dSet kvs k v) k = some v := by
  unfold dSet
  by_cases h : dHas kvs k = true
  · rw [if_pos h]
    induction kvs with
    | nil => simp [dHas] at h
    | cons p ps ih =>
      by_cases hp : p.1 = k
      · simp [dGet_cons, List.map_cons, hp]
      · rw [dHas_cons] at h
        simp only [hp, Bool.false_or, decide_False] at h
        simp only [List.map_cons, if_neg hp]
        rw [dGet_cons]
        simp only [hp, if_false]
        exact ih (by simpa using h)
  · rw [if_neg h]
    induction kvs with
    | nil => simp [dGet_cons]
    | cons p ps ih =>
      rw [dHas_cons] at h
      have hp : ¬ (p.1 = k) := by
        intro hh ; exact h (by simp [hh])
      rw [List.cons_append, dGet_cons]
      simp only [hp, if_false]
      exact ih (by intro hh ; exact h (by simp [hh, Bool.or_true]))

theorem dGet_append_single_ne (k k' : String) (v : Value) (h : k' ≠ k) :
    ∀ kvs, dGet (kvs ++ [(k, v)]) k' = dGet kvs k'
  | [] => by
    rw [List.nil_append, dGet_cons, dGet_nil]
    simp [show ¬ (k = k') from fun hc => h hc.symm]
  | p :: ps => by
    rw [List.cons_append, dGet_cons, dGet_cons, dGet_append_single_ne k k' v h ps]

theorem dGet_dSet_ne (kvs : List (String × Value)) (k k' : String) (v : Value)
    (h : k' ≠ k) : dGet (dSet kvs k v) k' = dGet kvs k' := by
  unfold dSet
  by_cases hh : dHas kvs k = true
  · rw [if_pos hh]
    clear hh
    induction kvs with
    | nil => rfl
    | cons p ps ih =>
      by_cases hp : p.1 = k
      · simp only [List.map_cons, if_pos hp, dGet_cons]
        have : ¬ (p.1 = k') := by rw [hp] ; exact fun hc => h hc.symm
        simp [this, ih]
      · simp only [List.map_cons, if_neg hp, dGet_cons]
        by_cases hp2 : p.1 = k' <;> simp [hp2, ih]
  · rw [if_neg hh]
    exact dGet_append_single_ne k k' v h kvs

theorem dSet_all_k (kvs : List (String × Value)) (k : String) (v : Value) :
    ∀ p ∈ dSet kvs k v, p.1 = k → p.2 = v := by
  unfold dSet
  by_cases h : dHas kvs k = true
  · rw [if_pos h]
    intro p hp hpk
    rw [List.mem_map] at hp
    obtain ⟨q, hq, hqe⟩ := hp
    by_cases hq1 : q.1 = k
    · rw [if_pos hq1] at hqe ; rw [← hqe]
    · rw [if_neg hq1] at hqe ; rw [← hqe] at hpk ; exact absurd hpk hq1
  · rw [if_neg h]
    intro p hp hpk
    rcases List.mem_append.mp hp with hp1 | hp1
    · exfalso
      apply h
      unfold dHas
      rw [List.any_eq_true]
      exact ⟨p, hp1, by simp [hpk]⟩
    · rw [List.mem_singleton] at hp1
      rw [hp1]

theorem dHas_dSet (kvs : List (String × Value)) (k : String) (v : Value) :
    dHas (dSet kvs k v) k = true := by
  rw [dHas_iff_dGet, dGet_dSet_self]
  simp

theorem dSet_eq_self (kvs : List (String × Value)) (k : String) (v : Value)
    (hall : ∀ p ∈ kvs, p.1 = k → p.2 = v) (hhas : dHas kvs k = true) :
    dSet kvs k v = kvs := by
  unfold dSet
  rw [if_pos hhas]
  have hcongr : kvs.map (fun p => if p.1 = k then (p.1, v) else p) = kvs.map id := by
    apply List.map_congr_left
    intro p hp
    by_cases hpk : p.1 = k
    · rw [if_pos hpk, id_eq]
      rw [show v = p.2 from (hall p hp hpk).symm]
    · rw [if_neg hpk, id_eq]
  rw [hcongr, List.map_id]

theorem findIdx?_prefix_false {α : Type} (p : α → Bool) :
    ∀ (L1 : List α) (x : α) (L2 : List α) (i : Nat),
      (∀ y ∈ L1, p y = false) → p x = true →
      List.findIdx? p (L1 ++ x :: L2) i = some (i + L1.length)
  | [], x, L2, i, _, hx => by
    rw [List.nil_append, List.findIdx?_cons, if_pos hx]
    simp
  | y :: L1, x, L2, i, h, hx => by
    rw [List.cons_append, List.findIdx?_cons,
        if_neg (by simp [h y (by simp)]),
        findIdx?_prefix_false p L1 x L2 (i + 1)
          (fun z hz => h z (by simp [hz])) hx]
    congr 1
    simp
    omega

theorem drop_append_cons {α : Type} :
    ∀ (L1 : List α) (x : α) (L2 : List α),
      (L1 ++ x :: L2).drop (L1.length + 1) = L2
  | [], x, L2 => by simp
  | y :: L1, x, L2 => by
    rw [List.cons_append]
    show (y :: (L1 ++ x :: L2)).drop (L1.length + 1 + 1) = L2
    rw [List.drop_succ_cons]
    exact drop_append_cons L1 x L2

/-! ## Claims about the document codec (C7, C8, C9) -/

/-- C7 — a text that does not begin with a delimiter line, or whose
opening delimiter has no matching closing delimiter line, parses to an
empty header with the whole original text as body, and no exception is
raised. -/
theorem split_malformed_returns_empty_header (load : String → Option Value)
    (text : String)
    (h : (∀ l0, (pySplitlines text).head? = some l0 → ¬ delimLine l0) ∨
         (pySplitlines text).tail.findIdx? delimLine = none) :
    split_front_matter load text = some (Value.dict [], text) := by
  unfold split_front_matter
  cases hls : pySplitlines text with
  | nil => rfl
  | cons l0 rest =>
    rw [hls] at h
    by_cases hd : delimLine l0 = true
    · rcases h with h | h
      · exact absurd hd (h l0 rfl)
      · simp only [List.tail_cons] at h
        simp only [if_pos hd, h]
    · simp only [if_neg hd]

/-- Witness for C7 at a concrete malformed text (an opening delimiter
with no closing delimiter). -/
theorem split_malformed_returns_empty_header_witness :
    split_front_matter (fun _ => none) "---\ntitle: x\nbody text" =
      some (Value.dict [], "---\ntitle: x\nbody text") := by
  apply split_malformed_returns_empty_header
  right
  decide

/-- Reduction of `split_front_matter` on a text whose first line is a
delimiter and whose tail contains a closing delimiter at index `j`. -/
theorem split_found (load : String → Option Value) (text : String)
    (l0 : String) (rest : List String) (j : Nat)
    (hls : pySplitlines text = l0 :: rest) (hd : delimLine l0 = true)
    (hj : rest.findIdx? delimLine = some j) :
    split_front_matter load text =
      (if pyStrip (joinN (rest.take j)) ≠ "" then
        match load (joinN (rest.take j)) with
        | none => none
        | some d =>
          some ((if d = Value.null then Value.dict [] else d),
                joinN (rest.drop (j + 1)))
      else some (Value.dict [], joinN (rest.drop (j + 1)))) := by
  unfold split_front_matter
  rw [hls]
  simp only [hd, hj, if_true]

/-- C8 counterexample — for the text consisting of an opening delimiter
line, a closing delimiter line and the line `x` terminated by a line
feed, the parsed body is `x` while the portion of the text that follows
the closing delimiter line is `x` followed by the line feed: the body is
not byte-for-byte the trailing portion. -/
theorem split_body_drops_trailing_newline :
    split_front_matter (fun _ => none) ("---\n" ++ "---\n" ++ "x\n") =
        some (Value.dict [], "x") ∧
      ("x" : String) ≠ "x\n" := by
  constructor
  · decide
  · decide

/-- C8 amended — for every input text whose first line strips to the
delimiter and whose remaining lines contain a closing delimiter line
(the first one at index `j`), any successful parse returns as body the
lines after the closing delimiter line rejoined with single line
feeds, for any behaviour of the YAML loader: the body is byte-identical
to the trailing portion of the original text exactly when that portion
already uses plain `\n` endings and does not end with a line
terminator; CRLF and other break characters are normalised and a final
line break is dropped. -/
theorem split_body_joins_trailing_lines (load : String → Option Value)
    (text l0 : String) (rest : List String) (j : Nat) (fm : Value × String)
    (hls : pySplitlines text = l0 :: rest) (hd : delimLine l0 = true)
    (hj : rest.findIdx? delimLine = some j)
    (h : split_front_matter load text = some fm) :
    fm.2 = joinN (rest.drop (j + 1)) := by
  rw [split_found load text l0 rest j hls hd hj] at h
  by_cases hne : pyStrip (joinN (rest.take j)) ≠ ""
  · rw [if_pos hne] at h
    cases hl : load (joinN (rest.take j)) with
    | none => rw [hl] at h ; exact absurd h (by simp)
    | some d =>
      rw [hl] at h
      have h2 := Option.some.inj h
      rw [← h2]
  · rw [if_neg hne] at h
    have h2 := Option.some.inj h
    rw [← h2]

/-- Witness for the amended C8 at a CRLF, newline-terminated document:
the trailing portion of the raw text is the bytes `x\r\ny\r\n`, and
the parsed body is the rejoined `x\ny`. -/
theorem split_body_joins_trailing_lines_witness :
    ∃ fm, split_front_matter (fun _ => none) "---\r\n---\r\nx\r\ny\r\n" =
        some fm ∧
      fm.2 = joinN ((["---", "x", "y"] : List String).drop (0 + 1)) :=
  ⟨(Value.dict [], "x\ny"), by decide,
    split_body_joins_trailing_lines (fun _ => none)
      "---\r\n---\r\nx\r\ny\r\n" "---" ["---", "x", "y"] 0
      (Value.dict [], "x\ny") (by decide) (by decide) (by decide)
      (by decide)⟩

/-- C9 counterexample — a nonempty but all-whitespace body (one space)
is dropped from the recomposed output: the output equals the bare
header, not the header followed by the body. -/
theorem attach_body_drops_blank_body :
    attach_body "---\ntitle: x\n---\n" " " = "---\ntitle: x\n---\n" ∧
      (" " : String) ≠ "" ∧
      "---\ntitle: x\n---\n" ≠ "---\ntitle: x\n---\n" ++ " " := by
  refine ⟨by decide, by decide, by decide⟩

/-- C9 amended — for a body that is nonempty after stripping
whitespace, the output is the serialized header immediately followed by
the body; one line break is inserted exactly when the header does not
already end in one, and the header produced by `join_front_matter`
always ends in one. -/
theorem attach_body_appends_nonblank (dump : Value → String) (front : Value)
    (h b : String) (hb : pyStrip b ≠ "") :
    attach_body (join_front_matter dump front) b =
        join_front_matter dump front ++ b ∧
      (endsWithNl h = true → attach_body h b = h ++ b) ∧
      (endsWithNl h = false → attach_body h b = h ++ "\n" ++ b) := by
  refine ⟨?_, ?_, ?_⟩
  · unfold attach_body
    have hnl : endsWithNl (join_front_matter dump front) = true := by
      unfold join_front_matter
      exact endsWithNl_append_nl _
    rw [if_pos hb, if_pos hnl]
  · intro he
    unfold attach_body
    rw [if_pos hb, if_pos he]
  · intro he
    unfold attach_body
    rw [if_pos hb, if_neg (by simp [he])]

/-- Witness for the amended C9 at concrete inputs. -/
theorem attach_body_appends_nonblank_witness :
    attach_body (join_front_matter (fun _ => "k: v") Value.null) "y" =
        join_front_matter (fun _ => "k: v") Value.null ++ "y" ∧
      (endsWithNl "x" = true → attach_body "x" "y" = "x" ++ "y") ∧
      (endsWithNl "x" = false → attach_body "x" "y" = "x" ++ "\n" ++ "y") :=
  attach_body_appends_nonblank (fun _ => "k: v") Value.null "x" "y" (by decide)

/-! ## The cover invariant (C4) -/

/-- The scan result of `anyCover` is true exactly when some entry
carries a true cover flag (given that the scan did not raise). -/
theorem anyCover_iff : ∀ (rs : List Value) (ac : Bool), anyCover rs = some ac →
    (ac = true ↔ ∃ r ∈ rs, coverFlag r = some true)
  | [], ac, h => by
    simp only [anyCover, Option.some.injEq] at h
    subst h
    simp
  | r :: rs, ac, h => by
    simp only [anyCover, Option.bind_eq_bind] at h
    cases hcf : coverFlag r with
    | none => rw [hcf] at h ; exact absurd h (by simp)
    | some b =>
      rw [hcf] at h
      simp only [Option.some_bind] at h
      cases b with
      | true =>
        simp only [if_true] at h
        have hac : ac = true := by
          cases h ; rfl
        subst hac
        simp only [true_iff]
        exact ⟨r, by simp, hcf⟩
      | false =>
        simp only [Bool.false_eq_true, if_false] at h
        rw [anyCover_iff rs ac h]
        constructor
        · rintro ⟨x, hx, hxf⟩
          exact ⟨x, by simp [hx], hxf⟩
        · rintro ⟨x, hx, hxf⟩
          rcases List.mem_cons.mp hx with hx | hx
          · subst hx
            rw [hcf] at hxf
            exact absurd (Option.some.inj hxf) (by simp)
          · exact ⟨x, hx, hxf⟩

/-- Reduction of `ensure_cover` when the scan finds a cover flag. -/
theorem ensure_cover_of_found (rs : List Value)
    (h : anyCover rs = some true) : ensure_cover rs = some rs := by
  unfold ensure_cover
  rw [h]
  rfl

/-- Reduction of `ensure_cover` when the scan finds no cover flag and
the list is nonempty. -/
theorem ensure_cover_of_not_found (r0 : Value) (rest : List Value)
    (r1 r2 : Value) (h : anyCover (r0 :: rest) = some false)
    (h1 : pySetdefault r0 "params" (.dict []) = some r1)
    (h2 : pySetItem2 r1 "params" "cover" (.bool true) = some r2) :
    ensure_cover (r0 :: rest) = some (r2 :: rest) := by
  unfold ensure_cover
  rw [h]
  simp only [Option.bind_eq_bind, Option.some_bind]
  rw [if_pos (show (!false) = true from rfl)]
  show (do
    let r1x ← pySetdefault r0 "params" (.dict [])
    let r2x ← pySetItem2 r1x "params" "cover" (.bool true)
    pure (r2x :: rest) : Option (List Value)) = _
  simp only [Option.bind_eq_bind]
  rw [h1]
  simp only [Option.some_bind]
  rw [h2]
  simp only [Option.some_bind]
  rfl

/-- Setting the cover key through `pySetItem2` yields an entry whose
cover flag reads true. -/
theorem coverFlag_after_set (r1 r2 : Value)
    (h2 : pySetItem2 r1 "params" "cover" (.bool true) = some r2) :
    coverFlag r2 = some true := by
  cases r1 with
  | dict kvs1 =>
    unfold pySetItem2 at h2
    simp only [Option.bind_eq_bind, pyGetItem] at h2
    cases hin : dGet kvs1 "params" with
    | none => rw [hin] at h2 ; exact absurd h2 (by simp)
    | some pv =>
      rw [hin] at h2
      simp only [Option.some_bind] at h2
      cases pv with
      | dict pkvs =>
        simp only [pySetItem, Option.some_bind, Option.some.injEq] at h2
        rw [← h2]
        simp [coverFlag, dGet_dSet_self]
      | null => simp [pySetItem] at h2
      | bool b => simp [pySetItem] at h2
      | int n => simp [pySetItem] at h2
      | str s => simp [pySetItem] at h2
      | list xs => simp [pySetItem] at h2
  | null => simp [pySetItem2, pyGetItem] at h2
  | bool b => simp [pySetItem2, pyGetItem] at h2
  | int n => simp [pySetItem2, pyGetItem] at h2
  | str s => simp [pySetItem2, pyGetItem] at h2
  | list xs => simp [pySetItem2, pyGetItem] at h2

/-- C4 — cover assignment: given at most one entry flagged as cover on
input, at most one is flagged on output; if some entry was flagged the
list is returned unchanged (the flag stays on that entry); if none was
flagged and the list is nonempty, the flag is set on exactly the first
entry, the remaining entries passing through unchanged; an empty list is
returned empty. -/
theorem ensure_cover_single (rs out : List Value)
    (hout : ensure_cover rs = some out)
    (hatmost : rs.countP (fun r => coverFlag r = some true) ≤ 1) :
    out.countP (fun r => coverFlag r = some true) ≤ 1 ∧
    ((∃ r ∈ rs, coverFlag r = some true) → out = rs) ∧
    ((¬ ∃ r ∈ rs, coverFlag r = some true) → rs ≠ [] →
      ∃ r0 rest r2, rs = r0 :: rest ∧ out = r2 :: rest ∧
        coverFlag r2 = some true) ∧
    (rs = [] → out = []) := by
  have hacx : ∃ ac, anyCover rs = some ac := by
    unfold ensure_cover at hout
    simp only [Option.bind_eq_bind] at hout
    cases hac : anyCover rs with
    | none => rw [hac] at hout ; exact absurd hout (by simp)
    | some ac => exact ⟨ac, rfl⟩
  obtain ⟨ac, hac⟩ := hacx
  have hiff := anyCover_iff rs ac hac
  cases ac with
  | true =>
    rw [ensure_cover_of_found rs hac] at hout
    have hrs : out = rs := (Option.some.inj hout).symm
    subst hrs
    refine ⟨hatmost, fun _ => rfl, ?_, ?_⟩
    · intro hno _
      exact absurd (hiff.mp rfl) hno
    · intro h ; rw [h]
  | false =>
    cases rs with
    | nil =>
      have : out = [] := by
        unfold ensure_cover at hout
        simp only [anyCover, Option.some_bind] at hout
        simpa using (Option.some.inj hout).symm
      subst this
      exact ⟨by simp, by simp, fun _ h => absurd rfl h, fun _ => rfl⟩
    | cons r0 rest =>
      have hsteps : ∃ r1 r2, pySetdefault r0 "params" (.dict []) = some r1 ∧
          pySetItem2 r1 "params" "cover" (.bool true) = some r2 := by
        unfold ensure_cover at hout
        rw [hac] at hout
        simp only [Option.some_bind, Bool.not_false, if_pos rfl,
          Option.bind_eq_bind] at hout
        cases h1 : pySetdefault r0 "params" (.dict []) with
        | none => rw [h1] at hout ; exact absurd hout (by simp)
        | some r1 =>
          rw [h1] at hout
          simp only [Option.some_bind] at hout
          cases h2 : pySetItem2 r1 "params" "cover" (.bool true) with
          | none => rw [h2] at hout ; exact absurd hout (by simp)
          | some r2 => exact ⟨r1, r2, rfl, h2⟩
      obtain ⟨r1, r2, h1, h2⟩ := hsteps
      rw [ensure_cover_of_not_found r0 rest r1 r2 hac h1 h2] at hout
      have hout2 : out = r2 :: rest := (Option.some.inj hout).symm
      subst hout2
      have hr2 : coverFlag r2 = some true := coverFlag_after_set r1 r2 h2
      have hrestflag : ∀ r ∈ rest, ¬ (coverFlag r = some true) := by
        intro r hr hflag
        have hex : ∃ x ∈ r0 :: rest, coverFlag x = some true :=
          ⟨r, by simp [hr], hflag⟩
        exact absurd (hiff.mpr hex) (by simp)
      refine ⟨?_, ?_, ?_, by simp⟩
      · rw [List.countP_cons]
        have hc0 : rest.countP (fun r => coverFlag r = some true) = 0 := by
          rw [List.countP_eq_zero]
          intro r hr
          simpa using hrestflag r hr
        simp [hc0, hr2]
      · intro hex
        exact absurd (hiff.mpr hex) (by simp)
      · intro _ _
        exact ⟨r0, rest, r2, rfl, rfl, hr2⟩

/-! ## Weight-assignment lemmas -/

theorem weightOf_setItem2 (r r2 w : Value)
    (h : pySetItem2 r "params" "weight" w = some r2) :
    weightOf r2 = some w := by
  cases r with
  | dict kvs =>
    unfold pySetItem2 at h
    simp only [Option.bind_eq_bind, pyGetItem] at h
    cases hin : dGet kvs "params" with
    | none => rw [hin] at h ; exact absurd h (by simp)
    | some pv =>
      rw [hin] at h
      simp only [Option.some_bind] at h
      cases pv with
      | dict pkvs =>
        simp only [pySetItem, Option.some_bind, Option.some.injEq] at h
        rw [← h]
        simp [weightOf, pyGetItem, dGet_dSet_self]
      | null => simp [pySetItem] at h
      | bool b => simp [pySetItem] at h
      | int n => simp [pySetItem] at h
      | str s => simp [pySetItem] at h
      | list xs => simp [pySetItem] at h
  | null => simp [pySetItem2, pyGetItem] at h
  | bool b => simp [pySetItem2, pyGetItem] at h
  | int n => simp [pySetItem2, pyGetItem] at h
  | str s => simp [pySetItem2, pyGetItem] at h
  | list xs => simp [pySetItem2, pyGetItem] at h

/-- The position-by-position behaviour of the assignment pass: an entry
lacking a weight receives `nw` plus the number of needy entries before
it, and an entry with a usable weight passes through unchanged. -/
theorem assignWeights_spec : ∀ (rs : List Value) (nw : Int) (out : List Value),
    assignWeights rs nw = some out →
    out.length = rs.length ∧
    ∀ i r, rs[i]? = some r →
      (needsWeight r = some true →
        ∃ r2, pySetItem2 r "params" "weight"
            (.int (nw + (needyCount rs i : Int))) = some r2 ∧
          out[i]? = some r2) ∧
      (needsWeight r = some false → out[i]? = some r)
  | [], nw, out, h => by
    have : out = [] := by simpa [assignWeights] using h.symm
    subst this
    exact ⟨rfl, fun i r hir => by simp at hir⟩
  | r :: rs, nw, out, h => by
    unfold assignWeights at h
    simp only [Option.bind_eq_bind] at h
    cases hc : needsWeight r with
    | none => rw [hc] at h ; exact absurd h (by simp)
    | some c =>
      rw [hc] at h
      simp only [Option.some_bind] at h
      cases c with
      | true =>
        rw [if_pos rfl] at h
        cases h2 : pySetItem2 r "params" "weight" (.int nw) with
        | none => rw [h2] at h ; exact absurd h (by simp)
        | some r2 =>
          rw [h2] at h
          simp only [Option.some_bind] at h
          cases hrest : assignWeights rs (nw + 1) with
          | none => rw [hrest] at h ; exact absurd h (by simp)
          | some rest =>
            rw [hrest] at h
            simp only [Option.some_bind, Option.pure_def,
              Option.some.injEq] at h
            have hout : out = r2 :: rest := h.symm
            subst hout
            obtain ⟨hlen, hspec⟩ := assignWeights_spec rs (nw + 1) rest hrest
            refine ⟨by simp [hlen], ?_⟩
            intro i x hix
            cases i with
            | zero =>
              simp only [List.getElem?_cons_zero, Option.some.injEq] at hix
              subst hix
              constructor
              · intro _
                refine ⟨r2, ?_, by simp⟩
                simpa [needyCount] using h2
              · intro hfalse
                rw [hc] at hfalse
                exact absurd (Option.some.inj hfalse) (by simp)
            | succ i =>
              simp only [List.getElem?_cons_succ] at hix
              have hcount : needyCount (r :: rs) (i + 1) =
                  1 + needyCount rs i := by
                simp [needyCount, List.take_succ_cons, List.countP_cons, hc]
                omega
              obtain ⟨htrue, hfalse⟩ := hspec i x hix
              constructor
              · intro hx
                obtain ⟨r3, hr3, hr3out⟩ := htrue hx
                refine ⟨r3, ?_, by simpa using hr3out⟩
                rw [hcount]
                have : nw + ((1 + needyCount rs i : Nat) : Int) =
                    nw + 1 + (needyCount rs i : Int) := by
                  push_cast
                  ring
                rw [this]
                exact hr3
              · intro hx
                simpa using hfalse hx
      | false =>
        rw [if_neg (by simp)] at h
        cases hrest : assignWeights rs nw with
        | none => rw [hrest] at h ; exact absurd h (by simp)
        | some rest =>
          rw [hrest] at h
          simp only [Option.some_bind, Option.pure_def, Option.some.injEq] at h
          have hout : out = r :: rest := h.symm
          subst hout
          obtain ⟨hlen, hspec⟩ := assignWeights_spec rs nw rest hrest
          refine ⟨by simp [hlen], ?_⟩
          intro i x hix
          cases i with
          | zero =>
            simp only [List.getElem?_cons_zero, Option.some.injEq] at hix
            subst hix
            constructor
            · intro htrue
              rw [hc] at htrue
              exact absurd (Option.some.inj htrue) (by simp)
            · intro _ ; simp
          | succ i =>
            simp only [List.getElem?_cons_succ] at hix
            have hcount : needyCount (r :: rs) (i + 1) = needyCount rs i := by
              simp [needyCount, List.take_succ_cons, List.countP_cons, hc]
            obtain ⟨htrue, hfalse⟩ := hspec i x hix
            constructor
            · intro hx
              obtain ⟨r3, hr3, hr3out⟩ := htrue hx
              refine ⟨r3, ?_, by simpa using hr3out⟩
              rw [hcount]
              exact hr3
            · intro hx
              simpa using hfalse hx

theorem collectWeightsAux_mem :
    ∀ (ps : List (Value × Value)) (acc ws : List Int),
      collectWeightsAux ps acc = some ws →
      (∀ w ∈ acc, w ∈ ws) ∧
      (∀ p ∈ ps, ∀ pkvs w, pyGetD p.2 "params" (.dict []) = some (.dict pkvs) →
        pyIntOf ((dGet pkvs "weight").getD .null) = some w → w ∈ ws)
  | [], acc, ws, h => by
    have : ws = acc := by simpa [collectWeightsAux] using h.symm
    subst this
    exact ⟨fun w hw => hw, fun p hp => by simp at hp⟩
  | p :: ps, acc, ws, h => by
    unfold collectWeightsAux at h
    simp only [Option.bind_eq_bind] at h
    cases hpr : pyGetD p.2 "params" (.dict []) with
    | none => rw [hpr] at h ; exact absurd h (by simp)
    | some pr =>
      rw [hpr] at h
      simp only [Option.some_bind] at h
      cases pr with
      | dict kvs =>
        have hm : (match pyIntOf ((dGet kvs "weight").getD Value.null) with
          | some w => collectWeightsAux ps (acc ++ [w])
          | none => collectWeightsAux ps acc) = some ws := h
        cases hint : pyIntOf ((dGet kvs "weight").getD .null) with
        | some w =>
          have hrec : collectWeightsAux ps (acc ++ [w]) = some ws := by
            rw [hint] at hm
            exact hm
          obtain ⟨hacc, hmem⟩ := collectWeightsAux_mem ps (acc ++ [w]) ws hrec
          refine ⟨fun x hx => hacc x (by simp [hx]), ?_⟩
          intro q hq pkvs w2 hq1 hq2
          rcases List.mem_cons.mp hq with hq | hq
          · subst hq
            rw [hpr] at hq1
            have : kvs = pkvs := by
              have := Option.some.inj hq1
              exact Value.dict.inj this
            subst this
            rw [hint] at hq2
            have : w = w2 := Option.some.inj hq2
            subst this
            exact hacc w (by simp)
          · exact hmem q hq pkvs w2 hq1 hq2
        | none =>
          have hrec : collectWeightsAux ps acc = some ws := by
            rw [hint] at hm
            exact hm
          obtain ⟨hacc, hmem⟩ := collectWeightsAux_mem ps acc ws hrec
          refine ⟨hacc, ?_⟩
          intro q hq pkvs w2 hq1 hq2
          rcases List.mem_cons.mp hq with hq | hq
          · subst hq
            rw [hpr] at hq1
            have : kvs = pkvs := Value.dict.inj (Option.some.inj hq1)
            subst this
            rw [hint] at hq2
            exact absurd hq2 (by simp)
          · exact hmem q hq pkvs w2 hq1 hq2
      | null => exact Option.noConfusion h
      | bool b => exact Option.noConfusion h
      | int n => exact Option.noConfusion h
      | str s => exact Option.noConfusion h
      | list xs => exact Option.noConfusion h

theorem foldl_max_le (xs : List Int) : ∀ (a w : Int), w = a ∨ w ∈ xs →
    w ≤ xs.foldl max a := by
  induction xs with
  | nil =>
    intro a w h
    rcases h with h | h
    · subst h ; rfl
    · simp at h
  | cons x xs ih =>
    intro a w h
    show w ≤ xs.foldl max (max a x)
    rcases h with h | h
    · subst h
      exact le_trans (le_max_left w x) (ih (max w x) (max w x) (Or.inl rfl))
    · rcases List.mem_cons.mp h with h | h
      · subst h
        exact le_trans (le_max_right a w) (ih (max a w) (max a w) (Or.inl rfl))
      · exact ih (max a x) w (Or.inr h)

theorem pyMaxD_ge (ws : List Int) (w : Int) (hw : w ∈ ws) : w ≤ pyMaxD ws := by
  cases ws with
  | nil => simp at hw
  | cons x xs =>
    show w ≤ xs.foldl max x
    rcases List.mem_cons.mp hw with h | h
    · exact foldl_max_le xs x w (Or.inl h)
    · exact foldl_max_le xs x w (Or.inr h)

/-! ## Decomposition of a run -/

theorem update_weights_spec (rs : List Value) (prev : List (Value × Value))
    (out : List Value) (h : update_weights_preserve_existing rs prev = some out) :
    ∃ ws rs1, collectWeights prev = some ws ∧
      rs.mapM (fun r => pySetdefault r "params" (.dict [])) = some rs1 ∧
      assignWeights rs1 (pyMaxD ws + 1) = some out := by
  unfold update_weights_preserve_existing at h
  simp only [Option.bind_eq_bind] at h
  cases hws : collectWeights prev with
  | none => rw [hws] at h ; exact absurd h (by simp)
  | some ws =>
    rw [hws] at h
    simp only [Option.some_bind] at h
    cases hrs1 : rs.mapM (fun r => pySetdefault r "params" (.dict [])) with
    | none => rw [hrs1] at h ; exact absurd h (by simp)
    | some rs1 =>
      rw [hrs1] at h
      simp only [Option.some_bind] at h
      exact ⟨ws, rs1, rfl, rfl, h⟩

/-- Result of `update_weights_preserve_existing` from its pieces. -/
theorem update_weights_build (rs : List Value) (prev : List (Value × Value))
    (ws : List Int) (rs1 out : List Value)
    (h1 : collectWeights prev = some ws)
    (h2 : rs.mapM (fun r => pySetdefault r "params" (.dict [])) = some rs1)
    (h3 : assignWeights rs1 (pyMaxD ws + 1) = some out) :
    update_weights_preserve_existing rs prev = some out := by
  unfold update_weights_preserve_existing
  simp only [Option.bind_eq_bind]
  rw [h1]
  simp only [Option.some_bind]
  rw [h2]
  simp only [Option.some_bind]
  exact h3

theorem runCore_spec (codec : YamlCodec) (cfg : Config)
    (imgs : List ImageInfo) (text : String) (res : RunResult)
    (h : runCore codec cfg imgs text = some res) :
    ∃ fm er,
      split_front_matter codec.load text = some fm ∧
      res.frontParsed = coerceFront fm.1 ∧ res.body = fm.2 ∧
      pyGetD res.frontParsed "resources" (.list []) = some er ∧
      res.existingBySrc = existingFrom er ∧
      res.sortedSrcs =
        pySorted ((desired_by_src cfg imgs).map (fun p => p.1)) ∧
      mergeList res.existingBySrc (desired_by_src cfg imgs) res.sortedSrcs =
        some res.merged0 ∧
      update_weights_preserve_existing res.merged0 res.existingBySrc =
        some res.mergedW ∧
      ensure_cover res.mergedW = some res.merged ∧
      pySetItem res.frontParsed "resources" (.list res.merged) =
        some res.frontFinal ∧
      res.output =
        attach_body (join_front_matter codec.dump res.frontFinal) res.body := by
  unfold runCore at h
  simp only [Option.bind_eq_bind] at h
  cases h1 : split_front_matter codec.load text with
  | none => rw [h1] at h ; exact absurd h (by simp)
  | some fm =>
    rw [h1] at h
    simp only [Option.some_bind] at h
    cases h2 : pyGetD (coerceFront fm.1) "resources" (.list []) with
    | none => rw [h2] at h ; exact absurd h (by simp)
    | some er =>
      rw [h2] at h
      simp only [Option.some_bind] at h
      cases h3 : mergeList (existingFrom er) (desired_by_src cfg imgs)
          (pySorted ((desired_by_src cfg imgs).map (fun p => p.1))) with
      | none => rw [h3] at h ; exact absurd h (by simp)
      | some m0 =>
        rw [h3] at h
        simp only [Option.some_bind] at h
        cases h4 : update_weights_preserve_existing m0 (existingFrom er) with
        | none => rw [h4] at h ; exact absurd h (by simp)
        | some mW =>
          rw [h4] at h
          simp only [Option.some_bind] at h
          cases h5 : ensure_cover mW with
          | none => rw [h5] at h ; exact absurd h (by simp)
          | some m =>
            rw [h5] at h
            simp only [Option.some_bind] at h
            cases h6 : pySetItem (coerceFront fm.1) "resources" (.list m) with
            | none => rw [h6] at h ; exact absurd h (by simp)
            | some ff =>
              rw [h6] at h
              simp only [Option.some_bind, Option.pure_def,
                Option.some.injEq] at h
              have hres := h.symm
              subst hres
              exact ⟨fm, er, rfl, rfl, rfl, h2, rfl, rfl, h3, h4, h5, h6, rfl⟩

/-- A run assembled from the results of its stages. -/
theorem runCore_build (codec : YamlCodec) (cfg : Config)
    (imgs : List ImageInfo) (text : String) (fm : Value × String)
    (er : Value) (m0 mW m : List Value) (ff : Value)
    (h1 : split_front_matter codec.load text = some fm)
    (h2 : pyGetD (coerceFront fm.1) "resources" (.list []) = some er)
    (h3 : mergeList (existingFrom er) (desired_by_src cfg imgs)
        (pySorted ((desired_by_src cfg imgs).map (fun p => p.1))) = some m0)
    (h4 : update_weights_preserve_existing m0 (existingFrom er) = some mW)
    (h5 : ensure_cover mW = some m)
    (h6 : pySetItem (coerceFront fm.1) "resources" (.list m) = some ff) :
    runCore codec cfg imgs text = some
      { frontParsed := coerceFront fm.1, body := fm.2,
        existingBySrc := existingFrom er,
        sortedSrcs := pySorted ((desired_by_src cfg imgs).map (fun p => p.1)),
        merged0 := m0, mergedW := mW, merged := m, frontFinal := ff,
        output := attach_body (join_front_matter codec.dump ff) fm.2 } := by
  unfold runCore
  simp only [Option.bind_eq_bind]
  rw [h1]
  simp only [Option.some_bind]
  rw [h2]
  simp only [Option.some_bind]
  rw [h3]
  simp only [Option.some_bind]
  rw [h4]
  simp only [Option.some_bind]
  rw [h5]
  simp only [Option.some_bind]
  rw [h6]
  simp only [Option.some_bind, Option.pure_def]

/-- Position-by-position behaviour of the merge loop: at the index of
each sorted `src`, the output carries the merged existing entry when
`src` is present in the manifest and the freshly built entry when it is
not. -/
theorem mergeList_spec (ex : List (Value × Value)) (des : List (String × Value)) :
    ∀ (names : List String) (m : List Value),
      mergeList ex des names = some m →
      m.length = names.length ∧
      ∀ (i : Nat) (name : String), names[i]? = some name →
        ((∀ r, vGet ex (.str name) = some r →
            ∃ e, m[i]? = some e ∧
              mergeKept name r ((dGet des name).getD .null) = some e) ∧
         (vGet ex (.str name) = none →
            m[i]? = some ((dGet des name).getD .null)))
  | [], m, h => by
    have hm : m = [] := by simpa [mergeList] using h.symm
    subst hm
    exact ⟨rfl, fun i name hi => by simp at hi⟩
  | src :: rest, m, h => by
    unfold mergeList at h
    simp only [Option.bind_eq_bind] at h
    cases hv : vGet ex (.str src) with
    | some r =>
      have h2 : (mergeKept src r ((dGet des src).getD Value.null)).bind
          (fun y => (mergeList ex des rest).bind fun tail =>
            pure (y :: tail)) = some m := by
        rw [hv] at h
        exact h
      cases he : mergeKept src r ((dGet des src).getD Value.null) with
      | none => rw [he] at h2 ; exact absurd h2 (by simp)
      | some e =>
        rw [he] at h2
        simp only [Option.some_bind] at h2
        cases ht : mergeList ex des rest with
        | none => rw [ht] at h2 ; exact absurd h2 (by simp)
        | some tail =>
          rw [ht] at h2
          simp only [Option.some_bind, Option.pure_def, Option.some.injEq] at h2
          have hm : m = e :: tail := h2.symm
          subst hm
          obtain ⟨hlen, hspec⟩ := mergeList_spec ex des rest tail ht
          refine ⟨by simp [hlen], ?_⟩
          intro i name hi
          cases i with
          | zero =>
            simp only [List.getElem?_cons_zero, Option.some.injEq] at hi
            subst hi
            constructor
            · intro r2 hr2
              have hr : r = r2 := Option.some.inj (hv.symm.trans hr2)
              subst hr
              exact ⟨e, by simp, he⟩
            · intro hr
              exact absurd (hv.symm.trans hr) (by simp)
          | succ i =>
            simp only [List.getElem?_cons_succ] at hi
            obtain ⟨ha, hb⟩ := hspec i name hi
            exact ⟨fun r2 hr2 => by simpa using ha r2 hr2,
                   fun hr => by simpa using hb hr⟩
    | none =>
      have h2 : ((pure ((dGet des src).getD Value.null) : Option Value)).bind
          (fun y => (mergeList ex des rest).bind fun tail =>
            pure (y :: tail)) = some m := by
        rw [hv] at h
        exact h
      simp only [Option.pure_def, Option.some_bind] at h2
      cases ht : mergeList ex des rest with
      | none => rw [ht] at h2 ; exact absurd h2 (by simp)
      | some tail =>
        rw [ht] at h2
        simp only [Option.some_bind, Option.pure_def, Option.some.injEq] at h2
        have hm : m = (dGet des src).getD Value.null :: tail := h2.symm
        subst hm
        obtain ⟨hlen, hspec⟩ := mergeList_spec ex des rest tail ht
        refine ⟨by simp [hlen], ?_⟩
        intro i name hi
        cases i with
        | zero =>
          simp only [List.getElem?_cons_zero, Option.some.injEq] at hi
          subst hi
          constructor
          · intro r2 hr2
            exact absurd (hv.symm.trans hr2) (by simp)
          · intro _ ; simp
        | succ i =>
          simp only [List.getElem?_cons_succ] at hi
          obtain ⟨ha, hb⟩ := hspec i name hi
          exact ⟨fun r2 hr2 => by simpa using ha r2 hr2,
                 fun hr => by simpa using hb hr⟩

/-! ## Merge-entry lemmas -/

/-- One fill step on a well-formed entry: the field is copied from the
desired entry exactly when the current value is absent or empty and the
desired value is nonempty; otherwise the entry passes through
untouched. -/
theorem mergeFillKey_spec (dkvs dpkvs kvs pkvs : List (String × Value))
    (key : String) (e : Value)
    (hp : dGet kvs "params" = some (.dict pkvs))
    (hdp : dGet dkvs "params" = some (.dict dpkvs))
    (h : mergeFillKey (.dict dkvs) (.dict kvs) key = some e) :
    (inEmptyTuple ((dGet pkvs key).getD .null) = true ∧
      inEmptyTuple ((dGet dpkvs key).getD .null) = false ∧
      e = .dict (dSet kvs "params"
        (.dict (dSet pkvs key ((dGet dpkvs key).getD .null))))) ∨
    ((inEmptyTuple ((dGet pkvs key).getD .null) = false ∨
      inEmptyTuple ((dGet dpkvs key).getD .null) = true) ∧ e = .dict kvs) := by
  have hfill : ∀ e2 : Value,
      ((pyGetItem (.dict dkvs) "params").bind fun dparams =>
        (pyGet dparams key).bind fun val =>
          if (!inEmptyTuple val) = true
          then pySetItem2 (Value.dict kvs) "params" key val
          else pure (Value.dict kvs)) = some e2 →
      (inEmptyTuple ((dGet dpkvs key).getD .null) = false ∧
        e2 = .dict (dSet kvs "params"
          (.dict (dSet pkvs key ((dGet dpkvs key).getD .null))))) ∨
      (inEmptyTuple ((dGet dpkvs key).getD .null) = true ∧ e2 = .dict kvs) := by
    intro e2 h2
    simp only [pyGetItem] at h2
    rw [hdp] at h2
    simp only [Option.some_bind, pyGet, pyGetD, Option.some_bind] at h2
    by_cases hd : inEmptyTuple ((dGet dpkvs key).getD .null) = true
    · rw [if_neg (by simp [hd])] at h2
      right
      exact ⟨hd, (Option.some.inj h2).symm⟩
    · rw [if_pos (by simp only [Bool.not_eq_true] at hd ; simp [hd])] at h2
      left
      refine ⟨by simpa using hd, ?_⟩
      unfold pySetItem2 at h2
      simp only [Option.bind_eq_bind, pyGetItem] at h2
      rw [hp] at h2
      simp only [Option.some_bind, pySetItem, Option.some_bind,
        Option.some.injEq] at h2
      exact h2.symm
  unfold mergeFillKey at h
  simp only [Option.bind_eq_bind, pyGetItem] at h
  rw [hp] at h
  simp only [Option.some_bind, pyIn, Option.some_bind] at h
  by_cases hhas : dHas pkvs key = true
  · rw [if_neg (by simp [hhas])] at h
    simp only [pyGet, pyGetD, Option.some_bind, Option.pure_def,
      Option.some_bind] at h
    by_cases hc : inEmptyTuple ((dGet pkvs key).getD .null) = true
    · rw [if_pos (by simp [hc])] at h
      rcases hfill e (by simpa [pyGetItem] using h) with ⟨hd, he⟩ | ⟨hd, he⟩
      · exact Or.inl ⟨hc, hd, he⟩
      · exact Or.inr ⟨Or.inr hd, he⟩
    · rw [if_neg (by simp [hc])] at h
      exact Or.inr ⟨Or.inl (by simpa using hc), (Option.some.inj h).symm⟩
  · rw [if_pos (by simp [hhas])] at h
    simp only [Option.pure_def, Option.some_bind] at h
    rw [if_pos trivial] at h
    have hnone : dGet pkvs key = none := by
      cases hg : dGet pkvs key with
      | none => rfl
      | some v =>
        exact absurd ((dHas_iff_dGet pkvs key).mpr (by simp [hg])) hhas
    have hc : inEmptyTuple ((dGet pkvs key).getD .null) = true := by
      simp [hnone, inEmptyTuple]
    rcases hfill e (by simpa [pyGetItem] using h) with ⟨hd, he⟩ | ⟨hd, he⟩
    · exact Or.inl ⟨hc, hd, he⟩
    · exact Or.inr ⟨Or.inr hd, he⟩

theorem dGet_append_single_self (kvs : List (String × Value)) (k : String)
    (v : Value) (h : dGet kvs k = none) :
    dGet (kvs ++ [(k, v)]) k = some v := by
  induction kvs with
  | nil => simp [dGet_cons]
  | cons p ps ih =>
    rw [dGet_cons] at h
    by_cases hp : p.1 = k
    · rw [if_pos hp] at h ; exact absurd h (by simp)
    · rw [if_neg hp] at h
      rw [List.cons_append, dGet_cons, if_neg hp]
      exact ih h

/-- Folding the fill step over a duplicate-free list of keys: fields
outside the key list are untouched, each listed field follows the
fill-if-absent-or-empty rule, and nothing outside `params` changes. -/
theorem fillFold_spec (dkvs dpkvs : List (String × Value))
    (hdp : dGet dkvs "params" = some (.dict dpkvs)) :
    ∀ (keys : List String) (kvs pkvs : List (String × Value)) (e : Value),
      keys.Nodup →
      dGet kvs "params" = some (.dict pkvs) →
      keys.foldlM (fun r key => mergeFillKey (.dict dkvs) r key)
        (Value.dict kvs) = some e →
      ∃ kvsF pkvsF, e = .dict kvsF ∧
        dGet kvsF "params" = some (.dict pkvsF) ∧
        (∀ k, k ≠ "params" → dGet kvsF k = dGet kvs k) ∧
        (∀ pk, pk ∉ keys → dGet pkvsF pk = dGet pkvs pk) ∧
        (∀ key ∈ keys,
          dGet pkvsF key =
            if inEmptyTuple ((dGet pkvs key).getD .null) = true ∧
               inEmptyTuple ((dGet dpkvs key).getD .null) = false
            then some ((dGet dpkvs key).getD .null)
            else dGet pkvs key)
  | [], kvs, pkvs, e, _, hp, h => by
    have he : e = .dict kvs := by simpa [List.foldlM] using h.symm
    subst he
    exact ⟨kvs, pkvs, rfl, hp, fun _ _ => rfl, fun _ _ => rfl,
      fun key hk => by simp at hk⟩
  | key :: keys, kvs, pkvs, e, hnd, hp, h => by
    rw [List.foldlM_cons] at h
    simp only [Option.bind_eq_bind] at h
    cases h1 : mergeFillKey (.dict dkvs) (.dict kvs) key with
    | none => rw [h1] at h ; exact absurd h (by simp)
    | some e1 =>
      rw [h1] at h
      simp only [Option.some_bind] at h
      obtain ⟨hkeynot, hnd2⟩ := List.nodup_cons.mp hnd
      rcases mergeFillKey_spec dkvs dpkvs kvs pkvs key e1 hp hdp h1 with
        ⟨hc, hd, he1⟩ | ⟨hcd, he1⟩
      · -- the field was filled
        subst he1
        have hp1 : dGet (dSet kvs "params"
            (.dict (dSet pkvs key ((dGet dpkvs key).getD .null)))) "params" =
            some (.dict (dSet pkvs key ((dGet dpkvs key).getD .null))) :=
          dGet_dSet_self _ _ _
        obtain ⟨kvsF, pkvsF, heF, hpF, hkF, hpkF, hkeyF⟩ :=
          fillFold_spec dkvs dpkvs hdp keys _ _ e hnd2 hp1 h
        refine ⟨kvsF, pkvsF, heF, hpF, ?_, ?_, ?_⟩
        · intro k hk
          rw [hkF k hk, dGet_dSet_ne _ _ _ _ hk]
        · intro pk hpk
          have hpk2 : pk ∉ keys := fun hh => hpk (by simp [hh])
          have hpkkey : pk ≠ key := fun hh => hpk (by simp [hh])
          rw [hpkF pk hpk2, dGet_dSet_ne _ _ _ _ hpkkey]
        · intro k2 hk2
          rcases List.mem_cons.mp hk2 with hk2 | hk2
          · subst hk2
            rw [hpkF k2 hkeynot, dGet_dSet_self, if_pos ⟨hc, hd⟩]
          · have hne : k2 ≠ key := fun hh => hkeynot (hh ▸ hk2)
            rw [hkeyF k2 hk2, dGet_dSet_ne _ _ _ _ hne]
      · -- nothing changed at this key
        subst he1
        obtain ⟨kvsF, pkvsF, heF, hpF, hkF, hpkF, hkeyF⟩ :=
          fillFold_spec dkvs dpkvs hdp keys kvs pkvs e hnd2 hp h
        refine ⟨kvsF, pkvsF, heF, hpF, hkF, ?_, ?_⟩
        · intro pk hpk
          exact hpkF pk (fun hh => hpk (by simp [hh]))
        · intro k2 hk2
          rcases List.mem_cons.mp hk2 with hk2 | hk2
          · subst hk2
            rw [hpkF k2 hkeynot]
            rcases hcd with hcd | hcd
            · rw [if_neg (by simp [hcd])]
            · rw [if_neg (by simp [hcd])]
          · exact hkeyF k2 hk2

/-- Behaviour of the merge of one kept entry: the title is forced to
the file stem, the three fill keys follow the fill-if-absent-or-empty
rule against the freshly built entry, and every other field of the
entry, and every other key of its `params` mapping (weight and cover
included), carries over unmodified. -/
theorem mergeKept_spec (src : String) (kvs0 dkvs dpkvs : List (String × Value))
    (e : Value)
    (hwf : dGet kvs0 "params" = none ∨
      ∃ pk0, dGet kvs0 "params" = some (.dict pk0))
    (hdp : dGet dkvs "params" = some (.dict dpkvs))
    (h : mergeKept src (.dict kvs0) (.dict dkvs) = some e) :
    ∃ kvsF pkvsF, e = .dict kvsF ∧
      dGet kvsF "params" = some (.dict pkvsF) ∧
      dGet kvsF "title" = some (.str (pathStem src)) ∧
      (∀ k, k ≠ "title" → k ≠ "params" → dGet kvsF k = dGet kvs0 k) ∧
      (∀ pk, pk ∉ (["date", "location", "tags"] : List String) →
        dGet pkvsF pk = dGet (paramsOrEmpty kvs0) pk) ∧
      (∀ key ∈ (["date", "location", "tags"] : List String),
        dGet pkvsF key =
          if inEmptyTuple ((dGet (paramsOrEmpty kvs0) key).getD .null) = true ∧
             inEmptyTuple ((dGet dpkvs key).getD .null) = false
          then some ((dGet dpkvs key).getD .null)
          else dGet (paramsOrEmpty kvs0) key) := by
  unfold mergeKept at h
  simp only [Option.bind_eq_bind, pySetItem, Option.some_bind,
    pySetdefault] at h
  have htp : dGet (dSet kvs0 "title" (.str (pathStem src))) "params" =
      dGet kvs0 "params" :=
    dGet_dSet_ne kvs0 "title" "params" _ (by decide)
  by_cases hhas : dHas (dSet kvs0 "title" (.str (pathStem src))) "params" = true
  · rw [if_pos hhas] at h
    have hpk0 : ∃ pk0, dGet kvs0 "params" = some (.dict pk0) := by
      rcases hwf with hwf | hwf
      · exfalso
        rw [dHas_iff_dGet, htp, hwf] at hhas
        exact hhas rfl
      · exact hwf
    obtain ⟨pk0, hpk0⟩ := hpk0
    have hpe : paramsOrEmpty kvs0 = pk0 := by
      unfold paramsOrEmpty
      rw [hpk0]
    have hp2 : dGet (dSet kvs0 "title" (.str (pathStem src))) "params" =
        some (.dict pk0) := by rw [htp, hpk0]
    obtain ⟨kvsF, pkvsF, heF, hpF, hkF, hpkF, hkeyF⟩ :=
      fillFold_spec dkvs dpkvs hdp _ _ pk0 e (by decide) hp2 h
    refine ⟨kvsF, pkvsF, heF, hpF, ?_, ?_, ?_, ?_⟩
    · rw [hkF "title" (by decide), dGet_dSet_self]
    · intro k hk1 hk2
      rw [hkF k hk2, dGet_dSet_ne _ _ _ _ hk1]
    · intro pk hpk
      rw [hpe]
      exact hpkF pk hpk
    · intro key hkey
      rw [hpe]
      exact hkeyF key hkey
  · rw [if_neg hhas] at h
    have hnone : dGet kvs0 "params" = none := by
      cases hg : dGet kvs0 "params" with
      | none => rfl
      | some v =>
        exfalso
        apply hhas
        rw [dHas_iff_dGet, htp, hg]
        simp
    have hpe : paramsOrEmpty kvs0 = [] := by
      unfold paramsOrEmpty
      rw [hnone]
    have hp2 : dGet (dSet kvs0 "title" (.str (pathStem src)) ++
        [("params", Value.dict [])]) "params" = some (.dict []) := by
      apply dGet_append_single_self
      rw [htp, hnone]
    obtain ⟨kvsF, pkvsF, heF, hpF, hkF, hpkF, hkeyF⟩ :=
      fillFold_spec dkvs dpkvs hdp _ _ [] e (by decide) hp2 h
    refine ⟨kvsF, pkvsF, heF, hpF, ?_, ?_, ?_, ?_⟩
    · rw [hkF "title" (by decide),
        dGet_append_single_ne "params" "title" _ (by decide), dGet_dSet_self]
    · intro k hk1 hk2
      rw [hkF k hk2, dGet_append_single_ne "params" k _ hk2,
        dGet_dSet_ne _ _ _ _ hk1]
    · intro pk hpk
      rw [hpe]
      exact hpkF pk hpk
    · intro key hkey
      rw [hpe]
      exact hkeyF key hkey

/-! ## Desired-entry lemmas -/

/-- Every value stored in `desired_by_src` is the built entry of one of
the listed images, keyed by its file name. -/
theorem desired_values (cfg : Config) (P : String → Value → Prop) :
    ∀ (imgs : List ImageInfo) (acc : List (String × Value)),
      (∀ n v, dGet acc n = some v → P n v) →
      (∀ img ∈ imgs, P img.name (build_resource_for_image cfg img)) →
      ∀ n v, dGet (imgs.foldl
        (fun a i => sInsert a i.name (build_resource_for_image cfg i)) acc)
          n = some v → P n v
  | [], acc, hacc, _, n, v, h => hacc n v h
  | img :: imgs, acc, hacc, himg, n, v, h => by
    apply desired_values cfg P imgs
      (sInsert acc img.name (build_resource_for_image cfg img))
      ?_ (fun i hi => himg i (by simp [hi])) n v h
    intro n2 v2 h2
    by_cases hn : n2 = img.name
    · subst hn
      unfold sInsert at h2
      rw [dGet_dSet_self] at h2
      rw [← Option.some.inj h2]
      exact himg img (by simp)
    · unfold sInsert at h2
      rw [dGet_dSet_ne _ _ _ _ hn] at h2
      exact hacc n2 v2 h2

theorem desired_mem (cfg : Config) (imgs : List ImageInfo) (n : String)
    (v : Value) (h : dGet (desired_by_src cfg imgs) n = some v) :
    ∃ img ∈ imgs, img.name = n ∧ v = build_resource_for_image cfg img := by
  apply desired_values cfg
    (fun n v => ∃ img ∈ imgs, img.name = n ∧
      v = build_resource_for_image cfg img) imgs []
    (fun n v h => by simp [dGet] at h)
    (fun img hi => ⟨img, hi, rfl, rfl⟩) n v h

/-- The keys of the built params mapping are among date, location and
tags. -/
theorem buildParams_keys (cfg : Config) (img : ImageInfo) :
    ∀ p ∈ buildParams cfg img,
      p.1 = "date" ∨ p.1 = "location" ∨ p.1 = "tags" := by
  intro p hp
  unfold buildParams at hp
  have hp1 : p ∈ (if (if img.metaLoc ≠ "" then img.metaLoc
      else cfg.default_location) ≠ "" then
        [("date", Value.str img.metaDate)] ++
          [("location", Value.str (if img.metaLoc ≠ "" then img.metaLoc
            else cfg.default_location))]
      else [("date", Value.str img.metaDate)]) ∨
      p = ("tags", Value.list (cfg.common_tags.map .str)) := by
    by_cases ht : cfg.common_tags ≠ []
    · rw [if_pos ht] at hp
      rcases List.mem_append.mp hp with hh | hh
      · exact Or.inl hh
      · exact Or.inr (List.mem_singleton.mp hh)
    · rw [if_neg ht] at hp
      exact Or.inl hp
  rcases hp1 with hp1 | hp1
  · by_cases hl : (if img.metaLoc ≠ "" then img.metaLoc
        else cfg.default_location) ≠ ""
    · rw [if_pos hl] at hp1
      rcases List.mem_append.mp hp1 with hh | hh
      · rw [List.mem_singleton.mp hh]
        exact Or.inl rfl
      · rw [List.mem_singleton.mp hh]
        exact Or.inr (Or.inl rfl)
    · rw [if_neg hl] at hp1
      rw [List.mem_singleton.mp hp1]
      exact Or.inl rfl
  · rw [hp1]
    exact Or.inr (Or.inr rfl)

theorem dGet_if_head {c : Prop} [Decidable c] (l1 l2 : List (String × Value))
    (k : String) (ov : Option Value)
    (h1 : dGet l1 k = ov) (h2 : dGet l2 k = ov) :
    dGet (if c then l1 else l2) k = ov := by
  split_ifs <;> assumption

theorem buildParams_date (cfg : Config) (img : ImageInfo) :
    dGet (buildParams cfg img) "date" = some (.str img.metaDate) := by
  unfold buildParams
  apply dGet_if_head
  · rw [dGet_append_single_ne "tags" "date" _ (by decide)]
    apply dGet_if_head
    · rw [dGet_append_single_ne "location" "date" _ (by decide)]
      simp [dGet_cons]
    · simp [dGet_cons]
  · apply dGet_if_head
    · rw [dGet_append_single_ne "location" "date" _ (by decide)]
      simp [dGet_cons]
    · simp [dGet_cons]

theorem buildParams_no_weight (cfg : Config) (img : ImageInfo) :
    dHas (buildParams cfg img) "weight" = false := by
  cases hh : dHas (buildParams cfg img) "weight" with
  | false => rfl
  | true =>
    exfalso
    unfold dHas at hh
    rw [List.any_eq_true] at hh
    obtain ⟨p, hp, hpk⟩ := hh
    rcases buildParams_keys cfg img p hp with h | h | h <;>
      rw [h] at hpk <;> simp at hpk

theorem buildParams_no_cover (cfg : Config) (img : ImageInfo) :
    dGet (buildParams cfg img) "cover" = none := by
  cases hg : dGet (buildParams cfg img) "cover" with
  | none => rfl
  | some v =>
    exfalso
    have := (dHas_iff_dGet (buildParams cfg img) "cover").mpr (by simp [hg])
    unfold dHas at this
    rw [List.any_eq_true] at this
    obtain ⟨p, hp, hpk⟩ := this
    rcases buildParams_keys cfg img p hp with h | h | h <;>
      rw [h] at hpk <;> simp at hpk

theorem build_kvs (cfg : Config) (img : ImageInfo) :
    build_resource_for_image cfg img = .dict
      [("src", .str img.name), ("title", .str (pathStem img.name)),
       ("params", .dict (buildParams cfg img))] := rfl

theorem build_src (cfg : Config) (img : ImageInfo) :
    dGet [("src", Value.str img.name),
          ("title", Value.str (pathStem img.name)),
          ("params", Value.dict (buildParams cfg img))] "src" =
      some (.str img.name) := by
  simp [dGet_cons]

theorem build_params_get (cfg : Config) (img : ImageInfo) :
    dGet [("src", Value.str img.name),
          ("title", Value.str (pathStem img.name)),
          ("params", Value.dict (buildParams cfg img))] "params" =
      some (.dict (buildParams cfg img)) := by
  simp [dGet_cons]

/-- A built entry always needs a weight. -/
theorem build_needsWeight (cfg : Config) (img : ImageInfo) :
    needsWeight (build_resource_for_image cfg img) = some true := by
  unfold needsWeight
  rw [build_kvs]
  simp only [pyGetItem, build_params_get, Option.some_bind, pyIn,
    Option.bind_eq_bind, Option.some_bind]
  rw [if_pos (by simp [buildParams_no_weight])]
  rfl

theorem mem_map_fst_dGet (kvs : List (String × Value)) (n : String)
    (h : n ∈ kvs.map (fun p => p.1)) : ∃ v, dGet kvs n = some v := by
  have hhas : dHas kvs n = true := by
    unfold dHas
    rw [List.any_eq_true]
    rw [List.mem_map] at h
    obtain ⟨p, hp, hpe⟩ := h
    exact ⟨p, hp, by simp [hpe]⟩
  rw [dHas_iff_dGet] at hhas
  cases hg : dGet kvs n with
  | none => exact absurd hg hhas
  | some v => exact ⟨v, rfl⟩

/-- C1 — for every merged entry whose `src` exists in both the existing
manifest and the current directory listing: the merged entry is the
existing entry with `title` forced to the file stem; each of date,
location and tags is filled from the freshly computed entry exactly when
the existing value is absent, `None`, the empty string or the empty
list, and the computed value is nonempty; a nonempty existing value is
untouched; every other field of the entry and of its params mapping
(weight and cover included) carries over unmodified. -/
theorem merged_entry_preserves_fields
    (codec : YamlCodec) (cfg : Config) (imgs : List ImageInfo) (text : String)
    (res : RunResult) (h : runCore codec cfg imgs text = some res)
    (i : Nat) (name : String) (hi : res.sortedSrcs[i]? = some name)
    (kvs0 : List (String × Value))
    (hr : vGet res.existingBySrc (.str name) = some (.dict kvs0))
    (hwf : dGet kvs0 "params" = none ∨
      ∃ pk0, dGet kvs0 "params" = some (.dict pk0)) :
    ∃ img, img ∈ imgs ∧ img.name = name ∧
    ∃ e kvsF pkvsF, res.merged0[i]? = some e ∧ e = .dict kvsF ∧
      dGet kvsF "params" = some (.dict pkvsF) ∧
      dGet kvsF "title" = some (.str (pathStem name)) ∧
      (∀ k, k ≠ "title" → k ≠ "params" → dGet kvsF k = dGet kvs0 k) ∧
      (∀ pk, pk ∉ (["date", "location", "tags"] : List String) →
        dGet pkvsF pk = dGet (paramsOrEmpty kvs0) pk) ∧
      (∀ key ∈ (["date", "location", "tags"] : List String),
        dGet pkvsF key =
          if inEmptyTuple ((dGet (paramsOrEmpty kvs0) key).getD .null) = true ∧
             inEmptyTuple ((dGet (buildParams cfg img) key).getD .null) = false
          then some ((dGet (buildParams cfg img) key).getD .null)
          else dGet (paramsOrEmpty kvs0) key) := by
  obtain ⟨fm, er, hsp, hfp, hbody, hger, hex, hsorted, hmerge, hw, hcov,
    hset, hout⟩ := runCore_spec codec cfg imgs text res h
  have hmem : name ∈ (desired_by_src cfg imgs).map (fun p => p.1) := by
    have h1 : name ∈ res.sortedSrcs := by
      exact List.getElem?_mem hi
    rw [hsorted] at h1
    exact (perm_pySorted _).mem_iff.mp h1
  obtain ⟨dv, hdv⟩ := mem_map_fst_dGet _ name hmem
  obtain ⟨img, himg, hname, hbuild⟩ := desired_mem cfg imgs name dv hdv
  obtain ⟨hlen, hspec⟩ := mergeList_spec res.existingBySrc
    (desired_by_src cfg imgs) res.sortedSrcs res.merged0 hmerge
  obtain ⟨hkept, _⟩ := hspec i name hi
  obtain ⟨e, he, hmk⟩ := hkept (.dict kvs0) hr
  have hdval : (dGet (desired_by_src cfg imgs) name).getD .null =
      .dict [("src", .str img.name), ("title", .str (pathStem img.name)),
             ("params", .dict (buildParams cfg img))] := by
    rw [hdv]
    simp only [Option.getD_some]
    rw [hbuild, build_kvs]
  rw [hdval] at hmk
  obtain ⟨kvsF, pkvsF, heF, hpF, htF, hkF, hpkF, hkeyF⟩ :=
    mergeKept_spec name kvs0 _ (buildParams cfg img) e hwf
      (build_params_get cfg img) hmk
  exact ⟨img, himg, hname, e, kvsF, pkvsF, he, heF, hpF, htF, hkF, hpkF, hkeyF⟩

/-! ## Frame lemmas: nothing outside `params` changes -/

theorem pySetItem2_frame (r r2 : Value) (key : String) (v : Value)
    (h : pySetItem2 r "params" key v = some r2) :
    ∀ k, k ≠ "params" → pyGetItem r2 k = pyGetItem r k := by
  intro k hk
  cases r with
  | dict kvs =>
    unfold pySetItem2 at h
    simp only [Option.bind_eq_bind, pyGetItem] at h
    cases hin : dGet kvs "params" with
    | none => rw [hin] at h ; exact absurd h (by simp)
    | some pv =>
      rw [hin] at h
      simp only [Option.some_bind] at h
      cases pv with
      | dict pkvs =>
        simp only [pySetItem, Option.some_bind, Option.some.injEq] at h
        rw [← h]
        simp only [pyGetItem]
        exact dGet_dSet_ne _ _ _ _ hk
      | null => simp [pySetItem] at h
      | bool b => simp [pySetItem] at h
      | int n => simp [pySetItem] at h
      | str s => simp [pySetItem] at h
      | list xs => simp [pySetItem] at h
  | null => simp [pySetItem2, pyGetItem] at h
  | bool b => simp [pySetItem2, pyGetItem] at h
  | int n => simp [pySetItem2, pyGetItem] at h
  | str s => simp [pySetItem2, pyGetItem] at h
  | list xs => simp [pySetItem2, pyGetItem] at h

theorem pySetdefault_frame (r r1 d : Value)
    (h : pySetdefault r "params" d = some r1) :
    ∀ k, k ≠ "params" → pyGetItem r1 k = pyGetItem r k := by
  intro k hk
  cases r with
  | dict kvs =>
    simp only [pySetdefault, Option.some.injEq] at h
    rw [← h]
    by_cases hhas : dHas kvs "params" = true
    · rw [if_pos hhas]
    · rw [if_neg hhas]
      simp only [pyGetItem]
      exact dGet_append_single_ne "params" k d hk kvs
  | null => simp [pySetdefault] at h
  | bool b => simp [pySetdefault] at h
  | int n => simp [pySetdefault] at h
  | str s => simp [pySetdefault] at h
  | list xs => simp [pySetdefault] at h

theorem mergeFillKey_frame (dentry r e : Value) (key : String)
    (h : mergeFillKey dentry r key = some e) :
    ∀ k, k ≠ "params" → pyGetItem e k = pyGetItem r k := by
  intro k hk
  unfold mergeFillKey at h
  simp only [Option.bind_eq_bind] at h
  cases hp : pyGetItem r "params" with
  | none => rw [hp] at h ; exact absurd h (by simp)
  | some params =>
    rw [hp] at h
    simp only [Option.some_bind] at h
    cases hin : pyIn key params with
    | none => rw [hin] at h ; exact absurd h (by simp)
    | some isIn =>
      rw [hin] at h
      simp only [Option.some_bind] at h
      have hcont : ∀ (cond : Bool),
          ((if cond = true then do
              let dparams ← pyGetItem dentry "params"
              let val ← pyGet dparams key
              if !(inEmptyTuple val) then pySetItem2 r "params" key val
              else pure r
            else pure r) : Option Value) = some e →
          pyGetItem e k = pyGetItem r k := by
        intro cond hc
        cases cond with
        | false =>
          rw [if_neg (by simp)] at hc
          rw [← Option.some.inj hc]
        | true =>
          rw [if_pos rfl] at hc
          simp only [Option.bind_eq_bind] at hc
          cases hdp : pyGetItem dentry "params" with
          | none => rw [hdp] at hc ; exact absurd hc (by simp)
          | some dparams =>
            rw [hdp] at hc
            simp only [Option.some_bind] at hc
            cases hval : pyGet dparams key with
            | none => rw [hval] at hc ; exact absurd hc (by simp)
            | some val =>
              rw [hval] at hc
              simp only [Option.some_bind] at hc
              by_cases hemp : inEmptyTuple val = true
              · rw [if_neg (by simp [hemp])] at hc
                rw [← Option.some.inj hc]
              · have hemp2 : (!inEmptyTuple val) = true := by
                  simp only [Bool.not_eq_true] at hemp
                  simp [hemp]
                rw [if_pos hemp2] at hc
                exact pySetItem2_frame r e key val hc k hk
      cases isIn with
      | false =>
        rw [if_pos (show (!false) = true from rfl)] at h
        simp only [Option.pure_def, Option.some_bind] at h
        exact hcont true (by simpa using h)
      | true =>
        simp only [Bool.not_true] at h
        rw [if_neg (by simp)] at h
        cases hw : pyGet params key with
        | none => rw [hw] at h ; exact absurd h (by simp)
        | some g =>
          rw [hw] at h
          simp only [Option.some_bind, Option.pure_def, Option.some_bind] at h
          exact hcont (inEmptyTuple g) h

theorem fillFold_frame (dentry : Value) :
    ∀ (keys : List String) (r e : Value),
      keys.foldlM (fun r key => mergeFillKey dentry r key) r = some e →
      ∀ k, k ≠ "params" → pyGetItem e k = pyGetItem r k
  | [], r, e, h, k, hk => by
    rw [List.foldlM_nil] at h
    rw [← Option.some.inj h]
  | key :: keys, r, e, h, k, hk => by
    rw [List.foldlM_cons] at h
    simp only [Option.bind_eq_bind] at h
    cases h1 : mergeFillKey dentry r key with
    | none => rw [h1] at h ; exact absurd h (by simp)
    | some e1 =>
      rw [h1] at h
      simp only [Option.some_bind] at h
      rw [fillFold_frame dentry keys e1 e h k hk]
      exact mergeFillKey_frame dentry r e1 key h1 k hk

/-- The merge of a kept entry does not touch its `src` field (nor any
field other than `title` and `params`). -/
theorem mergeKept_frame (src : String) (r0 dentry e : Value)
    (h : mergeKept src r0 dentry = some e) :
    ∀ k, k ≠ "params" → k ≠ "title" → pyGetItem e k = pyGetItem r0 k := by
  intro k hk ht
  unfold mergeKept at h
  simp only [Option.bind_eq_bind] at h
  cases h1 : pySetItem r0 "title" (.str (pathStem src)) with
  | none => rw [h1] at h ; exact absurd h (by simp)
  | some r1 =>
    rw [h1] at h
    simp only [Option.some_bind] at h
    cases h2 : pySetdefault r1 "params" (.dict []) with
    | none => rw [h2] at h ; exact absurd h (by simp)
    | some r2 =>
      rw [h2] at h
      simp only [Option.some_bind] at h
      rw [fillFold_frame dentry _ r2 e h k hk,
        pySetdefault_frame r1 r2 _ h2 k hk]
      cases r0 with
      | dict kvs =>
        simp only [pySetItem, Option.some.injEq] at h1
        rw [← h1]
        simp only [pyGetItem]
        exact dGet_dSet_ne _ _ _ _ ht
      | null => simp [pySetItem] at h1
      | bool b => simp [pySetItem] at h1
      | int n => simp [pySetItem] at h1
      | str s => simp [pySetItem] at h1
      | list xs => simp [pySetItem] at h1

/-! ## Lemmas about the `src` index -/

theorem mem_vSet (acc : List (Value × Value)) (k v : Value) :
    ∀ p ∈ vSet acc k v, p ∈ acc ∨ p = (k, v) := by
  intro p hp
  unfold vSet at hp
  by_cases hhas : vHas acc k = true
  · rw [if_pos hhas] at hp
    rw [List.mem_map] at hp
    obtain ⟨q, hq, hqe⟩ := hp
    by_cases hq1 : q.1 = k
    · rw [if_pos hq1] at hqe
      right
      rw [← hqe, hq1]
    · rw [if_neg hq1] at hqe
      left
      rw [← hqe]
      exact hq
  · rw [if_neg hhas] at hp
    rcases List.mem_append.mp hp with hp | hp
    · exact Or.inl hp
    · exact Or.inr (List.mem_singleton.mp hp)

/-- Every pair stored by `resources_to_dict` is a mapping entry whose
`src` field is the (truthy) key it is stored under. -/
theorem resources_to_dict_mem :
    ∀ (rs : List Value) (acc : List (Value × Value)),
      (∀ p ∈ acc, ∃ kvs, p.2 = Value.dict kvs ∧
        (dGet kvs "src").getD .null = p.1 ∧ pyTruthy p.1 = true) →
      ∀ p ∈ rs.foldl (fun acc r =>
          match r with
          | .dict kvs =>
            let src := (dGet kvs "src").getD .null
            if pyTruthy src then vSet acc src r else acc
          | _ => acc) acc,
        ∃ kvs, p.2 = Value.dict kvs ∧
          (dGet kvs "src").getD .null = p.1 ∧ pyTruthy p.1 = true
  | [], acc, hacc, p, hp => hacc p hp
  | r :: rs, acc, hacc, p, hp => by
    apply resources_to_dict_mem rs _ ?_ p hp
    intro q hq
    cases r with
    | dict kvs =>
      simp only at hq
      by_cases ht : pyTruthy ((dGet kvs "src").getD .null) = true
      · rw [if_pos ht] at hq
        rcases mem_vSet acc _ (Value.dict kvs) q hq with hq2 | hq2
        · exact hacc q hq2
        · rw [hq2]
          exact ⟨kvs, rfl, rfl, ht⟩
      · rw [if_neg ht] at hq
        exact hacc q hq
    | null => exact hacc q hq
    | bool b => exact hacc q hq
    | int n => exact hacc q hq
    | str s => exact hacc q hq
    | list xs => exact hacc q hq

theorem vGet_mem (l : List (Value × Value)) (k v : Value)
    (h : vGet l k = some v) : (k, v) ∈ l := by
  unfold vGet at h
  cases hf : l.find? (fun p => p.1 = k) with
  | none => rw [hf] at h ; exact absurd h (by simp)
  | some p =>
    rw [hf] at h
    have hmem := List.mem_of_find?_eq_some hf
    have hkey := List.find?_some hf
    simp only [decide_eq_true_eq] at hkey
    have hv : p.2 = v := by simpa using h
    have : p = (k, v) := by
      cases p
      simp only at hkey hv
      rw [hkey, hv]
    rw [← this]
    exact hmem

/-- An entry found in `existing_by_src` under key `.str name` is a
mapping whose `src` field is exactly `.str name`. -/
theorem existing_src_field (rs : List Value) (name : String) (r : Value)
    (h : vGet (resources_to_dict rs) (.str name) = some r) :
    ∃ kvs, r = Value.dict kvs ∧ dGet kvs "src" = some (.str name) := by
  have hmem := vGet_mem _ _ _ h
  obtain ⟨kvs, hkvs, hsrc, htr⟩ :=
    resources_to_dict_mem rs [] (by intro p hp ; simp at hp)
      (Value.str name, r) hmem
  refine ⟨kvs, hkvs, ?_⟩
  simp only at hsrc
  cases hg : dGet kvs "src" with
  | none =>
    rw [hg] at hsrc
    exact absurd hsrc.symm (by simp)
  | some v =>
    rw [hg] at hsrc
    simp only [Option.getD_some] at hsrc
    rw [hsrc]

/-- Position-by-position behaviour of the setdefault pass. -/
theorem mapM_setdefault_spec :
    ∀ (rs rs1 : List Value),
      rs.mapM (fun r => pySetdefault r "params" (.dict [])) = some rs1 →
      rs1.length = rs.length ∧
      ∀ (i : Nat) (r : Value), rs[i]? = some r →
        ∃ r1, rs1[i]? = some r1 ∧
          pySetdefault r "params" (.dict []) = some r1
  | [], rs1, h => by
    rw [List.mapM_nil] at h
    have : rs1 = [] := (Option.some.inj h).symm
    subst this
    exact ⟨rfl, fun i r hi => by simp at hi⟩
  | r :: rs, rs1, h => by
    rw [List.mapM_cons] at h
    simp only [Option.bind_eq_bind] at h
    cases h1 : pySetdefault r "params" (.dict []) with
    | none => rw [h1] at h ; exact absurd h (by simp)
    | some r1 =>
      rw [h1] at h
      simp only [Option.some_bind] at h
      cases h2 : rs.mapM (fun r => pySetdefault r "params" (.dict [])) with
      | none => rw [h2] at h ; exact absurd h (by simp)
      | some rest =>
        rw [h2] at h
        simp only [Option.some_bind, Option.pure_def, Option.some.injEq] at h
        have : rs1 = r1 :: rest := h.symm
        subst this
        obtain ⟨hlen, hspec⟩ := mapM_setdefault_spec rs rest h2
        refine ⟨by simp [hlen], ?_⟩
        intro i x hi
        cases i with
        | zero =>
          simp only [List.getElem?_cons_zero, Option.some.injEq] at hi
          subst hi
          exact ⟨r1, by simp, h1⟩
        | succ i =>
          simp only [List.getElem?_cons_succ] at hi
          obtain ⟨r2, hr2, hr2s⟩ := hspec i x hi
          exact ⟨r2, by simpa using hr2, hr2s⟩

/-- The two possible outcomes of `ensure_cover`. -/
theorem ensure_cover_entries (rs out : List Value)
    (h : ensure_cover rs = some out) :
    out = rs ∨ ∃ r0 rest r1 r2, rs = r0 :: rest ∧ out = r2 :: rest ∧
      pySetdefault r0 "params" (.dict []) = some r1 ∧
      pySetItem2 r1 "params" "cover" (.bool true) = some r2 := by
  have hacx : ∃ ac, anyCover rs = some ac := by
    unfold ensure_cover at h
    simp only [Option.bind_eq_bind] at h
    cases hac : anyCover rs with
    | none => rw [hac] at h ; exact absurd h (by simp)
    | some ac => exact ⟨ac, rfl⟩
  obtain ⟨ac, hac⟩ := hacx
  cases ac with
  | true =>
    rw [ensure_cover_of_found rs hac] at h
    exact Or.inl (Option.some.inj h).symm
  | false =>
    cases rs with
    | nil =>
      unfold ensure_cover at h
      simp only [anyCover, Option.some_bind] at h
      exact Or.inl (by simpa using (Option.some.inj h).symm)
    | cons r0 rest =>
      have hsteps : ∃ r1 r2, pySetdefault r0 "params" (.dict []) = some r1 ∧
          pySetItem2 r1 "params" "cover" (.bool true) = some r2 := by
        unfold ensure_cover at h
        rw [hac] at h
        simp only [Option.some_bind, Bool.not_false, if_pos rfl,
          Option.bind_eq_bind] at h
        cases h1 : pySetdefault r0 "params" (.dict []) with
        | none => rw [h1] at h ; exact absurd h (by simp)
        | some r1 =>
          rw [h1] at h
          simp only [Option.some_bind] at h
          cases h2 : pySetItem2 r1 "params" "cover" (.bool true) with
          | none => rw [h2] at h ; exact absurd h (by simp)
          | some r2 => exact ⟨r1, r2, rfl, h2⟩
      obtain ⟨r1, r2, h1, h2⟩ := hsteps
      rw [ensure_cover_of_not_found r0 rest r1 r2 hac h1 h2] at h
      exact Or.inr ⟨r0, rest, r1, r2, rfl, (Option.some.inj h).symm, h1, h2⟩

/-- The assignment pass only edits `params`. -/
theorem assignWeights_frame :
    ∀ (rs : List Value) (nw : Int) (out : List Value),
      assignWeights rs nw = some out →
      out.length = rs.length ∧
      ∀ (i : Nat) (r : Value), rs[i]? = some r →
        ∃ e, out[i]? = some e ∧
          ∀ k, k ≠ "params" → pyGetItem e k = pyGetItem r k
  | [], nw, out, h => by
    have : out = [] := by simpa [assignWeights] using h.symm
    subst this
    exact ⟨rfl, fun i r hi => by simp at hi⟩
  | r :: rs, nw, out, h => by
    unfold assignWeights at h
    simp only [Option.bind_eq_bind] at h
    cases hc : needsWeight r with
    | none => rw [hc] at h ; exact absurd h (by simp)
    | some c =>
      rw [hc] at h
      simp only [Option.some_bind] at h
      cases c with
      | true =>
        rw [if_pos rfl] at h
        cases h2 : pySetItem2 r "params" "weight" (.int nw) with
        | none => rw [h2] at h ; exact absurd h (by simp)
        | some r2 =>
          rw [h2] at h
          simp only [Option.some_bind] at h
          cases hrest : assignWeights rs (nw + 1) with
          | none => rw [hrest] at h ; exact absurd h (by simp)
          | some rest =>
            rw [hrest] at h
            simp only [Option.some_bind, Option.pure_def,
              Option.some.injEq] at h
            have : out = r2 :: rest := h.symm
            subst this
            obtain ⟨hlen, hspec⟩ := assignWeights_frame rs (nw + 1) rest hrest
            refine ⟨by simp [hlen], ?_⟩
            intro i x hi
            cases i with
            | zero =>
              simp only [List.getElem?_cons_zero, Option.some.injEq] at hi
              subst hi
              exact ⟨r2, by simp, fun k hk => pySetItem2_frame _ _ _ _ h2 k hk⟩
            | succ i =>
              simp only [List.getElem?_cons_succ] at hi
              obtain ⟨e, he, hef⟩ := hspec i x hi
              exact ⟨e, by simpa using he, hef⟩
      | false =>
        rw [if_neg (by simp)] at h
        cases hrest : assignWeights rs nw with
        | none => rw [hrest] at h ; exact absurd h (by simp)
        | some rest =>
          rw [hrest] at h
          simp only [Option.some_bind, Option.pure_def, Option.some.injEq] at h
          have : out = r :: rest := h.symm
          subst this
          obtain ⟨hlen, hspec⟩ := assignWeights_frame rs nw rest hrest
          refine ⟨by simp [hlen], ?_⟩
          intro i x hi
          cases i with
          | zero =>
            simp only [List.getElem?_cons_zero, Option.some.injEq] at hi
            subst hi
            exact ⟨r, by simp, fun k hk => rfl⟩
          | succ i =>
            simp only [List.getElem?_cons_succ] at hi
            obtain ⟨e, he, hef⟩ := hspec i x hi
            exact ⟨e, by simpa using he, hef⟩

/-- Keys present in the desired mapping. -/
theorem dHas_dGet_some (kvs : List (String × Value)) (k : String)
    (h : dHas kvs k = true) : ∃ v, dGet kvs k = some v := by
  rw [dHas_iff_dGet] at h
  cases hg : dGet kvs k with
  | none => exact absurd hg h
  | some v => exact ⟨v, rfl⟩

theorem desired_has (cfg : Config) :
    ∀ (imgs : List ImageInfo) (acc : List (String × Value)) (n : String),
      (dHas acc n = true ∨ ∃ img ∈ imgs, img.name = n) →
      dHas (imgs.foldl
        (fun a i => sInsert a i.name (build_resource_for_image cfg i)) acc)
          n = true
  | [], acc, n, h => by
    rcases h with h | h
    · exact h
    · obtain ⟨img, hi, _⟩ := h
      simp at hi
  | img :: imgs, acc, n, h => by
    apply desired_has cfg imgs (sInsert acc img.name
      (build_resource_for_image cfg img)) n
    rcases h with h | h
    · left
      unfold sInsert
      rw [dHas_iff_dGet]
      by_cases hn : n = img.name
      · subst hn
        rw [dGet_dSet_self]
        simp
      · rw [dGet_dSet_ne _ _ _ _ hn, ← dHas_iff_dGet]
        exact h
    · obtain ⟨img2, hi2, hn2⟩ := h
      rcases List.mem_cons.mp hi2 with hi2 | hi2
      · subst hi2
        left
        rw [← hn2]
        unfold sInsert
        exact dHas_dSet acc img2.name _
      · right
        exact ⟨img2, hi2, hn2⟩

/-- The keys of the desired mapping are exactly the listed file names. -/
theorem desired_keys_iff (cfg : Config) (imgs : List ImageInfo) (n : String) :
    n ∈ (desired_by_src cfg imgs).map (fun p => p.1) ↔
      n ∈ imgs.map (fun i => i.name) := by
  constructor
  · intro h
    obtain ⟨v, hv⟩ := mem_map_fst_dGet _ n h
    obtain ⟨img, hi, hn, _⟩ := desired_mem cfg imgs n v hv
    rw [List.mem_map]
    exact ⟨img, hi, hn⟩
  · intro h
    rw [List.mem_map] at h
    obtain ⟨img, hi, hn⟩ := h
    have := desired_has cfg imgs [] n (Or.inr ⟨img, hi, hn⟩)
    unfold dHas at this
    rw [List.any_eq_true] at this
    obtain ⟨p, hp, hpe⟩ := this
    rw [List.mem_map]
    exact ⟨p, hp, by simpa using hpe⟩

/-- Updating a mapping key keeps the key list duplicate-free. -/
theorem dSet_keys_nodup (kvs : List (String × Value)) (k : String) (v : Value)
    (h : (kvs.map (fun p => p.1)).Nodup) :
    ((dSet kvs k v).map (fun p => p.1)).Nodup := by
  unfold dSet
  by_cases hhas : dHas kvs k = true
  · rw [if_pos hhas]
    have heq : (kvs.map (fun p => if p.1 = k then (p.1, v) else p)).map
        (fun p => p.1) = kvs.map (fun p => p.1) := by
      rw [List.map_map]
      apply List.map_congr_left
      intro p _
      by_cases hpk : p.1 = k <;> simp [hpk]
    rw [heq]
    exact h
  · rw [if_neg hhas, List.map_append]
    rw [List.nodup_append]
    refine ⟨h, by simp, ?_⟩
    intro a ha hb
    simp only [List.map_cons, List.map_nil, List.mem_singleton] at hb
    subst hb
    apply hhas
    unfold dHas
    rw [List.any_eq_true]
    rw [List.mem_map] at ha
    obtain ⟨p, hp, hpe⟩ := ha
    exact ⟨p, hp, by simp [hpe]⟩

/-- The desired mapping never stores a key twice. -/
theorem desired_keys_nodup (cfg : Config) :
    ∀ (imgs : List ImageInfo) (acc : List (String × Value)),
      (acc.map (fun p => p.1)).Nodup →
      ((imgs.foldl
        (fun a i => sInsert a i.name (build_resource_for_image cfg i))
          acc).map (fun p => p.1)).Nodup
  | [], _, h => h
  | img :: imgs, acc, h =>
    desired_keys_nodup cfg imgs _ (dSet_keys_nodup acc img.name _ h)

/-- C5 — the merged output lists exactly the image files currently on
disk: its length matches the sorted name list, the entry at each
position carries that position's file name as its `src`, the sorted
name list contains exactly the on-disk names (entries whose file
disappeared are gone), and it is strictly ascending. -/
theorem merged_srcs_match_disk (codec : YamlCodec) (cfg : Config)
    (imgs : List ImageInfo) (text : String) (res : RunResult)
    (h : runCore codec cfg imgs text = some res) :
    (∀ s, s ∈ res.sortedSrcs ↔ s ∈ imgs.map (fun i => i.name)) ∧
    res.sortedSrcs.Pairwise (fun a b => strLt a b = true) ∧
    res.merged.length = res.sortedSrcs.length ∧
    (∀ (i : Nat) (name : String), res.sortedSrcs[i]? = some name →
      ∃ e, res.merged[i]? = some e ∧ pyGetItem e "src" = some (.str name)) := by
  obtain ⟨fm, er, hsp, hfp, hbody, hger, hex, hsorted, hmerge, hw, hcov,
    hset, hout⟩ := runCore_spec codec cfg imgs text res h
  have hmemiff : ∀ s, s ∈ res.sortedSrcs ↔ s ∈ imgs.map (fun i => i.name) := by
    intro s
    rw [hsorted, (perm_pySorted _).mem_iff]
    exact desired_keys_iff cfg imgs s
  have hnodup2 : ((desired_by_src cfg imgs).map (fun p => p.1)).Nodup :=
    desired_keys_nodup cfg imgs [] (by simp)
  have hpair : res.sortedSrcs.Pairwise (fun a b => strLt a b = true) := by
    rw [hsorted]
    exact pairwise_lt_pySorted _ hnodup2
  obtain ⟨hlen0, hspec0⟩ := mergeList_spec _ _ _ _ hmerge
  obtain ⟨ws, rs1, hws, hmapM, hassign⟩ := update_weights_spec _ _ _ hw
  obtain ⟨hlen1, hspec1⟩ := mapM_setdefault_spec _ _ hmapM
  obtain ⟨hlen2, hspec2⟩ := assignWeights_frame _ _ _ hassign
  have hsrc0 : ∀ (i : Nat) (name : String), res.sortedSrcs[i]? = some name →
      ∃ e, res.merged0[i]? = some e ∧ pyGetItem e "src" = some (.str name) := by
    intro i name hi
    obtain ⟨hkept, hnew⟩ := hspec0 i name hi
    cases hv : vGet res.existingBySrc (.str name) with
    | some r =>
      obtain ⟨e, he, hmk⟩ := hkept r hv
      have hv2 : ∃ kvs, r = Value.dict kvs ∧ dGet kvs "src" = some (.str name) := by
        rw [hex] at hv
        cases er with
        | list rs => exact existing_src_field rs name r hv
        | null => simp [existingFrom, vGet] at hv
        | bool b => simp [existingFrom, vGet] at hv
        | int n => simp [existingFrom, vGet] at hv
        | str s => simp [existingFrom, vGet] at hv
        | dict kvs => simp [existingFrom, vGet] at hv
      obtain ⟨kvs, hr, hsrc⟩ := hv2
      refine ⟨e, he, ?_⟩
      rw [mergeKept_frame name r _ e hmk "src" (by decide) (by decide), hr]
      simpa [pyGetItem] using hsrc
    | none =>
      have he := hnew hv
      have hmem : name ∈ (desired_by_src cfg imgs).map (fun p => p.1) := by
        rw [desired_keys_iff cfg imgs, ← hmemiff name]
        exact List.getElem?_mem hi
      obtain ⟨dv, hdv⟩ := mem_map_fst_dGet _ name hmem
      obtain ⟨img, himg, hname, hbuild⟩ := desired_mem cfg imgs name dv hdv
      refine ⟨(dGet (desired_by_src cfg imgs) name).getD .null, he, ?_⟩
      rw [hdv]
      simp only [Option.getD_some]
      rw [hbuild, build_kvs]
      simp only [pyGetItem]
      rw [← hname]
      exact build_src cfg img
  have hsrc2 : ∀ (i : Nat) (name : String), res.sortedSrcs[i]? = some name →
      ∃ e, res.mergedW[i]? = some e ∧ pyGetItem e "src" = some (.str name) := by
    intro i name hi
    obtain ⟨e0, he0, hs0⟩ := hsrc0 i name hi
    obtain ⟨e1, he1, hsd⟩ := hspec1 i e0 he0
    obtain ⟨e2, he2, hfr⟩ := hspec2 i e1 he1
    refine ⟨e2, he2, ?_⟩
    rw [hfr "src" (by decide), pySetdefault_frame e0 e1 _ hsd "src" (by decide),
      hs0]
  have hlenW : res.mergedW.length = res.sortedSrcs.length := by
    rw [hlen2, hlen1, hlen0]
  rcases ensure_cover_entries _ _ hcov with hcove | ⟨r0, rest, r1, r2, hmw, hm, hc1, hc2⟩
  · refine ⟨hmemiff, hpair, by rw [hcove, hlenW], ?_⟩
    intro i name hi
    rw [hcove]
    exact hsrc2 i name hi
  · refine ⟨hmemiff, hpair, ?_, ?_⟩
    · rw [hm]
      rw [hmw] at hlenW
      simpa using hlenW
    · intro i name hi
      obtain ⟨e2, he2, hs2⟩ := hsrc2 i name hi
      cases i with
      | zero =>
        rw [hmw] at he2
        simp only [List.getElem?_cons_zero, Option.some.injEq] at he2
        refine ⟨r2, by simp [hm], ?_⟩
        rw [pySetItem2_frame r1 r2 _ _ hc2 "src" (by decide),
          pySetdefault_frame r0 r1 _ hc1 "src" (by decide), he2]
        exact hs2
      | succ i =>
        rw [hmw] at he2
        simp only [List.getElem?_cons_succ] at he2
        exact ⟨e2, by simp [hm, he2], hs2⟩

/-- Witness for C1 at the concrete scenario. -/
theorem merged_entry_preserves_fields_witness :
    ∃ img, img ∈ c1Imgs ∧ img.name = "a.jpg" ∧
    ∃ e kvsF pkvsF, c1Res.merged0[0]? = some e ∧ e = .dict kvsF ∧
      dGet kvsF "params" = some (.dict pkvsF) ∧
      dGet kvsF "title" = some (.str (pathStem "a.jpg")) ∧
      (∀ k, k ≠ "title" → k ≠ "params" →
        dGet kvsF k = dGet [("src", Value.str "a.jpg"),
          ("params", Value.dict [("weight", Value.int 5)])] k) ∧
      (∀ pk, pk ∉ (["date", "location", "tags"] : List String) →
        dGet pkvsF pk = dGet (paramsOrEmpty [("src", Value.str "a.jpg"),
          ("params", Value.dict [("weight", Value.int 5)])]) pk) ∧
      (∀ key ∈ (["date", "location", "tags"] : List String),
        dGet pkvsF key =
          if inEmptyTuple ((dGet (paramsOrEmpty [("src", Value.str "a.jpg"),
               ("params", Value.dict [("weight", Value.int 5)])] ) key).getD
               .null) = true ∧
             inEmptyTuple ((dGet (buildParams ⟨[], ""⟩ img) key).getD .null) =
               false
          then some ((dGet (buildParams ⟨[], ""⟩ img) key).getD .null)
          else dGet (paramsOrEmpty [("src", Value.str "a.jpg"),
            ("params", Value.dict [("weight", Value.int 5)])] ) key) :=
  merged_entry_preserves_fields c1Codec ⟨[], ""⟩ c1Imgs "---\nX\n---\n" c1Res
    (by decide) 0 "a.jpg" (by decide)
    [("src", Value.str "a.jpg"), ("params", Value.dict [("weight", Value.int 5)])]
    (by decide) (Or.inr ⟨[("weight", Value.int 5)], by decide⟩)

/-- Witness for C5 at the concrete scenario. -/
theorem merged_srcs_match_disk_witness :
    (∀ s, s ∈ c1Res.sortedSrcs ↔ s ∈ c1Imgs.map (fun i => i.name)) ∧
    c1Res.sortedSrcs.Pairwise (fun a b => strLt a b = true) ∧
    c1Res.merged.length = c1Res.sortedSrcs.length ∧
    (∀ (i : Nat) (name : String), c1Res.sortedSrcs[i]? = some name →
      ∃ e, c1Res.merged[i]? = some e ∧ pyGetItem e "src" = some (.str name)) :=
  merged_srcs_match_disk c1Codec ⟨[], ""⟩ c1Imgs "---\nX\n---\n" c1Res
    (by decide)

/-- C6 — every top-level key of the parsed header other than
`resources` appears in the final header with its value unmodified; the
run assigns only the `resources` key. -/
theorem header_keys_pass_through (codec : YamlCodec) (cfg : Config)
    (imgs : List ImageInfo) (text : String) (res : RunResult)
    (h : runCore codec cfg imgs text = some res)
    (kvs : List (String × Value)) (hk : res.frontParsed = .dict kvs) :
    ∃ kvsF, res.frontFinal = .dict kvsF ∧
      (∀ k, k ≠ "resources" → dGet kvsF k = dGet kvs k) ∧
      dGet kvsF "resources" = some (.list res.merged) := by
  obtain ⟨fm, er, hsp, hfp, hbody, hger, hex, hsorted, hmerge, hw, hcov,
    hset, hout⟩ := runCore_spec codec cfg imgs text res h
  rw [hk] at hset
  simp only [pySetItem, Option.some.injEq] at hset
  refine ⟨dSet kvs "resources" (.list res.merged), hset.symm, ?_, ?_⟩
  · intro k hkne
    exact dGet_dSet_ne kvs "resources" k _ hkne
  · exact dGet_dSet_self kvs "resources" _

/-- Witness for C6 at the concrete scenario. -/
theorem header_keys_pass_through_witness :
    ∃ kvsF, c1Res.frontFinal = .dict kvsF ∧
      (∀ k, k ≠ "resources" →
        dGet kvsF k = dGet [("resources", Value.list [c1Entry])] k) ∧
      dGet kvsF "resources" = some (.list c1Res.merged) :=
  header_keys_pass_through c1Codec ⟨[], ""⟩ c1Imgs "---\nX\n---\n" c1Res
    (by decide) [("resources", Value.list [c1Entry])] (by decide)

/-! ## Weight claims (C3, C10) -/

theorem needyCount_mono (rs : List Value) (i j : Nat) (hij : i ≤ j) :
    needyCount rs i ≤ needyCount rs j := by
  unfold needyCount
  have htake : rs.take i = (rs.take j).take i := by
    rw [List.take_take]
    rw [min_eq_left hij]
  rw [htake]
  exact List.Sublist.countP_le _ (List.take_prefix i (rs.take j)).sublist

theorem needyCount_succ (rs : List Value) (i : Nat) (r : Value)
    (hri : rs[i]? = some r) (hneedy : needsWeight r = some true) :
    needyCount rs (i + 1) = needyCount rs i + 1 := by
  unfold needyCount
  rw [List.take_succ, hri]
  simp [List.countP_append, List.countP_cons, hneedy]

theorem needyCount_lt (rs : List Value) (i j : Nat) (hij : i < j)
    (r : Value) (hri : rs[i]? = some r)
    (hneedy : needsWeight r = some true) :
    needyCount rs i < needyCount rs j := by
  have h1 := needyCount_succ rs i r hri hneedy
  have h2 := needyCount_mono rs (i + 1) j hij
  omega

theorem pySetdefault_present (kvs : List (String × Value)) (k : String)
    (d : Value) (h : dHas kvs k = true) :
    pySetdefault (.dict kvs) k d = some (.dict kvs) := by
  simp [pySetdefault, h]

/-- C3 — every entry lacking a usable weight (missing, `None` or the
empty string) is assigned, in ascending lexicographic `src` order (the
processing order of the merged list), consecutive integers starting at
`maxWeight + 1`, where `maxWeight` is the maximum over the previously
stored entries' weights that parse as integers (0 when none); each
assigned weight exceeds every pre-existing parsed weight, distinct new
entries get strictly increasing weights in list order, and entries
already carrying a usable weight pass through unchanged. -/
theorem new_weights_consecutive (codec : YamlCodec) (cfg : Config)
    (imgs : List ImageInfo) (text : String) (res : RunResult)
    (h : runCore codec cfg imgs text = some res) :
    ∃ ws rs1, collectWeights res.existingBySrc = some ws ∧
      res.merged0.mapM (fun r => pySetdefault r "params" (.dict [])) =
        some rs1 ∧
      res.sortedSrcs.Pairwise (fun a b => strLt a b = true) ∧
      res.mergedW.length = rs1.length ∧
      (∀ (i : Nat) (r : Value), rs1[i]? = some r →
        (needsWeight r = some true →
          ∃ e, res.mergedW[i]? = some e ∧
            weightOf e =
              some (.int (pyMaxD ws + 1 + (needyCount rs1 i : Int))) ∧
            ∀ w ∈ ws, w < pyMaxD ws + 1 + (needyCount rs1 i : Int)) ∧
        (needsWeight r = some false → res.mergedW[i]? = some r)) ∧
      (∀ (i j : Nat) (ri : Value), i < j → rs1[i]? = some ri →
        needsWeight ri = some true →
        pyMaxD ws + 1 + (needyCount rs1 i : Int) <
          pyMaxD ws + 1 + (needyCount rs1 j : Int)) := by
  obtain ⟨fm, er, hsp, hfp, hbody, hger, hex, hsorted, hmerge, hw, hcov,
    hset, hout⟩ := runCore_spec codec cfg imgs text res h
  obtain ⟨ws, rs1, hws, hmapM, hassign⟩ := update_weights_spec _ _ _ hw
  obtain ⟨hlenA, hspecA⟩ := assignWeights_spec _ _ _ hassign
  have hnodup2 : ((desired_by_src cfg imgs).map (fun p => p.1)).Nodup :=
    desired_keys_nodup cfg imgs [] (by simp)
  refine ⟨ws, rs1, hws, hmapM, ?_, hlenA, ?_, ?_⟩
  · rw [hsorted]
    exact pairwise_lt_pySorted _ hnodup2
  · intro i r hir
    obtain ⟨htrue, hfalse⟩ := hspecA i r hir
    refine ⟨?_, hfalse⟩
    intro hneedy
    obtain ⟨r2, hr2, hr2out⟩ := htrue hneedy
    refine ⟨r2, hr2out, weightOf_setItem2 _ _ _ hr2, ?_⟩
    intro w hwmem
    have h1 : w ≤ pyMaxD ws := pyMaxD_ge ws w hwmem
    have h2 : (0 : Int) ≤ (needyCount rs1 i : Int) := Int.ofNat_nonneg _
    omega
  · intro i j ri hij hri hneedy
    have := needyCount_lt rs1 i j hij ri hri hneedy
    omega

/-- Witness for C3 at the concrete scenario (the one new-weight entry
gets 5 + 1 = 6 ... here the single kept entry keeps weight 5 and needs
nothing, so the assignment clauses hold vacuously at index 0). -/
theorem new_weights_consecutive_witness :
    ∃ ws rs1, collectWeights c1Res.existingBySrc = some ws ∧
      c1Res.merged0.mapM (fun r => pySetdefault r "params" (.dict [])) =
        some rs1 ∧
      c1Res.sortedSrcs.Pairwise (fun a b => strLt a b = true) ∧
      c1Res.mergedW.length = rs1.length ∧
      (∀ (i : Nat) (r : Value), rs1[i]? = some r →
        (needsWeight r = some true →
          ∃ e, c1Res.mergedW[i]? = some e ∧
            weightOf e =
              some (.int (pyMaxD ws + 1 + (needyCount rs1 i : Int))) ∧
            ∀ w ∈ ws, w < pyMaxD ws + 1 + (needyCount rs1 i : Int)) ∧
        (needsWeight r = some false → c1Res.mergedW[i]? = some r)) ∧
      (∀ (i j : Nat) (ri : Value), i < j → rs1[i]? = some ri →
        needsWeight ri = some true →
        pyMaxD ws + 1 + (needyCount rs1 i : Int) <
          pyMaxD ws + 1 + (needyCount rs1 j : Int)) :=
  new_weights_consecutive c1Codec ⟨[], ""⟩ c1Imgs "---\nX\n---\n" c1Res
    (by decide)

/-- C10 — the maximum used as base for new weights is computed over all
previously stored entries, including ones whose file is gone from the
directory: any parsed integer weight `w` of any stored entry is
strictly below the weight assigned to any new entry (one whose `src` is
not in the manifest index). -/
theorem max_weight_counts_dropped_entries (codec : YamlCodec) (cfg : Config)
    (imgs : List ImageInfo) (text : String) (res : RunResult)
    (h : runCore codec cfg imgs text = some res)
    (p : Value × Value) (hp : p ∈ res.existingBySrc)
    (pkvs : List (String × Value)) (w : Int)
    (hparams : pyGetD p.2 "params" (.dict []) = some (.dict pkvs))
    (hwint : pyIntOf ((dGet pkvs "weight").getD .null) = some w)
    (i : Nat) (name : String) (hi : res.sortedSrcs[i]? = some name)
    (hnew : vGet res.existingBySrc (.str name) = none) :
    ∃ e wv, res.mergedW[i]? = some e ∧ weightOf e = some (.int wv) ∧
      w < wv := by
  obtain ⟨fm, er, hsp, hfp, hbody, hger, hex, hsorted, hmerge, hw, hcov,
    hset, hout⟩ := runCore_spec codec cfg imgs text res h
  obtain ⟨ws, rs1, hws, hmapM, hassign⟩ := update_weights_spec _ _ _ hw
  obtain ⟨hlen0, hspec0⟩ := mergeList_spec _ _ _ _ hmerge
  obtain ⟨hkept, hnewc⟩ := hspec0 i name hi
  have he0 := hnewc hnew
  have hmem : name ∈ (desired_by_src cfg imgs).map (fun p => p.1) := by
    rw [desired_keys_iff cfg imgs]
    have h1 : name ∈ res.sortedSrcs := List.getElem?_mem hi
    rw [hsorted, (perm_pySorted _).mem_iff, desired_keys_iff cfg imgs] at h1
    exact h1
  obtain ⟨dv, hdv⟩ := mem_map_fst_dGet _ name hmem
  obtain ⟨img, himg, hname, hbuild⟩ := desired_mem cfg imgs name dv hdv
  have he0b : res.merged0[i]? = some (build_resource_for_image cfg img) := by
    rw [he0, hdv]
    simp only [Option.getD_some]
    rw [hbuild]
  obtain ⟨hlen1, hspec1⟩ := mapM_setdefault_spec _ _ hmapM
  obtain ⟨r1, hr1, hr1sd⟩ := hspec1 i _ he0b
  have hr1b : r1 = build_resource_for_image cfg img := by
    rw [build_kvs] at hr1sd
    rw [pySetdefault_present _ _ _ (by simp [dHas_cons])] at hr1sd
    rw [← build_kvs] at hr1sd
    exact (Option.some.inj hr1sd).symm
  obtain ⟨hlenA, hspecA⟩ := assignWeights_spec _ _ _ hassign
  obtain ⟨htrue, _⟩ := hspecA i r1 hr1
  obtain ⟨e, he, heout⟩ := htrue (by rw [hr1b] ; exact build_needsWeight cfg img)
  refine ⟨e, pyMaxD ws + 1 + (needyCount rs1 i : Int), heout,
    weightOf_setItem2 _ _ _ he, ?_⟩
  have hwin : w ∈ ws := by
    obtain ⟨_, hmemw⟩ := collectWeightsAux_mem res.existingBySrc [] ws hws
    exact hmemw p hp pkvs w hparams hwint
  have h1 : w ≤ pyMaxD ws := pyMaxD_ge ws w hwin
  have h2 : (0 : Int) ≤ (needyCount rs1 i : Int) := Int.ofNat_nonneg _
  omega

/-- Witness for C10: the dropped entry `b.jpg` keeps weight 5, and the
new entry for `a.jpg` receives weight 6 > 5. -/
theorem max_weight_counts_dropped_entries_witness :
    ∃ e wv, c10Res.mergedW[0]? = some e ∧ weightOf e = some (.int wv) ∧
      (5 : Int) < wv :=
  max_weight_counts_dropped_entries c10Codec ⟨[], ""⟩ c10Imgs
    "---\nX\n---\n" c10Res (by decide) (.str "b.jpg", c10Entry)
    (by decide) [("weight", .int 5)] 5 (by decide) (by decide)
    0 "a.jpg" (by decide) (by decide)

/-- Witness for C4 on a concrete singleton list without a cover flag. -/
theorem ensure_cover_single_witness :
    ensure_cover [Value.dict [("src", Value.str "a.jpg")]] =
        some [Value.dict [("src", Value.str "a.jpg"),
                          ("params", Value.dict [("cover", Value.bool true)])]] ∧
      ([Value.dict [("src", Value.str "a.jpg"),
                    ("params", Value.dict [("cover", Value.bool true)])]].countP
          (fun r => coverFlag r = some true) ≤ 1) := by
  have h := ensure_cover_single [Value.dict [("src", Value.str "a.jpg")]]
    [Value.dict [("src", Value.str "a.jpg"),
                 ("params", Value.dict [("cover", Value.bool true)])]]
    (by decide) (by decide)
  exact ⟨by decide, h.1⟩

/-! ## Stability of a completed run (towards C2) -/

/-- Assignment at one key leaves the bindings of every other key
untouched. -/
theorem dSet_binding_ne (kvs : List (String × Value)) (k : String)
    (x : Value) (k2 : String) (v : Value) (hk : k2 ≠ k)
    (h : ∀ p ∈ kvs, p.1 = k2 → p.2 = v) :
    ∀ p ∈ dSet kvs k x, p.1 = k2 → p.2 = v := by
  intro p hp hpk
  unfold dSet at hp
  by_cases hhas : dHas kvs k = true
  · rw [if_pos hhas] at hp
    rw [List.mem_map] at hp
    obtain ⟨q, hq, hqe⟩ := hp
    by_cases hq1 : q.1 = k
    · rw [if_pos hq1] at hqe
      have hq2 : q.1 = k2 := by rw [← hqe] at hpk ; exact hpk
      exact absurd (hq2.symm.trans hq1) hk
    · rw [if_neg hq1] at hqe
      exact h p (hqe ▸ hq) hpk
  · rw [if_neg hhas] at hp
    rcases List.mem_append.mp hp with hp | hp
    · exact h p hp hpk
    · rw [List.mem_singleton] at hp
      have hq2 : k = k2 := by rw [hp] at hpk ; exact hpk
      exact absurd hq2.symm hk


theorem dHas_dSet_ne (kvs : List (String × Value)) (k : String) (x : Value)
    (k2 : String) (hk : k2 ≠ k) : dHas (dSet kvs k x) k2 = dHas kvs k2 := by
  cases hh : dHas kvs k2 with
  | true =>
    rw [dHas_iff_dGet] at hh ⊢
    rw [dGet_dSet_ne _ _ _ _ hk]
    exact hh
  | false =>
    cases hh2 : dHas (dSet kvs k x) k2 with
    | false => rfl
    | true =>
      exfalso
      rw [dHas_iff_dGet, dGet_dSet_ne _ _ _ _ hk, ← dHas_iff_dGet, hh] at hh2
      exact absurd hh2 (by decide)

/-- Success and result shape of a nested `params`-level assignment. -/
theorem pySetItem2_inv (r r2 : Value) (k2 : String) (x : Value)
    (h : pySetItem2 r "params" k2 x = some r2) :
    ∃ kvs pkvs, r = .dict kvs ∧ dGet kvs "params" = some (.dict pkvs) ∧
      r2 = .dict (dSet kvs "params" (.dict (dSet pkvs k2 x))) := by
  cases r with
  | dict kvs =>
    unfold pySetItem2 at h
    simp only [Option.bind_eq_bind, pyGetItem] at h
    cases hin : dGet kvs "params" with
    | none => rw [hin] at h ; exact absurd h (by simp)
    | some pv =>
      rw [hin] at h
      simp only [Option.some_bind] at h
      cases pv with
      | dict pkvs =>
        refine ⟨kvs, pkvs, rfl, hin, ?_⟩
        simp only [pySetItem, Option.some_bind, Option.some.injEq] at h
        exact h.symm
      | null => exact absurd h (by simp [pySetItem])
      | bool b => exact absurd h (by simp [pySetItem])
      | int n => exact absurd h (by simp [pySetItem])
      | str s => exact absurd h (by simp [pySetItem])
      | list xs => exact absurd h (by simp [pySetItem])
  | null => exact absurd h (by simp [pySetItem2, pyGetItem])
  | bool b => exact absurd h (by simp [pySetItem2, pyGetItem])
  | int n => exact absurd h (by simp [pySetItem2, pyGetItem])
  | str s => exact absurd h (by simp [pySetItem2, pyGetItem])
  | list xs => exact absurd h (by simp [pySetItem2, pyGetItem])

/-- An entry whose `params` mapping holds a present, non-missing weight
does not need one. -/
theorem needsWeight_of_weight (kvs pkvs : List (String × Value)) (w : Value)
    (hp : dGet kvs "params" = some (.dict pkvs))
    (hw : dGet pkvs "weight" = some w) (hwm : weightMissing w = false) :
    needsWeight (.dict kvs) = some false := by
  have hhas : dHas pkvs "weight" = true :=
    (dHas_iff_dGet pkvs "weight").mpr (by simp [hw])
  unfold needsWeight
  simp only [Option.bind_eq_bind]
  rw [show pyGetItem (Value.dict kvs) "params" = some (Value.dict pkvs)
        from by simp [pyGetItem, hp],
      Option.some_bind,
      show pyIn "weight" (Value.dict pkvs) = some (dHas pkvs "weight")
        from rfl,
      Option.some_bind, hhas, if_neg (show ¬ ((!true) = true) from by decide),
      show pyGetItem (Value.dict pkvs) "weight" = some w
        from by simp [pyGetItem, hw],
      Option.some_bind, hwm]
  rfl

/-- Inversion: an entry that does not need a weight is a mapping whose
`params` mapping carries a present, non-missing weight. -/
theorem needsWeight_false_inv (r : Value) (h : needsWeight r = some false) :
    ∃ kvs pkvs w, r = .dict kvs ∧ dGet kvs "params" = some (.dict pkvs) ∧
      dGet pkvs "weight" = some w ∧ weightMissing w = false := by
  unfold needsWeight at h
  simp only [Option.bind_eq_bind] at h
  cases hp : pyGetItem r "params" with
  | none => rw [hp] at h ; exact absurd h (by simp)
  | some params =>
    rw [hp] at h
    simp only [Option.some_bind] at h
    cases hin : pyIn "weight" params with
    | none => rw [hin] at h ; exact absurd h (by simp)
    | some isIn =>
      rw [hin] at h
      simp only [Option.some_bind] at h
      cases isIn with
      | false => rw [if_pos (by decide)] at h ; exact absurd h (by simp)
      | true =>
        rw [if_neg (by decide)] at h
        cases hw : pyGetItem params "weight" with
        | none => rw [hw] at h ; exact absurd h (by simp)
        | some w =>
          rw [hw] at h
          simp only [Option.some_bind, Option.pure_def,
            Option.some.injEq] at h
          cases r with
          | dict kvs =>
            cases params with
            | dict pkvs =>
              exact ⟨kvs, pkvs, w, rfl, hp, hw, by simpa using h.symm⟩
            | null => exact absurd hw (by simp [pyGetItem])
            | bool b => exact absurd hw (by simp [pyGetItem])
            | int n => exact absurd hw (by simp [pyGetItem])
            | str s => exact absurd hw (by simp [pyGetItem])
            | list xs => exact absurd hw (by simp [pyGetItem])
          | null => exact absurd hp (by simp [pyGetItem])
          | bool b => exact absurd hp (by simp [pyGetItem])
          | int n => exact absurd hp (by simp [pyGetItem])
          | str s => exact absurd hp (by simp [pyGetItem])
          | list xs => exact absurd hp (by simp [pyGetItem])

/-- A fill step in a state it no longer touches returns its input
exactly. -/
theorem mergeFillKey_noop (dkvs dpkvs kvs pkvs : List (String × Value))
    (key : String)
    (hp : dGet kvs "params" = some (.dict pkvs))
    (hdp : dGet dkvs "params" = some (.dict dpkvs))
    (hfn : fillNoop dpkvs pkvs key) :
    mergeFillKey (.dict dkvs) (.dict kvs) key = some (.dict kvs) := by
  unfold mergeFillKey
  simp only [Option.bind_eq_bind]
  rw [show pyGetItem (Value.dict kvs) "params" = some (Value.dict pkvs)
        from by simp [pyGetItem, hp], Option.some_bind,
      show pyIn key (Value.dict pkvs) = some (dHas pkvs key) from rfl,
      Option.some_bind]
  rcases hfn with ⟨v, hv, hvne⟩ | ⟨hcur, hdes⟩
  · have hhas : dHas pkvs key = true :=
      (dHas_iff_dGet pkvs key).mpr (by simp [hv])
    rw [hhas, if_neg (show ¬ ((!true) = true) from by decide),
        show pyGet (Value.dict pkvs) key =
          some ((dGet pkvs key).getD .null) from rfl,
        Option.some_bind, hv, Option.getD_some, hvne]
    simp only [Option.pure_def, Option.some_bind]
    rw [if_neg (show ¬ (false = true) from by decide)]
  · have hstep : ∀ c : Option Bool, c = some true →
        (c.bind fun cond =>
          if cond = true then
            (pyGetItem (Value.dict dkvs) "params").bind fun dparams =>
              (pyGet dparams key).bind fun val =>
                if (!(inEmptyTuple val)) = true then
                  pySetItem2 (Value.dict kvs) "params" key val
                else pure (Value.dict kvs)
          else pure (Value.dict kvs)) = some (Value.dict kvs) := by
      intro c hc
      rw [hc, Option.some_bind, if_pos rfl,
          show pyGetItem (Value.dict dkvs) "params" =
            some (Value.dict dpkvs) from by simp [pyGetItem, hdp],
          Option.some_bind,
          show pyGet (Value.dict dpkvs) key =
            some ((dGet dpkvs key).getD .null) from rfl,
          Option.some_bind, hdes]
      rw [if_neg (show ¬ ((!true) = true) from by decide)]
      rfl
    cases hhas : dHas pkvs key with
    | false =>
      rw [if_pos (show (!false) = true from by decide)]
      exact hstep _ rfl
    | true =>
      rw [if_neg (show ¬ ((!true) = true) from by decide),
          show pyGet (Value.dict pkvs) key =
            some ((dGet pkvs key).getD .null) from rfl,
          Option.some_bind, hcur]
      exact hstep _ rfl

/-- A successful fill step leaves the entry unchanged or assigns its
`params` key. -/
theorem mergeFillKey_shape (d : Value) (kvs : List (String × Value))
    (key : String) (e : Value)
    (h : mergeFillKey d (.dict kvs) key = some e) :
    e = .dict kvs ∨ ∃ X, e = .dict (dSet kvs "params" X) := by
  unfold mergeFillKey at h
  simp only [Option.bind_eq_bind] at h
  cases hp : pyGetItem (Value.dict kvs) "params" with
  | none => rw [hp] at h ; exact absurd h (by simp)
  | some params =>
    rw [hp] at h
    simp only [Option.some_bind] at h
    cases hin : pyIn key params with
    | none => rw [hin] at h ; exact absurd h (by simp)
    | some isIn =>
      rw [hin] at h
      simp only [Option.some_bind] at h
      have hrest : ∀ c : Bool,
          ((if c = true then
              (pyGetItem d "params").bind fun dparams =>
                (pyGet dparams key).bind fun val =>
                  if (!(inEmptyTuple val)) = true then
                    pySetItem2 (Value.dict kvs) "params" key val
                  else pure (Value.dict kvs)
            else pure (Value.dict kvs)) = some e) →
          e = .dict kvs ∨ ∃ X, e = .dict (dSet kvs "params" X) := by
        intro c hc
        cases c with
        | false =>
          rw [if_neg (show ¬ (false = true) from by decide)] at hc
          exact Or.inl (by simpa using hc.symm)
        | true =>
          rw [if_pos rfl] at hc
          cases hdp : pyGetItem d "params" with
          | none => rw [hdp] at hc ; exact absurd hc (by simp)
          | some dparams =>
            rw [hdp] at hc
            simp only [Option.some_bind] at hc
            cases hval : pyGet dparams key with
            | none => rw [hval] at hc ; exact absurd hc (by simp)
            | some val =>
              rw [hval] at hc
              simp only [Option.some_bind] at hc
              by_cases hemp : (!(inEmptyTuple val)) = true
              · rw [if_pos hemp] at hc
                obtain ⟨kvs2, pkvs2, hk2, _, he⟩ :=
                  pySetItem2_inv _ _ _ _ hc
                have hkk : kvs2 = kvs := by
                  injection hk2 with hk2 ; exact hk2.symm
                subst hkk
                exact Or.inr ⟨_, he⟩
              · rw [if_neg hemp] at hc
                exact Or.inl (by simpa using hc.symm)
      cases isIn with
      | false =>
        rw [if_pos (show (!false) = true from by decide)] at h
        simp only [Option.pure_def, Option.some_bind] at h
        exact hrest true h
      | true =>
        rw [if_neg (show ¬ ((!true) = true) from by decide)] at h
        cases hg : pyGet params key with
        | none => rw [hg] at h ; exact absurd h (by simp)
        | some g =>
          rw [hg] at h
          simp only [Option.some_bind, Option.pure_def,
            Option.some_bind] at h
          exact hrest (inEmptyTuple g) h

/-- A fill step on an entry whose `params` value is not a mapping
either raises or returns the entry unchanged. -/
theorem mergeFillKey_nondict (d : Value) (kvs : List (String × Value))
    (v : Value) (key : String) (e : Value)
    (hp : dGet kvs "params" = some v)
    (hv : ∀ pk : List (String × Value), v ≠ .dict pk)
    (h : mergeFillKey d (.dict kvs) key = some e) : e = .dict kvs := by
  unfold mergeFillKey at h
  simp only [Option.bind_eq_bind] at h
  rw [show pyGetItem (Value.dict kvs) "params" = some v
        from by simp [pyGetItem, hp], Option.some_bind] at h
  cases hin : pyIn key v with
  | none => rw [hin] at h ; exact absurd h (by simp)
  | some isIn =>
    rw [hin] at h
    simp only [Option.some_bind] at h
    have hrest : ∀ c : Bool,
        ((if c = true then
            (pyGetItem d "params").bind fun dparams =>
              (pyGet dparams key).bind fun val =>
                if (!(inEmptyTuple val)) = true then
                  pySetItem2 (Value.dict kvs) "params" key val
                else pure (Value.dict kvs)
          else pure (Value.dict kvs)) = some e) → e = .dict kvs := by
      intro c hc
      cases c with
      | false =>
        rw [if_neg (show ¬ (false = true) from by decide)] at hc
        exact (by simpa using hc.symm)
      | true =>
        rw [if_pos rfl] at hc
        cases hdp : pyGetItem d "params" with
        | none => rw [hdp] at hc ; exact absurd hc (by simp)
        | some dparams =>
          rw [hdp] at hc
          simp only [Option.some_bind] at hc
          cases hval : pyGet dparams key with
          | none => rw [hval] at hc ; exact absurd hc (by simp)
          | some val =>
            rw [hval] at hc
            simp only [Option.some_bind] at hc
            by_cases hemp : (!(inEmptyTuple val)) = true
            · rw [if_pos hemp] at hc
              obtain ⟨kvs2, pkvs2, hk2, hp2, _⟩ := pySetItem2_inv _ _ _ _ hc
              have hkk : kvs2 = kvs := by injection hk2 with hk2 ; exact hk2.symm
              subst hkk
              rw [hp] at hp2
              have : v = Value.dict pkvs2 := by injection hp2
              exact absurd this (hv pkvs2)
            · rw [if_neg hemp] at hc
              exact (by simpa using hc.symm)
    cases isIn with
    | false =>
      rw [if_pos (show (!false) = true from by decide)] at h
      simp only [Option.pure_def, Option.some_bind] at h
      exact hrest true h
    | true =>
      rw [if_neg (show ¬ ((!true) = true) from by decide)] at h
      have hg : pyGet v key = none := by
        cases v with
        | dict pk => exact absurd rfl (hv pk)
        | null => rfl
        | bool b => rfl
        | int n => rfl
        | str s => rfl
        | list xs => rfl
      rw [hg] at h
      exact absurd h (by simp)

/-- Any property preserved by assignments to the `params` key survives
the fill loop. -/
theorem fillFold_pred (d : Value) (P : List (String × Value) → Prop)
    (hstep : ∀ kvs X, P kvs → P (dSet kvs "params" X)) :
    ∀ (keys : List String) (kvs : List (String × Value)) (e : Value),
      keys.foldlM (fun r key => mergeFillKey d r key) (Value.dict kvs) =
        some e →
      P kvs → ∃ kvsF, e = .dict kvsF ∧ P kvsF
  | [], kvs, e, h, hP => ⟨kvs, by simpa [List.foldlM] using h.symm, hP⟩
  | key :: keys, kvs, e, h, hP => by
    rw [List.foldlM_cons] at h
    simp only [Option.bind_eq_bind] at h
    cases h1 : mergeFillKey d (.dict kvs) key with
    | none => rw [h1] at h ; exact absurd h (by simp)
    | some e1 =>
      rw [h1] at h
      simp only [Option.some_bind] at h
      rcases mergeFillKey_shape d kvs key e1 h1 with he1 | ⟨X, he1⟩
      · subst he1
        exact fillFold_pred d P hstep keys kvs e h hP
      · subst he1
        exact fillFold_pred d P hstep keys _ e h (hstep kvs X hP)

/-- The fill loop is the identity on an entry whose `params` value is
not a mapping. -/
theorem fillFold_nondict (d : Value) (v : Value)
    (hv : ∀ pk : List (String × Value), v ≠ .dict pk) :
    ∀ (keys : List String) (kvs : List (String × Value)) (e : Value),
      dGet kvs "params" = some v →
      keys.foldlM (fun r key => mergeFillKey d r key) (Value.dict kvs) =
        some e →
      e = .dict kvs
  | [], kvs, e, _, h => by simpa [List.foldlM] using h.symm
  | key :: keys, kvs, e, hp, h => by
    rw [List.foldlM_cons] at h
    simp only [Option.bind_eq_bind] at h
    cases h1 : mergeFillKey d (.dict kvs) key with
    | none => rw [h1] at h ; exact absurd h (by simp)
    | some e1 =>
      rw [h1] at h
      simp only [Option.some_bind] at h
      have he1 : e1 = .dict kvs := mergeFillKey_nondict d kvs v key e1 hp hv h1
      subst he1
      exact fillFold_nondict d v hv keys kvs e hp h

/-- Structure of any successfully merged kept entry: a mapping with a
`params` key, whose every `title` binding is the file stem, and whose
`src` field is carried over from the input entry. -/
theorem mergeKept_shape (src : String) (r0 d e : Value)
    (h : mergeKept src r0 d = some e) :
    ∃ kvs0 kvsF, r0 = .dict kvs0 ∧ e = .dict kvsF ∧
      dHas kvsF "params" = true ∧ dHas kvsF "title" = true ∧
      (∀ p ∈ kvsF, p.1 = "title" → p.2 = .str (pathStem src)) ∧
      dGet kvsF "src" = dGet kvs0 "src" := by
  cases r0 with
  | dict kvs0 =>
    unfold mergeKept at h
    simp only [Option.bind_eq_bind, pySetItem, Option.some_bind,
      pySetdefault, Option.some_bind] at h
    set kvs1 := dSet kvs0 "title" (Value.str (pathStem src)) with hkvs1
    have hbind1 : ∀ p ∈ kvs1, p.1 = "title" → p.2 = .str (pathStem src) :=
      dSet_all_k kvs0 "title" _
    have hhasT1 : dHas kvs1 "title" = true := dHas_dSet _ _ _
    have hsrc1 : dGet kvs1 "src" = dGet kvs0 "src" :=
      dGet_dSet_ne _ _ _ _ (by decide)
    have hstart : dHas (if dHas kvs1 "params" = true then kvs1
          else kvs1 ++ [("params", Value.dict [])]) "params" = true ∧
        dHas (if dHas kvs1 "params" = true then kvs1
          else kvs1 ++ [("params", Value.dict [])]) "title" = true ∧
        (∀ p ∈ (if dHas kvs1 "params" = true then kvs1
          else kvs1 ++ [("params", Value.dict [])]),
          p.1 = "title" → p.2 = Value.str (pathStem src)) ∧
        dGet (if dHas kvs1 "params" = true then kvs1
          else kvs1 ++ [("params", Value.dict [])]) "src" =
          dGet kvs0 "src" := by
      by_cases hhas : dHas kvs1 "params" = true
      · rw [if_pos hhas]
        exact ⟨hhas, hhasT1, hbind1, hsrc1⟩
      · rw [if_neg hhas]
        refine ⟨?_, ?_, ?_, ?_⟩
        · unfold dHas
          rw [List.any_append]
          simp
        · unfold dHas
          rw [List.any_append]
          unfold dHas at hhasT1
          rw [hhasT1]
          rfl
        · intro p hp hpk
          rcases List.mem_append.mp hp with hp | hp
          · exact hbind1 p hp hpk
          · rw [List.mem_singleton] at hp
            rw [hp] at hpk
            exact absurd hpk (by decide)
        · rw [dGet_append_single_ne "params" "src" _ (by decide)]
          exact hsrc1
    obtain ⟨kvsF, heF, hF1, hF2, hF3, hF4⟩ := fillFold_pred d
      (fun kvs => dHas kvs "params" = true ∧ dHas kvs "title" = true ∧
        (∀ p ∈ kvs, p.1 = "title" → p.2 = .str (pathStem src)) ∧
        dGet kvs "src" = dGet kvs0 "src")
      (by
        intro kvs X hPk
        obtain ⟨h1, h2, h3, h4⟩ := hPk
        refine ⟨dHas_dSet _ _ _, ?_, ?_, ?_⟩
        · rw [dHas_dSet_ne _ _ _ _ (by decide)] ; exact h2
        · exact dSet_binding_ne _ _ _ _ _ (by decide) h3
        · rw [dGet_dSet_ne _ _ _ _ (by decide)] ; exact h4)
      _ _ e h hstart
    exact ⟨kvs0, kvsF, rfl, heF, hF1, hF2, hF3, hF4⟩
  | null => exact absurd h (by simp [mergeKept, pySetItem])
  | bool b => exact absurd h (by simp [mergeKept, pySetItem])
  | int n => exact absurd h (by simp [mergeKept, pySetItem])
  | str s => exact absurd h (by simp [mergeKept, pySetItem])
  | list xs => exact absurd h (by simp [mergeKept, pySetItem])

/-- A kept entry whose `params` value is not a mapping keeps that value
through the merge (only the title is forced). -/
theorem mergeKept_nondict (src : String) (kvs0 : List (String × Value))
    (v d e : Value)
    (hp : dGet kvs0 "params" = some v)
    (hv : ∀ pk : List (String × Value), v ≠ .dict pk)
    (h : mergeKept src (.dict kvs0) d = some e) :
    ∃ kvsF, e = .dict kvsF ∧ dGet kvsF "params" = some v := by
  unfold mergeKept at h
  simp only [Option.bind_eq_bind, pySetItem, Option.some_bind,
    pySetdefault, Option.some_bind] at h
  have hp1 : dGet (dSet kvs0 "title" (Value.str (pathStem src))) "params" =
      some v := by
    rw [dGet_dSet_ne _ _ _ _ (by decide)] ; exact hp
  rw [if_pos ((dHas_iff_dGet _ "params").mpr (by simp [hp1]))] at h
  exact ⟨_, fillFold_nondict d v hv _ _ e hp1 h, hp1⟩

/-- Merging a kept entry that is already in its post-merge state is the
identity. -/
theorem mergeKept_noop (src : String) (kvs pkvs dkvs dpkvs :
    List (String × Value))
    (hdp : dGet dkvs "params" = some (.dict dpkvs))
    (hp : dGet kvs "params" = some (.dict pkvs))
    (hhasT : dHas kvs "title" = true)
    (hbind : ∀ p ∈ kvs, p.1 = "title" → p.2 = .str (pathStem src))
    (hd : fillNoop dpkvs pkvs "date")
    (hl : fillNoop dpkvs pkvs "location")
    (ht : fillNoop dpkvs pkvs "tags") :
    mergeKept src (.dict kvs) (.dict dkvs) = some (.dict kvs) := by
  unfold mergeKept
  simp only [Option.bind_eq_bind, pySetItem, Option.some_bind,
    pySetdefault, Option.some_bind]
  rw [dSet_eq_self kvs "title" _ hbind hhasT,
      if_pos ((dHas_iff_dGet kvs "params").mpr (by simp [hp]))]
  rw [List.foldlM_cons,
      mergeFillKey_noop dkvs dpkvs kvs pkvs "date" hp hdp hd]
  simp only [Option.bind_eq_bind, Option.some_bind]
  rw [List.foldlM_cons,
      mergeFillKey_noop dkvs dpkvs kvs pkvs "location" hp hdp hl]
  simp only [Option.bind_eq_bind, Option.some_bind]
  rw [List.foldlM_cons,
      mergeFillKey_noop dkvs dpkvs kvs pkvs "tags" hp hdp ht]
  simp only [Option.bind_eq_bind, Option.some_bind]
  rw [List.foldlM_nil]
  rfl

/-- The built `location` value is either absent or a nonempty string. -/
theorem buildParams_location_shape (cfg : Config) (img : ImageInfo) :
    dGet (buildParams cfg img) "location" = none ∨
    ∃ s, dGet (buildParams cfg img) "location" = some (.str s) ∧ s ≠ "" := by
  unfold buildParams
  by_cases hloc :
      (if img.metaLoc ≠ "" then img.metaLoc else cfg.default_location) ≠ ""
  · right
    refine ⟨(if img.metaLoc ≠ "" then img.metaLoc
      else cfg.default_location), ?_, hloc⟩
    apply dGet_if_head
    · rw [dGet_append_single_ne "tags" "location" _ (by decide),
        if_pos hloc]
      apply dGet_append_single_self
      simp [dGet_cons, dGet_nil]
    · rw [if_pos hloc]
      apply dGet_append_single_self
      simp [dGet_cons, dGet_nil]
  · left
    apply dGet_if_head
    · rw [dGet_append_single_ne "tags" "location" _ (by decide),
        if_neg hloc]
      simp [dGet_cons, dGet_nil]
    · rw [if_neg hloc]
      simp [dGet_cons, dGet_nil]

/-- The built `tags` value is either absent or a nonempty list. -/
theorem buildParams_tags_shape (cfg : Config) (img : ImageInfo) :
    dGet (buildParams cfg img) "tags" = none ∨
    ∃ xs, dGet (buildParams cfg img) "tags" = some (.list xs) ∧ xs ≠ [] := by
  unfold buildParams
  have hbase : dGet (if (if img.metaLoc ≠ "" then img.metaLoc
        else cfg.default_location) ≠ "" then
        [("date", Value.str img.metaDate)] ++
          [("location", Value.str (if img.metaLoc ≠ "" then img.metaLoc
            else cfg.default_location))]
      else [("date", Value.str img.metaDate)]) "tags" = none := by
    apply dGet_if_head
    · rw [dGet_append_single_ne "location" "tags" _ (by decide)]
      simp [dGet_cons, dGet_nil]
    · simp [dGet_cons, dGet_nil]
  by_cases htag : cfg.common_tags ≠ []
  · right
    refine ⟨cfg.common_tags.map Value.str, ?_, by simpa using htag⟩
    rw [if_pos htag]
    exact dGet_append_single_self _ _ _ hbase
  · left
    rw [if_neg htag]
    exact hbase

/-- A freshly built entry is already a fixpoint of its own fill loop. -/
theorem build_fillNoop (cfg : Config) (img : ImageInfo) :
    fillNoop (buildParams cfg img) (buildParams cfg img) "date" ∧
    fillNoop (buildParams cfg img) (buildParams cfg img) "location" ∧
    fillNoop (buildParams cfg img) (buildParams cfg img) "tags" := by
  refine ⟨?_, ?_, ?_⟩
  · by_cases hdt : img.metaDate = ""
    · right
      rw [buildParams_date]
      simp [inEmptyTuple, hdt]
    · left
      exact ⟨.str img.metaDate, buildParams_date cfg img,
        by simp [inEmptyTuple, hdt]⟩
  · rcases buildParams_location_shape cfg img with hn | ⟨s, hs, hsne⟩
    · right
      rw [hn]
      simp [inEmptyTuple]
    · left
      exact ⟨.str s, hs, by simp [inEmptyTuple, hsne]⟩
  · rcases buildParams_tags_shape cfg img with hn | ⟨xs, hs, hne⟩
    · right
      rw [hn]
      simp [inEmptyTuple]
    · left
      exact ⟨.list xs, hs, by simp [inEmptyTuple, hne]⟩

/-- `preStable` survives a `params`-level assignment away from the fill
keys. -/
theorem preStable_setItem2 (name : String) (dpkvs : List (String × Value))
    (r r2 : Value) (k2 : String) (x : Value)
    (hk2d : k2 ≠ "date") (hk2l : k2 ≠ "location") (hk2t : k2 ≠ "tags")
    (h2 : pySetItem2 r "params" k2 x = some r2)
    (hs : preStable name dpkvs r) : preStable name dpkvs r2 := by
  obtain ⟨kvs, pkvs, hre, hp, hhasT, hbind, hsrc, hd, hl, ht⟩ := hs
  obtain ⟨kvs2, pkvs2, hre2, hp2, hr2⟩ := pySetItem2_inv _ _ _ _ h2
  subst hre
  have hkk : kvs2 = kvs := by injection hre2 with hh ; exact hh.symm
  rw [hkk] at hp2 hr2
  rw [hp] at hp2
  have hpp : pkvs2 = pkvs := by
    have hh := Option.some.inj hp2
    injection hh with hh
    exact hh.symm
  rw [hpp] at hr2
  subst hr2
  refine ⟨dSet kvs "params" (.dict (dSet pkvs k2 x)), dSet pkvs k2 x,
    rfl, dGet_dSet_self _ _ _, ?_, ?_, ?_, ?_, ?_, ?_⟩
  · rw [dHas_dSet_ne _ _ _ _ (by decide)] ; exact hhasT
  · exact dSet_binding_ne _ _ _ _ _ (by decide) hbind
  · rw [dGet_dSet_ne _ _ _ _ (by decide)] ; exact hsrc
  · unfold fillNoop at hd ⊢
    rw [dGet_dSet_ne _ _ _ _ (fun hh => hk2d hh.symm)]
    exact hd
  · unfold fillNoop at hl ⊢
    rw [dGet_dSet_ne _ _ _ _ (fun hh => hk2l hh.symm)]
    exact hl
  · unfold fillNoop at ht ⊢
    rw [dGet_dSet_ne _ _ _ _ (fun hh => hk2t hh.symm)]
    exact ht

/-- A `params`-level assignment away from `weight` cannot make an entry
need a weight. -/
theorem needsWeight_setItem2_ne (r r2 : Value) (k2 : String) (x : Value)
    (hk2 : k2 ≠ "weight") (h2 : pySetItem2 r "params" k2 x = some r2)
    (hw : needsWeight r = some false) : needsWeight r2 = some false := by
  obtain ⟨kvs, pkvs, w, hre, hp, hwg, hwm⟩ := needsWeight_false_inv r hw
  obtain ⟨kvs2, pkvs2, hre2, hp2, hr2⟩ := pySetItem2_inv _ _ _ _ h2
  subst hre
  have hkk : kvs2 = kvs := by injection hre2 with hh ; exact hh.symm
  rw [hkk] at hp2 hr2
  rw [hp] at hp2
  have hpp : pkvs2 = pkvs := by
    have hh := Option.some.inj hp2
    injection hh with hh
    exact hh.symm
  rw [hpp] at hr2
  subst hr2
  apply needsWeight_of_weight _ (dSet pkvs k2 x) w (dGet_dSet_self _ _ _)
    ?_ hwm
  rw [dGet_dSet_ne _ _ _ _ (fun hh => hk2 hh.symm)]
  exact hwg

/-- New weights leave the entry not needing a weight. -/
theorem needsWeight_after_set (r r2 : Value) (n : Int)
    (h2 : pySetItem2 r "params" "weight" (.int n) = some r2) :
    needsWeight r2 = some false := by
  obtain ⟨kvs, pkvs, hre, hp, hr2⟩ := pySetItem2_inv _ _ _ _ h2
  subst hr2
  exact needsWeight_of_weight _ (dSet pkvs "weight" (.int n)) (.int n)
    (dGet_dSet_self _ _ _) (dGet_dSet_self _ _ _) rfl

theorem anyCover_cons_true (r : Value) (rest : List Value)
    (h : coverFlag r = some true) : anyCover (r :: rest) = some true := by
  unfold anyCover
  simp only [Option.bind_eq_bind]
  rw [h, Option.some_bind, if_pos rfl]
  rfl

theorem ensure_cover_nil : ensure_cover [] = some [] := rfl

/-- The setdefault pass is the identity when every entry already has a
`params` key. -/
theorem mapM_setdefault_noop : ∀ (rs : List Value),
    (∀ r ∈ rs, ∃ kvs, r = .dict kvs ∧ dHas kvs "params" = true) →
    rs.mapM (fun r => pySetdefault r "params" (.dict [])) = some rs
  | [], _ => rfl
  | r :: rs, h => by
    obtain ⟨kvs, hre, hhas⟩ := h r (by simp)
    rw [List.mapM_cons, hre, pySetdefault_present kvs _ _ hhas,
        mapM_setdefault_noop rs (fun x hx => h x (by simp [hx]))]
    simp only [Option.bind_eq_bind, Option.some_bind, Option.pure_def]

/-- The weight pass is the identity when no entry needs a weight. -/
theorem assignWeights_noop : ∀ (rs : List Value) (nw : Int),
    (∀ r ∈ rs, needsWeight r = some false) →
    assignWeights rs nw = some rs
  | [], _, _ => rfl
  | r :: rs, nw, h => by
    unfold assignWeights
    simp only [Option.bind_eq_bind]
    rw [h r (by simp), Option.some_bind,
        if_neg (show ¬ (false = true) from by decide),
        assignWeights_noop rs nw (fun x hx => h x (by simp [hx]))]
    simp only [Option.some_bind, Option.pure_def]

/-- The weight scan succeeds on any index of well-formed entries. -/
theorem collectWeightsAux_some :
    ∀ (prev : List (Value × Value)) (acc : List Int),
      (∀ p ∈ prev, ∃ kvs pkvs, p.2 = .dict kvs ∧
        dGet kvs "params" = some (.dict pkvs)) →
      ∃ ws, collectWeightsAux prev acc = some ws
  | [], acc, _ => ⟨acc, rfl⟩
  | p :: ps, acc, h => by
    obtain ⟨kvs, pkvs, hp2, hpp⟩ := h p (by simp)
    have htail : ∀ q ∈ ps, ∃ kvs pkvs, q.2 = .dict kvs ∧
        dGet kvs "params" = some (.dict pkvs) :=
      fun q hq => h q (by simp [hq])
    have hget : pyGetD p.2 "params" (.dict []) = some (.dict pkvs) := by
      rw [hp2]
      simp [pyGetD, hpp]
    cases hw : pyIntOf ((dGet pkvs "weight").getD .null) with
    | some w =>
      obtain ⟨ws, hws⟩ := collectWeightsAux_some ps (acc ++ [w]) htail
      refine ⟨ws, ?_⟩
      unfold collectWeightsAux
      simp only [Option.bind_eq_bind]
      rw [hget, Option.some_bind]
      show (match pyIntOf ((dGet pkvs "weight").getD .null) with
        | some w => collectWeightsAux ps (acc ++ [w])
        | none => collectWeightsAux ps acc) = some ws
      rw [hw]
      exact hws
    | none =>
      obtain ⟨ws, hws⟩ := collectWeightsAux_some ps acc htail
      refine ⟨ws, ?_⟩
      unfold collectWeightsAux
      simp only [Option.bind_eq_bind]
      rw [hget, Option.some_bind]
      show (match pyIntOf ((dGet pkvs "weight").getD .null) with
        | some w => collectWeightsAux ps (acc ++ [w])
        | none => collectWeightsAux ps acc) = some ws
      rw [hw]
      exact hws

theorem coerceFront_dict (v : Value) :
    ∃ fkvs, coerceFront v = .dict fkvs := by
  cases v <;> exact ⟨_, rfl⟩

/-- On entries with distinct truthy string `src` fields, indexing by
`src` pairs each entry with its own name, in order. -/
theorem resources_to_dict_go :
    ∀ (rs : List Value) (ss : List String) (acc : List (Value × Value)),
      ss.Nodup →
      rs.length = ss.length →
      (∀ (i : Nat) (r : Value) (s : String), rs[i]? = some r →
        ss[i]? = some s →
        ∃ kvs, r = .dict kvs ∧ dGet kvs "src" = some (.str s) ∧ s ≠ "") →
      (∀ s ∈ ss, vHas acc (.str s) = false) →
      rs.foldl (fun acc r =>
        match r with
        | .dict kvs =>
          let src := (dGet kvs "src").getD .null
          if pyTruthy src then vSet acc src r else acc
        | _ => acc) acc = acc ++ (ss.map Value.str).zip rs
  | [], [], acc, _, _, _, _ => by simp
  | [], s :: ss, acc, _, hlen, _, _ => by simp at hlen
  | r :: rs, [], acc, _, hlen, _, _ => by simp at hlen
  | r :: rs, s :: ss, acc, hnd, hlen, hptw, hfresh => by
    obtain ⟨kvs, hre, hsrc, hsne⟩ := hptw 0 r s (by simp) (by simp)
    subst hre
    have hsrcv : (dGet kvs "src").getD .null = .str s := by
      rw [hsrc] ; rfl
    have hvset : vSet acc (.str s) (.dict kvs) =
        acc ++ [(.str s, .dict kvs)] := by
      unfold vSet
      rw [if_neg (by rw [hfresh s (by simp)] ; simp)]
    have hrec := resources_to_dict_go rs ss (acc ++ [(.str s, .dict kvs)])
      (List.nodup_cons.mp hnd).2
      (by simpa using hlen)
      (fun i r2 s2 h1 h2 => hptw (i + 1) r2 s2 (by simpa using h1)
        (by simpa using h2))
      (by
        intro t ht
        unfold vHas
        rw [List.any_append]
        have h1 : vHas acc (.str t) = false :=
          hfresh t (by simp [ht])
        unfold vHas at h1
        rw [h1]
        have hst : s ≠ t := by
          intro he
          exact (List.nodup_cons.mp hnd).1 (he ▸ ht)
        simp [hst])
    rw [List.foldl_cons]
    show List.foldl _
      (if pyTruthy ((dGet kvs "src").getD .null) = true then
        vSet acc ((dGet kvs "src").getD .null) (.dict kvs) else acc)
      rs = _
    rw [hsrcv, if_pos (show pyTruthy (Value.str s) = true from
          by simp [pyTruthy, hsne]), hvset, hrec]
    simp [List.zip_cons_cons]

theorem resources_to_dict_zip (rs : List Value) (ss : List String)
    (hnd : ss.Nodup) (hlen : rs.length = ss.length)
    (hptw : ∀ (i : Nat) (r : Value) (s : String), rs[i]? = some r →
      ss[i]? = some s →
      ∃ kvs, r = .dict kvs ∧ dGet kvs "src" = some (.str s) ∧ s ≠ "") :
    resources_to_dict rs = (ss.map Value.str).zip rs := by
  unfold resources_to_dict
  rw [resources_to_dict_go rs ss [] hnd hlen hptw (fun s _ => rfl)]
  simp

/-- Lookup in the zipped index at the position of a name. -/
theorem vGet_zip :
    ∀ (ss : List String) (rs : List Value) (i : Nat) (name : String)
      (r : Value), ss.Nodup → ss[i]? = some name → rs[i]? = some r →
      vGet ((ss.map Value.str).zip rs) (.str name) = some r
  | [], _, _, _, _, _, h1, _ => by simp at h1
  | _ :: _, [], _, _, _, _, _, h2 => by simp at h2
  | s :: ss, r0 :: rs, 0, name, r, hnd, h1, h2 => by
    have hs : s = name := by simpa using h1
    have hr : r0 = r := by simpa using h2
    subst hs
    subst hr
    unfold vGet
    simp [List.find?]
  | s :: ss, r0 :: rs, i + 1, name, r, hnd, h1, h2 => by
    simp only [List.getElem?_cons_succ] at h1 h2
    have hmem : name ∈ ss := List.getElem?_mem h1
    have hne : s ≠ name := by
      intro he
      exact (List.nodup_cons.mp hnd).1 (he ▸ hmem)
    have hrec := vGet_zip ss rs i name r (List.nodup_cons.mp hnd).2 h1 h2
    unfold vGet at hrec ⊢
    simp only [List.map_cons, List.zip_cons_cons, List.find?]
    rw [show (decide ((Value.str s) = (Value.str name))) = false from
          by simp [hne]]
    exact hrec

/-- The merge loop is the identity when every name finds its own
already-merged entry in the index. -/
theorem mergeList_noop (ex : List (Value × Value))
    (des : List (String × Value)) :
    ∀ (names : List String) (ms : List Value),
      names.length = ms.length →
      (∀ (i : Nat) (name : String), names[i]? = some name →
        ∃ r, ms[i]? = some r ∧ vGet ex (.str name) = some r ∧
          mergeKept name r ((dGet des name).getD .null) = some r) →
      mergeList ex des names = some ms
  | [], [], _, _ => rfl
  | [], m :: ms, hlen, _ => by simp at hlen
  | n :: names, [], hlen, _ => by simp at hlen
  | n :: names, m :: ms, hlen, h => by
    obtain ⟨r, hm0, hvg, hmk⟩ := h 0 n (by simp)
    have hrm : m = r := by simpa using hm0
    subst hrm
    unfold mergeList
    simp only [Option.bind_eq_bind]
    rw [hvg]
    show (mergeKept n m ((dGet des n).getD .null)).bind
      (fun e => (mergeList ex des names).bind
        fun tail => pure (e :: tail)) = some (m :: ms)
    rw [hmk, Option.some_bind,
        mergeList_noop ex des names ms (by simpa using hlen)
          (fun i name hi => by
            obtain ⟨r2, hr2, hv2, hk2⟩ := h (i + 1) name
              (by simpa using hi)
            exact ⟨r2, by simpa using hr2, hv2, hk2⟩),
        Option.some_bind]
    rfl

/-- Forward computation of a nested `params`-level assignment. -/
theorem pySetItem2_eq (kvs pkvs : List (String × Value)) (k2 : String)
    (x : Value) (hp : dGet kvs "params" = some (.dict pkvs)) :
    pySetItem2 (.dict kvs) "params" k2 x =
      some (.dict (dSet kvs "params" (.dict (dSet pkvs k2 x)))) := by
  unfold pySetItem2
  simp only [Option.bind_eq_bind, pyGetItem]
  rw [hp]
  simp [pySetItem]

/-- The weight pass evaluates the need of every entry it reaches. -/
theorem assignWeights_needs :
    ∀ (rs : List Value) (nw : Int) (out : List Value),
      assignWeights rs nw = some out →
      ∀ (i : Nat) (r : Value), rs[i]? = some r →
        ∃ b, needsWeight r = some b
  | [], _, _, _, i, r, hi => by simp at hi
  | r0 :: rs, nw, out, h, i, r, hi => by
    unfold assignWeights at h
    simp only [Option.bind_eq_bind] at h
    cases hnw : needsWeight r0 with
    | none => rw [hnw] at h ; exact absurd h (by simp)
    | some b =>
      rw [hnw] at h
      simp only [Option.some_bind] at h
      cases i with
      | zero =>
        have : r0 = r := by simpa using hi
        exact ⟨b, this ▸ hnw⟩
      | succ i =>
        simp only [List.getElem?_cons_succ] at hi
        cases b with
        | true =>
          rw [if_pos rfl] at h
          cases h2 : pySetItem2 r0 "params" "weight" (.int nw) with
          | none => rw [h2] at h ; exact absurd h (by simp)
          | some r2 =>
            rw [h2] at h
            simp only [Option.some_bind] at h
            cases h3 : assignWeights rs (nw + 1) with
            | none => rw [h3] at h ; exact absurd h (by simp)
            | some rest => exact assignWeights_needs rs (nw + 1) rest h3 i r hi
        | false =>
          rw [if_neg (show ¬ (false = true) from by decide)] at h
          cases h3 : assignWeights rs nw with
          | none => rw [h3] at h ; exact absurd h (by simp)
          | some rest => exact assignWeights_needs rs nw rest h3 i r hi

/-- The outcome of one fill step is always a state the step no longer
touches. -/
theorem fillNoop_of_filled (dpkvs pkvs : List (String × Value))
    (key : String) (cur : Option Value)
    (hif : dGet pkvs key =
      if inEmptyTuple (cur.getD .null) = true ∧
         inEmptyTuple ((dGet dpkvs key).getD .null) = false
      then some ((dGet dpkvs key).getD .null)
      else cur) :
    fillNoop dpkvs pkvs key := by
  by_cases hc : inEmptyTuple (cur.getD .null) = true ∧
      inEmptyTuple ((dGet dpkvs key).getD .null) = false
  · rw [if_pos hc] at hif
    exact Or.inl ⟨_, hif, hc.2⟩
  · rw [if_neg hc] at hif
    by_cases hA : inEmptyTuple (cur.getD .null) = true
    · have hB : inEmptyTuple ((dGet dpkvs key).getD .null) = true := by
        cases hBv : inEmptyTuple ((dGet dpkvs key).getD .null) with
        | true => rfl
        | false => exact absurd ⟨hA, hBv⟩ hc
      right
      constructor
      · rw [hif] ; exact hA
      · exact hB
    · left
      cases hcur : cur with
      | none =>
        rw [hcur] at hA
        exact absurd (by simp [inEmptyTuple]) hA
      | some v =>
        refine ⟨v, by rw [hif, hcur], ?_⟩
        rw [hcur] at hA
        cases hbv : inEmptyTuple v with
        | false => rfl
        | true => exact absurd (by simpa using hbv) hA

/-- After a completed run every merged entry is in a state that the
merge, weight and cover passes no longer modify: it carries the sorted
`src` of its position, the stem title, a nonempty-or-jointly-empty
state on each fill key against the freshly built entry, and a usable
weight; moreover some entry carries the cover flag (unless the list is
empty). -/
theorem runCore_stable (codec : YamlCodec) (cfg : Config)
    (imgs : List ImageInfo) (text : String) (res : RunResult)
    (h : runCore codec cfg imgs text = some res) :
    res.merged.length = res.sortedSrcs.length ∧
    (res.merged = [] ∨ anyCover res.merged = some true) ∧
    (∀ (i : Nat) (name : String), res.sortedSrcs[i]? = some name →
      ∃ img e, img ∈ imgs ∧ img.name = name ∧
        (dGet (desired_by_src cfg imgs) name).getD .null =
          build_resource_for_image cfg img ∧
        res.merged[i]? = some e ∧
        entryStable name (buildParams cfg img) e) := by
  obtain ⟨fm, er, hsp, hfp, hbody, hger, hex, hsorted, hmerge, hw, hcov,
    hset, hout⟩ := runCore_spec codec cfg imgs text res h
  obtain ⟨hlen0, hspec0⟩ := mergeList_spec _ _ _ _ hmerge
  -- Stage 1: the merged list before weights
  have hS1 : ∀ (i : Nat) (name : String), res.sortedSrcs[i]? = some name →
      ∃ img e kvsE, img ∈ imgs ∧ img.name = name ∧
        (dGet (desired_by_src cfg imgs) name).getD .null =
          build_resource_for_image cfg img ∧
        res.merged0[i]? = some e ∧ e = .dict kvsE ∧
        dHas kvsE "params" = true ∧
        (∀ pkvs, dGet kvsE "params" = some (.dict pkvs) →
          preStable name (buildParams cfg img) e) := by
    intro i name hi
    have hmem : name ∈ (desired_by_src cfg imgs).map (fun p => p.1) := by
      have h1 : name ∈ res.sortedSrcs := List.getElem?_mem hi
      rw [hsorted, (perm_pySorted _).mem_iff] at h1
      exact h1
    obtain ⟨dv, hdv⟩ := mem_map_fst_dGet _ name hmem
    obtain ⟨img, himg, hname, hbuild⟩ := desired_mem cfg imgs name dv hdv
    have hdent : (dGet (desired_by_src cfg imgs) name).getD .null =
        build_resource_for_image cfg img := by
      rw [hdv]
      simp only [Option.getD_some]
      rw [hbuild]
    obtain ⟨hkept, hnew⟩ := hspec0 i name hi
    cases hvg : vGet res.existingBySrc (.str name) with
    | none =>
      have he := hnew hvg
      rw [hdent] at he
      refine ⟨img, build_resource_for_image cfg img,
        [("src", .str img.name), ("title", .str (pathStem img.name)),
         ("params", .dict (buildParams cfg img))],
        himg, hname, hdent, he, build_kvs cfg img, by simp [dHas], ?_⟩
      intro pkvs _
      obtain ⟨hfd, hfl, hft⟩ := build_fillNoop cfg img
      refine ⟨[("src", .str img.name), ("title", .str (pathStem img.name)),
        ("params", .dict (buildParams cfg img))], buildParams cfg img,
        build_kvs cfg img, build_params_get cfg img, by simp [dHas], ?_, ?_,
        hfd, hfl, hft⟩
      · intro p hp hpk
        simp only [List.mem_cons, List.mem_singleton] at hp
        rcases hp with rfl | rfl | rfl | hp
        · exact absurd hpk (by simp)
        · simp only
          rw [hname]
        · exact absurd hpk (by simp)
        · exact absurd hp (List.not_mem_nil p)
      · rw [show dGet [("src", Value.str img.name),
            ("title", Value.str (pathStem img.name)),
            ("params", Value.dict (buildParams cfg img))] "src" =
            some (.str img.name) from by simp [dGet_cons], hname]
    | some r =>
      obtain ⟨e, he, hmk⟩ := hkept r hvg
      rw [hdent] at hmk
      obtain ⟨kvs0, kvsF, hr0, heF, hhasP, hhasT, hbindF, hsrcF⟩ :=
        mergeKept_shape name r _ e hmk
      have hsrc0 : dGet kvs0 "src" = some (.str name) := by
        rw [hex] at hvg
        cases er with
        | list rs =>
          obtain ⟨kvsx, hkx, hsx⟩ := existing_src_field rs name r hvg
          rw [hr0] at hkx
          have : kvs0 = kvsx := by injection hkx
          rw [this]
          exact hsx
        | null => exact absurd hvg (by simp [existingFrom, vGet])
        | bool b => exact absurd hvg (by simp [existingFrom, vGet])
        | int n => exact absurd hvg (by simp [existingFrom, vGet])
        | str s => exact absurd hvg (by simp [existingFrom, vGet])
        | dict kvs => exact absurd hvg (by simp [existingFrom, vGet])
      rw [hr0, build_kvs] at hmk
      refine ⟨img, e, kvsF, himg, hname, hdent, he, heF, hhasP, ?_⟩
      intro pkvs hpkF
      have hnond : ∀ v : Value, dGet kvs0 "params" = some v →
          (∀ pk : List (String × Value), v ≠ .dict pk) → False := by
        intro v hcase hv
        obtain ⟨kvsF2, heF2, hpv⟩ :=
          mergeKept_nondict name kvs0 v _ e hcase hv hmk
        have hk : kvsF2 = kvsF := by
          rw [heF] at heF2
          injection heF2 with hh
          exact hh.symm
        rw [hk, hpkF] at hpv
        exact hv pkvs (Option.some.inj hpv).symm
      have hwf : dGet kvs0 "params" = none ∨
          ∃ pk0, dGet kvs0 "params" = some (.dict pk0) := by
        cases hcase : dGet kvs0 "params" with
        | none => exact Or.inl rfl
        | some v =>
          right
          cases v with
          | dict pk0 => exact ⟨pk0, rfl⟩
          | null => exact (hnond _ hcase (by intro pk ; simp)).elim
          | bool b => exact (hnond _ hcase (by intro pk ; simp)).elim
          | int n => exact (hnond _ hcase (by intro pk ; simp)).elim
          | str s => exact (hnond _ hcase (by intro pk ; simp)).elim
          | list xs => exact (hnond _ hcase (by intro pk ; simp)).elim
      obtain ⟨kvsF3, pkvsF3, heF3, hpF3, htF3, hkF3, hpkO3, hkeyF3⟩ :=
        mergeKept_spec name kvs0 _ (buildParams cfg img) e hwf
          (build_params_get cfg img) hmk
      have hkk : kvsF3 = kvsF := by
        rw [heF] at heF3
        injection heF3 with hh
        exact hh.symm
      subst hkk
      rw [hpkF] at hpF3
      have hpp : pkvsF3 = pkvs := by
        have hh := Option.some.inj hpF3
        injection hh with hh
        exact hh.symm
      subst hpp
      refine ⟨kvsF3, pkvsF3, heF, hpkF, hhasT, hbindF,
        hsrcF.trans hsrc0, ?_, ?_, ?_⟩
      · exact fillNoop_of_filled _ _ "date" _ (hkeyF3 "date" (by simp))
      · exact fillNoop_of_filled _ _ "location" _
          (hkeyF3 "location" (by simp))
      · exact fillNoop_of_filled _ _ "tags" _ (hkeyF3 "tags" (by simp))
  -- Stage 2: the weight pass
  obtain ⟨ws, rs1, hws, hmapM, hassign⟩ := update_weights_spec _ _ _ hw
  have hrs1 : rs1 = res.merged0 := by
    have hnoop := mapM_setdefault_noop res.merged0 (by
      intro r hr
      obtain ⟨i, hir⟩ := List.mem_iff_getElem?.mp hr
      have hname? : ∃ name, res.sortedSrcs[i]? = some name := by
        cases hn : res.sortedSrcs[i]? with
        | some name => exact ⟨name, rfl⟩
        | none =>
          exfalso
          have h1 : res.sortedSrcs.length ≤ i :=
            List.getElem?_eq_none_iff.mp hn
          have h2 : res.merged0[i]? = none := by
            rw [List.getElem?_eq_none_iff]
            omega
          rw [h2] at hir
          exact absurd hir (by simp)
      obtain ⟨name, hn⟩ := hname?
      obtain ⟨img, e, kvsE, _, _, _, he0, heq, hhasP, _⟩ := hS1 i name hn
      rw [hir] at he0
      have her : r = e := Option.some.inj he0
      exact ⟨kvsE, by rw [her, heq], hhasP⟩)
    have := hmapM.symm.trans hnoop
    exact Option.some.inj this
  subst hrs1
  obtain ⟨hlenA, hspecA⟩ := assignWeights_spec _ _ _ hassign
  have hS2 : ∀ (i : Nat) (name : String), res.sortedSrcs[i]? = some name →
      ∃ img e, img ∈ imgs ∧ img.name = name ∧
        (dGet (desired_by_src cfg imgs) name).getD .null =
          build_resource_for_image cfg img ∧
        res.mergedW[i]? = some e ∧
        entryStable name (buildParams cfg img) e := by
    intro i name hi
    obtain ⟨img, e, kvsE, himg, hname, hdent, he0, heq, hhasP, hcond⟩ :=
      hS1 i name hi
    obtain ⟨b, hb⟩ := assignWeights_needs _ _ _ hassign i e he0
    obtain ⟨htrue, hfalse⟩ := hspecA i e he0
    cases b with
    | true =>
      obtain ⟨r2, hset2, hout2⟩ := htrue hb
      obtain ⟨kvs4, pkvs4, he4, hp4, hr24⟩ := pySetItem2_inv _ _ _ _ hset2
      have hk4 : kvs4 = kvsE := by
        rw [heq] at he4
        injection he4 with hh
        exact hh.symm
      have hpre : preStable name (buildParams cfg img) e :=
        hcond pkvs4 (by rw [← hk4] ; exact hp4)
      refine ⟨img, r2, himg, hname, hdent, hout2,
        preStable_setItem2 name _ e r2 "weight" _ (by decide) (by decide)
          (by decide) hset2 hpre,
        needsWeight_after_set e r2 _ hset2⟩
    | false =>
      have hfe := hfalse hb
      obtain ⟨kvs5, pkvs5, w5, he5, hp5, _, _⟩ := needsWeight_false_inv e hb
      have hk5 : kvs5 = kvsE := by
        rw [heq] at he5
        injection he5 with hh
        exact hh.symm
      exact ⟨img, e, himg, hname, hdent, hfe,
        hcond pkvs5 (by rw [← hk5] ; exact hp5), hb⟩
  -- Stage 3: the cover pass
  have hlenW : res.mergedW.length = res.sortedSrcs.length := by
    rw [hlenA, hlen0]
  have hacx : ∃ ac, anyCover res.mergedW = some ac := by
    unfold ensure_cover at hcov
    simp only [Option.bind_eq_bind] at hcov
    cases hac : anyCover res.mergedW with
    | none => rw [hac] at hcov ; exact absurd hcov (by simp)
    | some ac => exact ⟨ac, rfl⟩
  obtain ⟨ac, hac⟩ := hacx
  cases ac with
  | true =>
    have hmm : res.merged = res.mergedW := by
      have h1 := ensure_cover_of_found _ hac
      rw [h1] at hcov
      exact (Option.some.inj hcov).symm
    rw [hmm]
    refine ⟨hlenW, Or.inr hac, ?_⟩
    intro i name hi
    exact hS2 i name hi
  | false =>
    cases hmw : res.mergedW with
    | nil =>
      rw [hmw] at hcov
      rw [ensure_cover_nil] at hcov
      have hme : res.merged = [] := (Option.some.inj hcov).symm
      refine ⟨?_, Or.inl hme, ?_⟩
      · rw [hme, ← hlenW, hmw]
      · intro i name hi
        exfalso
        have h1 : name ∈ res.sortedSrcs := List.getElem?_mem hi
        have h2 : res.sortedSrcs = [] := by
          have := hlenW
          rw [hmw] at this
          exact List.length_eq_zero.mp this.symm
        rw [h2] at h1
        exact absurd h1 (List.not_mem_nil name)
    | cons r0 rest =>
      have hn0 : ∃ name0, res.sortedSrcs[0]? = some name0 := by
        cases hn : res.sortedSrcs[0]? with
        | some name0 => exact ⟨name0, rfl⟩
        | none =>
          exfalso
          have h1 : res.sortedSrcs.length ≤ 0 :=
            List.getElem?_eq_none_iff.mp hn
          rw [← hlenW, hmw] at h1
          simp at h1
      obtain ⟨name0, hn0⟩ := hn0
      obtain ⟨img0, e0, himg0, hname0, hdent0, he0, hstab0⟩ := hS2 0 name0 hn0
      have he0r : r0 = e0 := by
        rw [hmw] at he0
        simpa using he0
      subst he0r
      obtain ⟨⟨kvs0, pkvs0, hre0, hp0, hhasT0, hbind0, hsrc0,
        hfd0, hfl0, hft0⟩, hnw0⟩ := hstab0
      have hsd : pySetdefault r0 "params" (.dict []) = some r0 := by
        rw [hre0]
        exact pySetdefault_present kvs0 _ _
          ((dHas_iff_dGet kvs0 "params").mpr (by simp [hp0]))
      have hr2 : pySetItem2 r0 "params" "cover" (.bool true) =
          some (.dict (dSet kvs0 "params"
            (.dict (dSet pkvs0 "cover" (.bool true))))) := by
        rw [hre0]
        exact pySetItem2_eq kvs0 pkvs0 "cover" (.bool true) hp0
      have hec := ensure_cover_of_not_found r0 rest r0 _
        (hmw ▸ hac) hsd hr2
      rw [hmw] at hcov
      rw [hec] at hcov
      have hme : res.merged = .dict (dSet kvs0 "params"
          (.dict (dSet pkvs0 "cover" (.bool true)))) :: rest :=
        (Option.some.inj hcov).symm
      refine ⟨?_, Or.inr ?_, ?_⟩
      · rw [hme, ← hlenW, hmw]
        simp
      · rw [hme]
        exact anyCover_cons_true _ _ (coverFlag_after_set r0 _ hr2)
      · intro i name hi
        cases i with
        | zero =>
          have hnn : name = name0 := by
            rw [hn0] at hi
            exact (Option.some.inj hi).symm
          subst hnn
          refine ⟨img0, .dict (dSet kvs0 "params"
              (.dict (dSet pkvs0 "cover" (.bool true)))),
            himg0, hname0, hdent0, by rw [hme] ; simp, ?_, ?_⟩
          · exact preStable_setItem2 name _ r0 _ "cover" _ (by decide)
              (by decide) (by decide) hr2
              ⟨kvs0, pkvs0, hre0, hp0, hhasT0, hbind0, hsrc0,
                hfd0, hfl0, hft0⟩
          · exact needsWeight_setItem2_ne r0 _ "cover" _ (by decide)
              hr2 hnw0
        | succ i =>
          obtain ⟨img, e, himg, hname, hdent, heW, hstab⟩ :=
            hS2 (i + 1) name hi
          refine ⟨img, e, himg, hname, hdent, ?_, hstab⟩
          rw [hme]
          rw [hmw] at heW
          simpa using heW

/-- The rebuilt document head as an explicit three-part concatenation. -/
theorem join_front_matter_shape (dump : Value → String) (front : Value) :
    join_front_matter dump front =
      "---\n" ++ ((pyStrip (dump front) ++ "\n") ++ "---\n") := by
  unfold join_front_matter
  apply eq_of_data_eq
  simp only [String.data_append,
    show ("---\n" : String).data =
      ("---" : String).data ++ ("\n" : String).data from by decide,
    List.append_assoc]
  rw [show (['-', '-', '-', '\n'] : List Char) =
        ['-', '-', '-'] ++ ['\n'] from by decide]
  simp [List.append_assoc]

theorem endsWithNl_join (dump : Value → String) (front : Value) :
    endsWithNl (join_front_matter dump front) = true := by
  unfold join_front_matter
  exact endsWithNl_append_nl _

theorem join_data_last (dump : Value → String) (front : Value) :
    (join_front_matter dump front).data.getLast? = some '\n' := by
  unfold join_front_matter
  rw [String.data_append]
  exact List.getLast?_append_of_ne_nil _ (by decide)

/-- Line structure of the rebuilt document head. -/
theorem pySplitlines_join (dump : Value → String) (front : Value)
    (hne : pyStrip (dump front) ≠ "") :
    pySplitlines (join_front_matter dump front) =
      "---" :: (pySplitlines (pyStrip (dump front)) ++ ["---"]) := by
  have hD : (pyStrip (dump front)).data ≠ [] :=
    fun hd => hne (eq_empty_of_data_nil _ hd)
  have hlastD : ∀ c, (pyStrip (dump front)).data.getLast? = some c →
      ¬ isLineBreak c :=
    fun c hc hb => pyStrip_last_not_space _ c hc (break_isSpace c hb)
  rw [join_front_matter_shape,
      pySplitlines_append_nl "---\n" _ (by decide),
      pySplitlines_append_nl (pyStrip (dump front) ++ "\n") "---\n"
        (by rw [String.data_append]
            exact List.getLast?_append_of_ne_nil _ (by decide)),
      pySplitlines_trailing _ hD hlastD,
      show pySplitlines "---\n" = ["---"] from by decide]
  rfl

/-- Parsing the document written by a run recovers the final header (for
a codec that round-trips it) and the body with its lines rejoined. -/
theorem split_attach (codec : YamlCodec) (front : Value) (body : String)
    (hload : codec.load (joinN (pySplitlines (pyStrip
      (codec.dump front)))) = some front)
    (hnodelim : ∀ l ∈ pySplitlines (pyStrip (codec.dump front)),
      delimLine l = false)
    (hDne : pyStrip (joinN (pySplitlines (pyStrip
      (codec.dump front)))) ≠ "")
    (hnn : front ≠ Value.null) :
    split_front_matter codec.load
      (attach_body (join_front_matter codec.dump front) body) =
    some (front,
      if pyStrip body = "" then "" else joinN (pySplitlines body)) := by
  have hDne0 : pyStrip (codec.dump front) ≠ "" := by
    intro h0
    apply hDne
    rw [h0]
    rfl
  set Dls := pySplitlines (pyStrip (codec.dump front)) with hDls
  by_cases hbe : pyStrip body = ""
  · rw [if_pos hbe]
    have hAtt : attach_body (join_front_matter codec.dump front) body =
        join_front_matter codec.dump front := by
      unfold attach_body
      rw [hbe, if_neg (by simp)]
    rw [hAtt]
    have hls : pySplitlines (join_front_matter codec.dump front) =
        "---" :: (Dls ++ ["---"]) := pySplitlines_join _ _ hDne0
    have hfind : (Dls ++ ["---"]).findIdx? delimLine = some Dls.length := by
      have := findIdx?_prefix_false delimLine Dls "---" [] 0 hnodelim
        (by decide)
      simpa using this
    rw [split_found codec.load _ "---" (Dls ++ ["---"]) Dls.length hls
          (by decide) hfind,
        show (Dls ++ ["---"]).take Dls.length = Dls from
          List.take_left Dls ["---"],
        show (Dls ++ ["---"]).drop (Dls.length + 1) = [] from
          drop_append_cons Dls "---" [],
        if_pos hDne, hload]
    show some ((if front = Value.null then Value.dict [] else front),
      joinN []) = some (front, "")
    rw [if_neg hnn]
    rfl
  · rw [if_neg hbe]
    have hAtt : attach_body (join_front_matter codec.dump front) body =
        join_front_matter codec.dump front ++ body := by
      unfold attach_body
      rw [if_pos hbe, if_pos (endsWithNl_join codec.dump front)]
    rw [hAtt]
    have hls : pySplitlines (join_front_matter codec.dump front ++ body) =
        "---" :: (Dls ++ "---" :: pySplitlines body) := by
      rw [pySplitlines_append_nl _ body (join_data_last codec.dump front),
          pySplitlines_join _ _ hDne0]
      simp
    have hfind : (Dls ++ "---" :: pySplitlines body).findIdx? delimLine =
        some Dls.length := by
      have := findIdx?_prefix_false delimLine Dls "---"
        (pySplitlines body) 0 hnodelim (by decide)
      simpa using this
    rw [split_found codec.load _ "---" _ Dls.length hls (by decide) hfind,
        show (Dls ++ "---" :: pySplitlines body).take Dls.length = Dls from
          List.take_left Dls _,
        show (Dls ++ "---" :: pySplitlines body).drop (Dls.length + 1) =
          pySplitlines body from drop_append_cons _ _ _,
        if_pos hDne, hload]
    show some ((if front = Value.null then Value.dict [] else front),
      joinN (pySplitlines body)) = some (front, joinN (pySplitlines body))
    rw [if_neg hnn]

/-- C2 (amended) — a second run on the text written by a completed run
reproduces that text byte for byte, provided (i) every image filename is
nonempty, (ii) the YAML codec round-trips the final header: loading the
line-normalised stripped dump returns the exact header value, no dump
line strips to the bare delimiter `---`, and the stripped dump is not
whitespace-only, and (iii) the first run's preserved body is either
whitespace-only or a fixpoint of splitting into lines and rejoining
with `\n` (pure `\n` endings and no trailing line terminator).  Without
condition (iii) the second run differs exactly by that body
normalisation, so the unconditional claim is false. -/
theorem second_run_reproduces_output (codec : YamlCodec) (cfg : Config)
    (imgs : List ImageInfo) (text : String) (res : RunResult)
    (h : runCore codec cfg imgs text = some res)
    (himgs : ∀ img ∈ imgs, img.name ≠ "")
    (hload : codec.load (joinN (pySplitlines (pyStrip
      (codec.dump res.frontFinal)))) = some res.frontFinal)
    (hnodelim : ∀ l ∈ pySplitlines (pyStrip (codec.dump res.frontFinal)),
      delimLine l = false)
    (hDne : pyStrip (joinN (pySplitlines (pyStrip
      (codec.dump res.frontFinal)))) ≠ "")
    (hbody : pyStrip res.body = "" ∨
      joinN (pySplitlines res.body) = res.body) :
    runText codec cfg imgs res.output = some res.output := by
  obtain ⟨fm, er, hsp, hfp, hbody0, hger, hex, hsorted, hmerge, hw, hcov,
    hset, hout⟩ := runCore_spec codec cfg imgs text res h
  obtain ⟨hlenM, hcover, hstab⟩ := runCore_stable codec cfg imgs text res h
  obtain ⟨fkvs, hfk⟩ := coerceFront_dict fm.1
  have hfp2 : res.frontParsed = .dict fkvs := by rw [hfp, hfk]
  have hffin : res.frontFinal =
      .dict (dSet fkvs "resources" (.list res.merged)) := by
    rw [hfp2] at hset
    have h1 : pySetItem (Value.dict fkvs) "resources" (.list res.merged) =
        some (.dict (dSet fkvs "resources" (.list res.merged))) := rfl
    rw [h1] at hset
    exact (Option.some.inj hset).symm
  have hnn : res.frontFinal ≠ Value.null := by rw [hffin] ; simp
  have hcoe : coerceFront res.frontFinal = res.frontFinal := by
    rw [hffin]
    rfl
  have hger2 : pyGetD res.frontFinal "resources" (.list []) =
      some (.list res.merged) := by
    rw [hffin]
    show some ((dGet (dSet fkvs "resources" (.list res.merged))
      "resources").getD (.list [])) = _
    rw [dGet_dSet_self]
    rfl
  have hset2 : pySetItem res.frontFinal "resources" (.list res.merged) =
      some res.frontFinal := by
    rw [hffin]
    show some (Value.dict (dSet (dSet fkvs "resources" (.list res.merged))
      "resources" (.list res.merged))) = _
    rw [dSet_eq_self _ _ _ (dSet_all_k _ _ _) (dHas_dSet _ _ _)]
  have hndk : ((desired_by_src cfg imgs).map (fun p => p.1)).Nodup :=
    desired_keys_nodup cfg imgs [] (by simp)
  have hnd : res.sortedSrcs.Nodup := by
    rw [hsorted]
    exact ((perm_pySorted _).nodup_iff).mpr hndk
  have hidx : ∀ (i : Nat) (r : Value), res.merged[i]? = some r →
      ∃ name img, res.sortedSrcs[i]? = some name ∧ img ∈ imgs ∧
        img.name = name ∧
        (dGet (desired_by_src cfg imgs) name).getD .null =
          build_resource_for_image cfg img ∧
        entryStable name (buildParams cfg img) r := by
    intro i r hr
    have hname? : ∃ name, res.sortedSrcs[i]? = some name := by
      cases hn : res.sortedSrcs[i]? with
      | some name => exact ⟨name, rfl⟩
      | none =>
        exfalso
        have h1 : res.sortedSrcs.length ≤ i :=
          List.getElem?_eq_none_iff.mp hn
        have h2 : res.merged[i]? = none := by
          rw [List.getElem?_eq_none_iff]
          omega
        rw [h2] at hr
        exact absurd hr (by simp)
    obtain ⟨name, hn⟩ := hname?
    obtain ⟨img, e, himg, hnm, hdent, hei, hstabE⟩ := hstab i name hn
    have her : e = r := by rw [hei] at hr ; exact Option.some.inj hr
    subst her
    exact ⟨name, img, hn, himg, hnm, hdent, hstabE⟩
  have hmem : ∀ r ∈ res.merged, ∃ kvs pkvs, r = .dict kvs ∧
      dGet kvs "params" = some (.dict pkvs) ∧
      needsWeight r = some false := by
    intro r hr
    obtain ⟨i, hir⟩ := List.mem_iff_getElem?.mp hr
    obtain ⟨name, img, hn, himg, hnm, hdent, hstabE⟩ := hidx i r hir
    obtain ⟨⟨kvs, pkvs, hre, hp, _, _, _, _, _, _⟩, hnw⟩ := hstabE
    exact ⟨kvs, pkvs, hre, hp, hnw⟩
  have hptw : ∀ (i : Nat) (r : Value) (s : String),
      res.merged[i]? = some r → res.sortedSrcs[i]? = some s →
      ∃ kvs, r = .dict kvs ∧ dGet kvs "src" = some (.str s) ∧ s ≠ "" := by
    intro i r s hr hs
    obtain ⟨name, img, hn, himg, hnm, hdent, hstabE⟩ := hidx i r hr
    have hsn : name = s := by rw [hn] at hs ; exact Option.some.inj hs
    subst hsn
    obtain ⟨⟨kvs, pkvs, hre, hp, _, _, hsrc, _, _, _⟩, _⟩ := hstabE
    refine ⟨kvs, hre, hsrc, ?_⟩
    rw [← hnm]
    exact himgs img himg
  have hzip : resources_to_dict res.merged =
      (res.sortedSrcs.map Value.str).zip res.merged :=
    resources_to_dict_zip _ _ hnd hlenM hptw
  have hm2 : mergeList (resources_to_dict res.merged)
      (desired_by_src cfg imgs) res.sortedSrcs = some res.merged := by
    apply mergeList_noop
    · exact hlenM.symm
    · intro i name hi
      obtain ⟨img, e, himg, hnm, hdent, hei, hstabE⟩ := hstab i name hi
      obtain ⟨⟨kvs, pkvs, hre, hp, hhasT, hbind, hsrc, hfd, hfl, hft⟩,
        hnw⟩ := hstabE
      refine ⟨e, hei, ?_, ?_⟩
      · rw [hzip]
        exact vGet_zip _ _ i name e hnd hi hei
      · rw [hdent, build_kvs, hre]
        exact mergeKept_noop name kvs pkvs _ (buildParams cfg img)
          (build_params_get cfg img) hp hhasT hbind hfd hfl hft
  obtain ⟨ws2, hws2⟩ : ∃ ws2,
      collectWeights (resources_to_dict res.merged) = some ws2 := by
    unfold collectWeights
    apply collectWeightsAux_some
    intro p hp
    rw [hzip] at hp
    obtain ⟨a, b⟩ := p
    have hb := (List.of_mem_zip hp).2
    obtain ⟨kvs, pkvs, hre, hpk, _⟩ := hmem b hb
    exact ⟨kvs, pkvs, hre, hpk⟩
  have hmapM2 : res.merged.mapM
      (fun r => pySetdefault r "params" (.dict [])) = some res.merged := by
    apply mapM_setdefault_noop
    intro r hr
    obtain ⟨kvs, pkvs, hre, hpk, _⟩ := hmem r hr
    exact ⟨kvs, hre, (dHas_iff_dGet kvs "params").mpr (by simp [hpk])⟩
  have hassign2 : assignWeights res.merged (pyMaxD ws2 + 1) =
      some res.merged := by
    apply assignWeights_noop
    intro r hr
    obtain ⟨_, _, _, _, hnw⟩ := hmem r hr
    exact hnw
  have hw2 : update_weights_preserve_existing res.merged
      (resources_to_dict res.merged) = some res.merged :=
    update_weights_build _ _ ws2 res.merged res.merged hws2 hmapM2 hassign2
  have hcov2 : ensure_cover res.merged = some res.merged := by
    rcases hcover with hnil | hc
    · rw [hnil] ; exact ensure_cover_nil
    · exact ensure_cover_of_found _ hc
  have hsplit2 := split_attach codec res.frontFinal res.body hload
    hnodelim hDne hnn
  set B2 := (if pyStrip res.body = "" then ""
    else joinN (pySplitlines res.body)) with hB2
  have hrun2 := runCore_build codec cfg imgs res.output
    (res.frontFinal, B2) (.list res.merged) res.merged res.merged
    res.merged res.frontFinal
    (by rw [hout] ; exact hsplit2)
    (by show pyGetD (coerceFront res.frontFinal) "resources" (.list []) =
          some (.list res.merged)
        rw [hcoe] ; exact hger2)
    (by show mergeList (existingFrom (.list res.merged))
          (desired_by_src cfg imgs)
          (pySorted ((desired_by_src cfg imgs).map (fun p => p.1))) =
          some res.merged
        rw [← hsorted]
        exact hm2)
    (by show update_weights_preserve_existing res.merged
          (existingFrom (.list res.merged)) = some res.merged
        exact hw2)
    hcov2
    (by show pySetItem (coerceFront res.frontFinal) "resources"
          (.list res.merged) = some res.frontFinal
        rw [hcoe] ; exact hset2)
  unfold runText
  rw [hrun2]
  show some (attach_body (join_front_matter codec.dump res.frontFinal)
    B2) = some res.output
  rw [hout]
  by_cases hbe : pyStrip res.body = ""
  · have hB2e : B2 = "" := by rw [hB2, if_pos hbe]
    rw [hB2e]
    unfold attach_body
    rw [show pyStrip ("" : String) = "" from rfl, hbe]
    simp
  · have hb2 : B2 = res.body := by
      rw [hB2, if_neg hbe]
      exact hbody.resolve_left hbe
    rw [hb2]

/-- Counterexample to C2 as stated: feeding the first run's output back
in (unchanged empty directory) yields a byte-different second output —
the first run's body keeps its trailing newline in the written file,
and the second run's line split-and-rejoin drops it. -/
theorem run_twice_not_byte_identical :
    runText cxCodec ⟨[], ""⟩ [] "---\n---\nbody\n\n" =
      some "---\nresources: []\n---\nbody\n" ∧
    runText cxCodec ⟨[], ""⟩ [] "---\nresources: []\n---\nbody\n" =
      some "---\nresources: []\n---\nbody" ∧
    ("---\nresources: []\n---\nbody" : String) ≠
      "---\nresources: []\n---\nbody\n" := by
  refine ⟨by decide, by decide, by decide⟩

/-- Witness for the amended C2 at the concrete scenario: the run's own
output is a fixed point of a second run. -/
theorem second_run_reproduces_output_witness :
    runText c2Codec ⟨[], ""⟩ c1Imgs c1Res.output = some c1Res.output :=
  second_run_reproduces_output c2Codec ⟨[], ""⟩ c1Imgs "---\nX\n---\n"
    c1Res (by decide) (by decide) (by decide) (by decide) (by decide)
    (Or.inl (by decide))

end GenIndex
